import Mathlib

/-!
Shallow embedding of the pxrs pixel-art editor engine
(src/state.rs, src/tools.rs, src/main.rs, src/file_io.rs, src/utils.rs).

Modelling conventions:
* `u8` / `u32` / `usize` values are `ℕ`; `i32` values are `ℤ`.
* `f32` values are modelled as exact rationals `ℚ`.  Every claim settled
  below is robust to this idealisation: the confirmed properties are
  structural (index arithmetic, list manipulation, set bookkeeping) and the
  counterexamples exhibit divergences of whole byte magnitudes, far beyond
  any `f32` rounding error, at inputs where the concrete `f32` computations
  are themselves exact.
* Rust `f32::round` rounds half away from zero; a float-to-integer `as`
  cast truncates toward zero and saturates.  Both are modelled explicitly.
* `Vec<T>` is `List T`; `VecDeque` is a `List` used as a FIFO queue;
  `HashSet<(u32,u32)>` is a duplicate-free `List (ℕ × ℕ)` grown by
  membership-guarded insertion, exactly as the source checks
  `contains` before every `insert`.
* `Vec::sort` on `(u32, u32)` sorts by the (total, antisymmetric)
  lexicographic order, so its result is the unique sorted arrangement;
  it is modelled by insertion sort into that order.  `Vec::dedup`
  (removal of consecutive duplicates) is modelled by `dedupAdj`.
-/

namespace Pxrs

/-- Rust `f32::round`: round half away from zero. -/
def rustRound (q : ℚ) : ℤ :=
  if q < 0 then -⌊(1 / 2 : ℚ) - q⌋ else ⌊q + 1 / 2⌋

/-- Rust integer `as u8` saturating conversion applied to an `ℤ`. -/
def intToU8 (z : ℤ) : ℕ :=
  min 255 z.toNat

/-- Rust `as u8` cast of an `f32`: truncate toward zero, saturate to `[0, 255]`. -/
def ratToU8 (q : ℚ) : ℕ :=
  min 255 ⌊q⌋.toNat

/-- Rust `as i32` cast of an `f32`: truncate toward zero (saturation at the
`i32` bounds never fires on the inputs considered here). -/
def ratToI32 (q : ℚ) : ℤ :=
  if q < 0 then ⌈q⌉ else ⌊q⌋

/-- `iced::Color`, four `f32` channels. -/
structure Color where
  r : ℚ
  g : ℚ
  b : ℚ
  a : ℚ
  deriving DecidableEq, Repr

namespace Color

def TRANSPARENT : Color := ⟨0, 0, 0, 0⟩

def BLACK : Color := ⟨0, 0, 0, 1⟩

def WHITE : Color := ⟨1, 1, 1, 1⟩

/-- `iced::Color::from_rgba8`: byte channels scaled by `1/255`, alpha given
directly as a float. -/
def from_rgba8 (r g b : ℕ) (a : ℚ) : Color :=
  ⟨(r : ℚ) / 255, (g : ℚ) / 255, (b : ℚ) / 255, a⟩

/-- `iced::Color::from_rgba`. -/
def from_rgba (r g b a : ℚ) : Color := ⟨r, g, b, a⟩

/-- `iced::Color::into_rgba8`: each channel times 255, rounded, cast `as u8`. -/
def into_rgba8 (c : Color) : ℕ × ℕ × ℕ × ℕ :=
  (intToU8 (rustRound (c.r * 255)), intToU8 (rustRound (c.g * 255)),
   intToU8 (rustRound (c.b * 255)), intToU8 (rustRound (c.a * 255)))

end Color

/-- `utils::color_to_rgba8`. -/
def color_to_rgba8 (c : Color) : ℕ × ℕ × ℕ × ℕ := c.into_rgba8

/-- `utils::rgba8_to_color`. -/
def rgba8_to_color (rgba : ℕ × ℕ × ℕ × ℕ) : Color :=
  Color.from_rgba8 rgba.1 rgba.2.1 rgba.2.2.1 ((rgba.2.2.2 : ℚ) / 255)

/-- `utils::clamp_u32`: `value.max(min as i32).min(max as i32) as u32`. -/
def clamp_u32 (value : ℤ) (lo hi : ℕ) : ℕ :=
  (min (max value (lo : ℤ)) (hi : ℤ)).toNat

/-- `utils::clamp_f32`. -/
def clamp_f32 (value lo hi : ℚ) : ℚ :=
  min (max value lo) hi

/-- Write the four bytes of an RGBA quadruple at flat index `i`
(the sequence of four `List.set` writes used throughout the source). -/
def setQuad (l : List ℕ) (i : ℕ) (v : ℕ × ℕ × ℕ × ℕ) : List ℕ :=
  ((((l.set i v.1).set (i + 1) v.2.1).set (i + 2) v.2.2.1).set (i + 3) v.2.2.2)

/-- Read the four bytes of an RGBA quadruple at flat index `i`. -/
def getQuad (l : List ℕ) (i : ℕ) : ℕ × ℕ × ℕ × ℕ :=
  (l.getD i 0, l.getD (i + 1) 0, l.getD (i + 2) 0, l.getD (i + 3) 0)

/-- `state::Layer`. -/
structure Layer where
  name : String
  pixels : List ℕ
  width : ℕ
  height : ℕ
  visible : Bool
  opacity : ℚ
  deriving DecidableEq, Repr

namespace Layer

/-- `Layer::new`: a fully transparent (zero-filled) buffer. -/
def new (name : String) (width height : ℕ) : Layer :=
  ⟨name, List.replicate (width * height * 4) 0, width, height, true, 1⟩

/-- `Layer::get_pixel`. -/
def get_pixel (l : Layer) (x y : ℕ) : Color :=
  if x ≥ l.width ∨ y ≥ l.height then Color.TRANSPARENT
  else
    let index := (y * l.width + x) * 4
    if index + 3 < l.pixels.length then
      Color.from_rgba8 (l.pixels.getD index 0) (l.pixels.getD (index + 1) 0)
        (l.pixels.getD (index + 2) 0) ((l.pixels.getD (index + 3) 0 : ℚ) / 255)
    else Color.TRANSPARENT

/-- `Layer::set_pixel`. -/
def set_pixel (l : Layer) (x y : ℕ) (color : Color) : Layer :=
  if x ≥ l.width ∨ y ≥ l.height then l
  else
    let index := (y * l.width + x) * 4
    if index + 3 < l.pixels.length then
      { l with pixels := setQuad l.pixels index color.into_rgba8 }
    else l

/-- `Layer::get_pixel_buffer`. -/
def get_pixel_buffer (l : Layer) : List ℕ := l.pixels

end Layer

/-- `state::EditCommand`. -/
inductive EditCommand where
  | PixelChange (layer_index : ℕ) (x y : ℕ) (old_color new_color : Color)
  | MultiPixelChange (layer_index : ℕ) (changes : List (ℕ × ℕ × Color × Color))
  deriving DecidableEq, Repr

/-- `state::History`. -/
structure History where
  commands : List EditCommand
  current_index : ℕ
  deriving DecidableEq, Repr

namespace History

def new : History := ⟨[], 0⟩

/-- `History::push`: truncate at the cursor, append, bump the cursor, and
evict the oldest command when more than 100 are stored. -/
def push (h : History) (command : EditCommand) : History :=
  let commands := h.commands.take h.current_index ++ [command]
  let current_index := h.current_index + 1
  if commands.length > 100 then ⟨commands.drop 1, current_index - 1⟩
  else ⟨commands, current_index⟩

def can_undo (h : History) : Prop := h.current_index > 0

def can_redo (h : History) : Prop := h.current_index < h.commands.length

instance (h : History) : Decidable h.can_undo := by unfold can_undo; infer_instance

instance (h : History) : Decidable h.can_redo := by unfold can_redo; infer_instance

/-- `History::undo`, returning the yielded command (if any) together with
the updated history.  The source indexes `commands[current_index]` after the
decrement; under the maintained bound `current_index ≤ commands.length` the
`List.get?` access is always `some`. -/
def undo (h : History) : Option EditCommand × History :=
  if h.current_index > 0 then
    (h.commands.get? (h.current_index - 1), ⟨h.commands, h.current_index - 1⟩)
  else (none, h)

/-- `History::redo`. -/
def redo (h : History) : Option EditCommand × History :=
  if h.current_index < h.commands.length then
    (h.commands.get? h.current_index, ⟨h.commands, h.current_index + 1⟩)
  else (none, h)

/-- Iterated `undo`, collecting the returned commands. -/
def undoTimes : ℕ → History → List (Option EditCommand) × History
  | 0, h => ([], h)
  | n + 1, h =>
    let r := h.undo
    let rest := undoTimes n r.2
    (r.1 :: rest.1, rest.2)

end History

/-- `state::Tool`. -/
inductive Tool where
  | Pencil
  | Eraser
  | Fill
  | Selection
  | Eyedropper
  deriving DecidableEq, Repr

/-- `message::ExportFormat`. -/
inductive ExportFormat where
  | Png
  | Gif
  | Bmp
  deriving DecidableEq, Repr

/-- `iced::Rectangle` (f32 fields). -/
structure Rect where
  x : ℚ
  y : ℚ
  width : ℚ
  height : ℚ
  deriving DecidableEq, Repr

/-- `state::ClipboardData`. -/
structure ClipboardData where
  pixels : List ℕ
  width : ℕ
  height : ℕ
  deriving DecidableEq, Repr

/-- `state::EditorState`. -/
structure EditorState where
  canvas_width : ℕ
  canvas_height : ℕ
  current_tool : Tool
  primary_color : Color
  secondary_color : Color
  brush_size : ℕ
  zoom_level : ℚ
  grid_visible : Bool
  layers : List Layer
  active_layer_index : ℕ
  history : History
  selection : Option Rect
  clipboard : Option ClipboardData
  is_drawing : Bool
  last_pixel : Option (ℕ × ℕ)
  selected_export_format : ExportFormat
  is_selecting : Bool
  mirror_horizontal : Bool
  mirror_vertical : Bool
  used_colors : List Color
  deriving DecidableEq, Repr

/-- `state::blend_color`: both inputs are quantised to RGBA8 and re-scaled
before the source-over blend with opacity scaling. -/
def blend_color (bottom top : Color) (opacity : ℚ) : Color :=
  let bottom_rgba := bottom.into_rgba8
  let top_rgba := top.into_rgba8
  let br := (bottom_rgba.1 : ℚ) / 255
  let bg := (bottom_rgba.2.1 : ℚ) / 255
  let bb := (bottom_rgba.2.2.1 : ℚ) / 255
  let ba := (bottom_rgba.2.2.2 : ℚ) / 255
  let tr := (top_rgba.1 : ℚ) / 255
  let tg := (top_rgba.2.1 : ℚ) / 255
  let tb := (top_rgba.2.2.1 : ℚ) / 255
  let ta := (top_rgba.2.2.2 : ℚ) / 255
  let final_alpha := ta * opacity + ba * (1 - ta * opacity)
  if final_alpha = 0 then Color.TRANSPARENT
  else
    let r := (tr * ta * opacity + br * ba * (1 - ta * opacity)) / final_alpha
    let g := (tg * ta * opacity + bg * ba * (1 - ta * opacity)) / final_alpha
    let b := (tb * ta * opacity + bb * ba * (1 - ta * opacity)) / final_alpha
    Color.from_rgba r g b final_alpha

namespace EditorState

/-- `EditorState::default`. -/
def default : EditorState :=
  { canvas_width := 32
    canvas_height := 32
    current_tool := Tool.Pencil
    primary_color := Color.BLACK
    secondary_color := Color.WHITE
    brush_size := 1
    zoom_level := 8
    grid_visible := true
    layers := [Layer.new ("Layer 1") 32 32]
    active_layer_index := 0
    history := History.new
    selection := none
    clipboard := none
    is_drawing := false
    last_pixel := none
    selected_export_format := ExportFormat.Png
    is_selecting := false
    mirror_horizontal := false
    mirror_vertical := false
    used_colors := [Color.BLACK, Color.WHITE] }

/-- `EditorState::new`. -/
def new (width height : ℕ) : EditorState :=
  { default with
    canvas_width := width
    canvas_height := height
    layers := [Layer.new ("Layer 1") width height] }

/-- `EditorState::active_layer` (and the target of `active_layer_mut`). -/
def active_layer (s : EditorState) : Option Layer :=
  s.layers.get? s.active_layer_index

/-- `EditorState::get_pixel`: composite all visible layers bottom to top. -/
def get_pixel (s : EditorState) (x y : ℕ) : Color :=
  if x ≥ s.canvas_width ∨ y ≥ s.canvas_height then Color.TRANSPARENT
  else
    s.layers.foldl
      (fun result layer =>
        if layer.visible = false then result
        else blend_color result (layer.get_pixel x y) layer.opacity)
      Color.TRANSPARENT

/-- The `used_colors` update performed by `EditorState::add_used_color`. -/
def pushUsedColor (used_colors : List Color) (color : Color) : List Color :=
  if color.a < 1 / 100 then used_colors
  else
    let exists_close := used_colors.any (fun c =>
      |c.r - color.r| < 1 / 100 ∧ |c.g - color.g| < 1 / 100 ∧
      |c.b - color.b| < 1 / 100 ∧ |c.a - color.a| < 1 / 100)
    if exists_close then used_colors
    else
      let pushed := used_colors ++ [color]
      if pushed.length > 32 then pushed.drop 1 else pushed

/-- `EditorState::add_used_color`. -/
def add_used_color (s : EditorState) (color : Color) : EditorState :=
  { s with used_colors := pushUsedColor s.used_colors color }

/-- `EditorState::set_pixel`: write to the active layer (if any), then
register the colour. -/
def set_pixel (s : EditorState) (x y : ℕ) (color : Color) : EditorState :=
  match s.layers.get? s.active_layer_index with
  | none => s
  | some layer =>
    add_used_color
      { s with layers := s.layers.set s.active_layer_index (layer.set_pixel x y color) }
      color

/-- `EditorState::add_layer`. -/
def add_layer (s : EditorState) (name : String) : EditorState :=
  let layers := s.layers ++ [Layer.new name s.canvas_width s.canvas_height]
  { s with layers := layers, active_layer_index := layers.length - 1 }

/-- `EditorState::delete_layer`. -/
def delete_layer (s : EditorState) (index : ℕ) : EditorState :=
  if s.layers.length > 1 ∧ index < s.layers.length then
    let layers := s.layers.eraseIdx index
    if s.active_layer_index ≥ layers.length then
      { s with layers := layers, active_layer_index := layers.length - 1 }
    else { s with layers := layers }
  else s

end EditorState

/-! ## Tool engine (src/tools.rs) -/

/-- The lexicographic order `Ord` derives on Rust `(u32, u32)` pairs. -/
def posLe (a b : ℕ × ℕ) : Prop :=
  a.1 < b.1 ∨ (a.1 = b.1 ∧ a.2 ≤ b.2)

instance : DecidableRel posLe := fun a b => by unfold posLe; infer_instance

instance : IsTotal (ℕ × ℕ) posLe :=
  ⟨fun a b => by unfold posLe; omega⟩

instance : IsTrans (ℕ × ℕ) posLe :=
  ⟨fun a b c hab hbc => by unfold posLe at *; omega⟩

instance : IsAntisymm (ℕ × ℕ) posLe :=
  ⟨fun a b hab hba => by
    unfold posLe at *
    have : a.1 = b.1 ∧ a.2 = b.2 := by omega
    exact Prod.ext this.1 this.2⟩

/-- Rust `Vec::dedup`: remove consecutive duplicate elements. -/
def dedupAdj {α : Type} [DecidableEq α] : List α → List α
  | [] => []
  | [a] => [a]
  | a :: b :: rest => if a = b then dedupAdj (b :: rest) else a :: dedupAdj (b :: rest)

/-- Rust `positions.sort(); positions.dedup()` on `(u32, u32)` pairs.  Since
the lexicographic order is total and antisymmetric, `Vec::sort` produces the
unique sorted arrangement, here obtained by insertion sort. -/
def sortDedup (l : List (ℕ × ℕ)) : List (ℕ × ℕ) :=
  dedupAdj (List.insertionSort posLe l)

/-- The inclusive integer range `lo..=hi`. -/
def intRange (lo hi : ℤ) : List ℤ :=
  (List.range (hi + 1 - lo).toNat).map (fun i : ℕ => lo + (i : ℤ))

/-- `tools::get_brush_pixels`. -/
def get_brush_pixels (x y size canvas_width canvas_height : ℕ) : List (ℕ × ℕ) :=
  let radius : ℤ := ((size / 2 : ℕ) : ℤ)
  (intRange (-radius) radius).flatMap (fun dy =>
    (intRange (-radius) radius).filterMap (fun dx =>
      let px := (x : ℤ) + dx
      let py := (y : ℤ) + dy
      if 0 ≤ px ∧ 0 ≤ py ∧ px < (canvas_width : ℤ) ∧ py < (canvas_height : ℤ) then
        some (px.toNat, py.toNat)
      else none))

/-- `tools::get_mirrored_positions` (`saturating_sub` is `ℕ` subtraction). -/
def get_mirrored_positions (s : EditorState) (x y : ℕ) : List (ℕ × ℕ) :=
  let positions := [(x, y)]
  let positions := if s.mirror_horizontal then
    positions ++ [(s.canvas_width - 1 - x, y)] else positions
  let positions := if s.mirror_vertical then
    positions ++ [(x, s.canvas_height - 1 - y)] else positions
  let positions := if s.mirror_horizontal ∧ s.mirror_vertical then
    positions ++ [(s.canvas_width - 1 - x, s.canvas_height - 1 - y)] else positions
  sortDedup positions

/-- The deduplicated position list a pencil/eraser application stamps
(`all_positions` in `tools::apply_pencil`). -/
def pencil_positions (s : EditorState) (x y : ℕ) : List (ℕ × ℕ) :=
  sortDedup ((get_brush_pixels x y s.brush_size s.canvas_width s.canvas_height).flatMap
    (fun p => get_mirrored_positions s p.1 p.2))

/-- One iteration of the stamping loop shared by `apply_pencil` and
`apply_eraser`: skip out-of-canvas positions, read the old colour from the
active layer, write the new colour, record the change. -/
def stampAt (new_color : Color) (acc : EditorState × List (ℕ × ℕ × Color × Color))
    (p : ℕ × ℕ) : EditorState × List (ℕ × ℕ × Color × Color) :=
  if p.1 ≥ acc.1.canvas_width ∨ p.2 ≥ acc.1.canvas_height then acc
  else
    match acc.1.active_layer with
    | none => acc
    | some layer =>
      let old_color := layer.get_pixel p.1 p.2
      (acc.1.set_pixel p.1 p.2 new_color, acc.2 ++ [(p.1, p.2, old_color, new_color)])

/-- The history push ending `apply_pencil` / `apply_eraser`: one
`PixelChange` for a single change, one `MultiPixelChange` otherwise,
nothing when no pixel was recorded. -/
def pushStrokeCommand (layer_index : ℕ) (changes : List (ℕ × ℕ × Color × Color))
    (s : EditorState) : EditorState :=
  match changes with
  | [] => s
  | [c] =>
    { s with history :=
        s.history.push (EditCommand.PixelChange layer_index c.1 c.2.1 c.2.2.1 c.2.2.2) }
  | _ =>
    { s with history := s.history.push (EditCommand.MultiPixelChange layer_index changes) }

/-- `tools::apply_pencil`. -/
def apply_pencil (s : EditorState) (x y : ℕ) : EditorState :=
  if x ≥ s.canvas_width ∨ y ≥ s.canvas_height then s
  else
    let primary_color := s.primary_color
    let layer_index := s.active_layer_index
    let r := (pencil_positions s x y).foldl (stampAt primary_color) (s, [])
    pushStrokeCommand layer_index r.2 r.1

/-- `tools::apply_eraser`: identical to the pencil with a transparent target
colour. -/
def apply_eraser (s : EditorState) (x y : ℕ) : EditorState :=
  if x ≥ s.canvas_width ∨ y ≥ s.canvas_height then s
  else
    let new_color := Color.TRANSPARENT
    let layer_index := s.active_layer_index
    let r := (pencil_positions s x y).foldl (stampAt new_color) (s, [])
    pushStrokeCommand layer_index r.2 r.1

/-- `tools::apply_eyedropper`. -/
def apply_eyedropper (s : EditorState) (x y : ℕ) : EditorState :=
  if x ≥ s.canvas_width ∨ y ≥ s.canvas_height then s
  else
    let color := s.get_pixel x y
    if color.a > 1 / 100 then
      EditorState.add_used_color { s with primary_color := color } color
    else s

/-- The neighbour offsets explored by the flood fill, in source order
(left, right, up, down). -/
def fill_deltas : List (ℤ × ℤ) := [(-1, 0), (1, 0), (0, -1), (0, 1)]

/-- Intermediate state of the flood-fill BFS loop. -/
structure FillState where
  layer : Layer
  changes : List (ℕ × ℕ × Color × Color)
  queue : List (ℕ × ℕ)
  visited : List (ℕ × ℕ)
  deriving DecidableEq, Repr

/-- One neighbour visit of the BFS: bounds-check, visited-check, then
insert into the visited set and enqueue. -/
def fillVisit (canvas_width canvas_height : ℕ) (c : ℕ × ℕ)
    (vq : List (ℕ × ℕ) × List (ℕ × ℕ)) (d : ℤ × ℤ) :
    List (ℕ × ℕ) × List (ℕ × ℕ) :=
  let nx := (c.1 : ℤ) + d.1
  let ny := (c.2 : ℤ) + d.2
  if 0 ≤ nx ∧ 0 ≤ ny then
    let n := (nx.toNat, ny.toNat)
    if n ∉ vq.1 ∧ n.1 < canvas_width ∧ n.2 < canvas_height then
      (vq.1 ++ [n], vq.2 ++ [n])
    else vq
  else vq

/-- One iteration of the BFS `while let Some((cx, cy)) = queue.pop_front()`
body in `tools::apply_fill`. -/
def fillStep (primary_color target_color : Color) (canvas_width canvas_height : ℕ)
    (st : FillState) : FillState :=
  match st.queue with
  | [] => st
  | c :: rest =>
    if c.1 ≥ canvas_width ∨ c.2 ≥ canvas_height then { st with queue := rest }
    else
      let current_color := st.layer.get_pixel c.1 c.2
      if current_color ≠ target_color then { st with queue := rest }
      else
        let old_color := current_color
        let vq := fill_deltas.foldl (fillVisit canvas_width canvas_height c)
          (st.visited, rest)
        { layer := st.layer.set_pixel c.1 c.2 primary_color
          changes := st.changes ++ [(c.1, c.2, old_color, primary_color)]
          queue := vq.2
          visited := vq.1 }

/-- The BFS loop, fuelled.  Theorem `fillLoop_terminates` below shows that
`canvas_width * canvas_height` iterations always empty the queue, so with
that fuel this function coincides with the source's unbounded loop. -/
def fillLoop (primary_color target_color : Color) (canvas_width canvas_height : ℕ) :
    ℕ → FillState → FillState
  | 0, st => st
  | fuel + 1, st =>
    match st.queue with
    | [] => st
    | _ :: _ =>
      fillLoop primary_color target_color canvas_width canvas_height fuel
        (fillStep primary_color target_color canvas_width canvas_height st)

/-- `tools::apply_fill`. -/
def apply_fill (s : EditorState) (x y : ℕ) : EditorState :=
  if x ≥ s.canvas_width ∨ y ≥ s.canvas_height then s
  else
    let primary_color := s.primary_color
    let canvas_width := s.canvas_width
    let canvas_height := s.canvas_height
    let layer_index := s.active_layer_index
    match s.layers.get? s.active_layer_index with
    | none => s
    | some layer =>
      let target_color := layer.get_pixel x y
      if target_color = primary_color then s
      else
        let st := fillLoop primary_color target_color canvas_width canvas_height
          (canvas_width * canvas_height) ⟨layer, [], [(x, y)], [(x, y)]⟩
        let s' := { s with layers := s.layers.set layer_index st.layer }
        if st.changes ≠ [] then
          { s' with history :=
              s'.history.push (EditCommand.MultiPixelChange layer_index st.changes) }
        else s'

/-- Row-major coordinate enumeration `(y, x)` of a nested
`for y in ys { for x in xs { .. } }` loop. -/
def range2 (ys xs : List ℕ) : List (ℕ × ℕ) :=
  ys.flatMap (fun y => xs.map (fun x => (y, x)))

/-- `tools::get_selection_pixels`. -/
def get_selection_pixels (s : EditorState) (sel : Rect) : Option (List ℕ) :=
  let start_x := clamp_u32 (ratToI32 sel.x) 0 s.canvas_width
  let start_y := clamp_u32 (ratToI32 sel.y) 0 s.canvas_height
  let end_x := clamp_u32 (ratToI32 (sel.x + sel.width)) 0 s.canvas_width
  let end_y := clamp_u32 (ratToI32 (sel.y + sel.height)) 0 s.canvas_height
  if start_x ≥ end_x ∨ start_y ≥ end_y then none
  else
    let width := end_x - start_x
    let height := end_y - start_y
    let init := List.replicate (width * height * 4) 0
    some ((range2 (List.range' start_y height) (List.range' start_x width)).foldl
      (fun pixels yx =>
        let color := s.get_pixel yx.2 yx.1
        let rgba := color_to_rgba8 color
        let index := ((yx.1 - start_y) * width + (yx.2 - start_x)) * 4
        if index + 3 < pixels.length then setQuad pixels index rgba else pixels)
      init)

/-- `tools::paste_pixels`. -/
def paste_pixels (s : EditorState) (pixels : List ℕ) (start_x start_y width height : ℕ) :
    EditorState :=
  let canvas_width := s.canvas_width
  let canvas_height := s.canvas_height
  let layer_index := s.active_layer_index
  match s.layers.get? s.active_layer_index with
  | none => s
  | some layer =>
    let r := (range2 (List.range height) (List.range width)).foldl
      (fun (acc : Layer × List (ℕ × ℕ × Color × Color)) yx =>
        let canvas_x := start_x + yx.2
        let canvas_y := start_y + yx.1
        if canvas_x ≥ canvas_width ∨ canvas_y ≥ canvas_height then acc
        else
          let index := (yx.1 * width + yx.2) * 4
          if index + 3 < pixels.length then
            let old_color := acc.1.get_pixel canvas_x canvas_y
            let rgba := (pixels.getD index 0, pixels.getD (index + 1) 0,
              pixels.getD (index + 2) 0, pixels.getD (index + 3) 0)
            let new_color := rgba8_to_color rgba
            (acc.1.set_pixel canvas_x canvas_y new_color,
             acc.2 ++ [(canvas_x, canvas_y, old_color, new_color)])
          else acc)
      (layer, [])
    let s' := { s with layers := s.layers.set layer_index r.1 }
    if r.2 ≠ [] then
      { s' with history :=
          s'.history.push (EditCommand.MultiPixelChange layer_index r.2) }
    else s'

/-! ## Message handlers (src/main.rs `update`) and undo/redo application -/

/-- `main::apply_undo_command`: restore each `old_color`. -/
def apply_undo_command (s : EditorState) (command : EditCommand) : EditorState :=
  match command with
  | .PixelChange layer_index x y old_color _ =>
    match s.layers.get? layer_index with
    | none => s
    | some layer =>
      { s with layers := s.layers.set layer_index (layer.set_pixel x y old_color) }
  | .MultiPixelChange layer_index changes =>
    match s.layers.get? layer_index with
    | none => s
    | some layer =>
      { s with layers :=
          (s.layers.set layer_index
            (changes.foldl (fun l ch => l.set_pixel ch.1 ch.2.1 ch.2.2.1) layer)) }

/-- `main::apply_redo_command`: reapply each `new_color`. -/
def apply_redo_command (s : EditorState) (command : EditCommand) : EditorState :=
  match command with
  | .PixelChange layer_index x y _ new_color =>
    match s.layers.get? layer_index with
    | none => s
    | some layer =>
      { s with layers := s.layers.set layer_index (layer.set_pixel x y new_color) }
  | .MultiPixelChange layer_index changes =>
    match s.layers.get? layer_index with
    | none => s
    | some layer =>
      { s with layers :=
          (s.layers.set layer_index
            (changes.foldl (fun l ch => l.set_pixel ch.1 ch.2.1 ch.2.2.2) layer)) }

/-- `Message::Undo`. -/
def msgUndo (s : EditorState) : EditorState :=
  let r := s.history.undo
  let s' := { s with history := r.2 }
  match r.1 with
  | none => s'
  | some command => apply_undo_command s' command

/-- `Message::Redo`. -/
def msgRedo (s : EditorState) : EditorState :=
  let r := s.history.redo
  let s' := { s with history := r.2 }
  match r.1 with
  | none => s'
  | some command => apply_redo_command s' command

/-- `Message::CanvasResized`: reallocate every layer, content discarded. -/
def msgCanvasResized (s : EditorState) (width height : ℕ) : EditorState :=
  { s with
    canvas_width := width
    canvas_height := height
    layers := s.layers.map (fun layer =>
      { layer with
        pixels := List.replicate (width * height * 4) 0
        width := width
        height := height }) }

/-- `Message::CanvasCleared`: `pixels.fill(0)` on every layer. -/
def msgCanvasCleared (s : EditorState) : EditorState :=
  { s with layers := s.layers.map (fun layer =>
      { layer with pixels := layer.pixels.map (fun _ => 0) }) }

/-- `Message::LayerAdded`. -/
def msgLayerAdded (s : EditorState) (name : String) : EditorState :=
  s.add_layer name

/-- `Message::LayerDeleted`. -/
def msgLayerDeleted (s : EditorState) (index : ℕ) : EditorState :=
  s.delete_layer index

/-- `Message::LayerMoved`. -/
def msgLayerMoved (s : EditorState) (fromIdx toIdx : ℕ) : EditorState :=
  if fromIdx < s.layers.length ∧ toIdx < s.layers.length then
    match s.layers.get? fromIdx with
    | none => s
    | some layer =>
      let layers := (s.layers.eraseIdx fromIdx).insertIdx toIdx layer
      if s.active_layer_index = fromIdx then
        { s with layers := layers, active_layer_index := toIdx }
      else if s.active_layer_index = toIdx ∧ fromIdx < toIdx then
        { s with layers := layers, active_layer_index := s.active_layer_index - 1 }
      else if s.active_layer_index = toIdx ∧ fromIdx > toIdx then
        { s with layers := layers, active_layer_index := s.active_layer_index + 1 }
      else { s with layers := layers }
  else s

/-- `Message::LayerVisibilityToggled`. -/
def msgLayerVisibilityToggled (s : EditorState) (index : ℕ) : EditorState :=
  match s.layers.get? index with
  | none => s
  | some layer =>
    { s with layers := s.layers.set index { layer with visible := !layer.visible } }

/-- `Message::LayerSelected`. -/
def msgLayerSelected (s : EditorState) (index : ℕ) : EditorState :=
  if index < s.layers.length then { s with active_layer_index := index } else s

/-- `Message::LayerOpacityChanged`. -/
def msgLayerOpacityChanged (s : EditorState) (index : ℕ) (opacity : ℚ) : EditorState :=
  match s.layers.get? index with
  | none => s
  | some layer =>
    { s with layers := s.layers.set index { layer with opacity := clamp_f32 opacity 0 1 } }

/-- `Message::LayerRenamed`. -/
def msgLayerRenamed (s : EditorState) (index : ℕ) (name : String) : EditorState :=
  match s.layers.get? index with
  | none => s
  | some layer =>
    if name ≠ "" then { s with layers := s.layers.set index { layer with name := name } }
    else s

/-- `Message::FileNew`. -/
def msgFileNew (_s : EditorState) : EditorState :=
  EditorState.new 32 32

/-- `Message::FileLoaded`, non-empty `data` branch (the empty-`data` branch
re-reads the file through the external image codec and is out of scope).
`(pixel_count as f32).sqrt() as u32` is modelled by `Nat.sqrt`, which agrees
with the truncated `f32` square root on the perfect-square pixel counts used
in every theorem below. -/
def msgFileLoaded (s : EditorState) (data : List ℕ) : EditorState :=
  let pixel_count := data.length / 4
  let size := Nat.sqrt pixel_count
  let width := size
  let height := size
  let new_layer := { Layer.new ("Imported") width height with pixels := data }
  let layers := s.layers ++ [new_layer]
  let s' := { s with layers := layers, active_layer_index := layers.length - 1 }
  if width > s'.canvas_width ∨ height > s'.canvas_height then
    let cw := max width s'.canvas_width
    let ch := max height s'.canvas_height
    { s' with
      canvas_width := cw
      canvas_height := ch
      layers := s'.layers.map (fun layer =>
        if layer.width ≠ cw ∨ layer.height ≠ ch then
          { layer with
            pixels := List.replicate (cw * ch * 4) 0
            width := cw
            height := ch }
        else layer) }
  else s'

/-- `Message::SelectionStarted`. -/
def msgSelectionStarted (s : EditorState) (x y : ℚ) : EditorState :=
  { s with is_selecting := true, selection := some ⟨x, y, 0, 0⟩ }

/-- `Message::SelectionUpdated`. -/
def msgSelectionUpdated (s : EditorState) (x y : ℚ) : EditorState :=
  if s.is_selecting then
    match s.selection with
    | some sel =>
      { s with selection := some { sel with width := x - sel.x, height := y - sel.y } }
    | none =>
      if s.current_tool = Tool.Selection then
        { s with selection := some ⟨x, y, 0, 0⟩ }
      else s
  else s

/-- `Message::SelectionEnded`: normalise negative extents by moving the
origin. -/
def msgSelectionEnded (s : EditorState) : EditorState :=
  let s' := { s with is_selecting := false }
  match s'.selection with
  | none => s'
  | some sel =>
    let sel := if sel.width < 0 then
      { sel with x := sel.x + sel.width, width := |sel.width| } else sel
    let sel := if sel.height < 0 then
      { sel with y := sel.y + sel.height, height := |sel.height| } else sel
    { s' with selection := some sel }

/-- `Message::SelectionCleared`. -/
def msgSelectionCleared (s : EditorState) : EditorState :=
  { s with selection := none, is_selecting := false }

/-- `Message::CopySelection`. -/
def msgCopySelection (s : EditorState) : EditorState :=
  match s.selection with
  | none => s
  | some selection =>
    match get_selection_pixels s selection with
    | none => s
    | some pixels =>
      let start_x := clamp_u32 (ratToI32 selection.x) 0 s.canvas_width
      let start_y := clamp_u32 (ratToI32 selection.y) 0 s.canvas_height
      let end_x := clamp_u32 (ratToI32 (selection.x + selection.width)) 0 s.canvas_width
      let end_y := clamp_u32 (ratToI32 (selection.y + selection.height)) 0 s.canvas_height
      let width := end_x - start_x
      let height := end_y - start_y
      { s with clipboard := some ⟨pixels, width, height⟩ }

/-- `Message::PasteSelection`. -/
def msgPasteSelection (s : EditorState) (x y : ℕ) : EditorState :=
  match s.clipboard with
  | none => s
  | some clipboard =>
    paste_pixels s clipboard.pixels x y clipboard.width clipboard.height

/-- `Message::CutSelection`: copy like `CopySelection`, then clear the
clamped rectangle on the active layer. -/
def msgCutSelection (s : EditorState) : EditorState :=
  match s.selection with
  | none => s
  | some selection =>
    let canvas_width := s.canvas_width
    let canvas_height := s.canvas_height
    match get_selection_pixels s selection with
    | none => s
    | some pixels =>
      let start_x := clamp_u32 (ratToI32 selection.x) 0 canvas_width
      let start_y := clamp_u32 (ratToI32 selection.y) 0 canvas_height
      let end_x := clamp_u32 (ratToI32 (selection.x + selection.width)) 0 canvas_width
      let end_y := clamp_u32 (ratToI32 (selection.y + selection.height)) 0 canvas_height
      let width := end_x - start_x
      let height := end_y - start_y
      let s' := { s with clipboard := some ⟨pixels, width, height⟩ }
      match s'.layers.get? s'.active_layer_index with
      | none => s'
      | some layer =>
        { s' with layers :=
            (s'.layers.set s'.active_layer_index
              ((range2 (List.range' start_y height) (List.range' start_x width)).foldl
                (fun l yx => l.set_pixel yx.2 yx.1 Color.TRANSPARENT) layer)) }

/-! ## Export compositing (src/file_io.rs `save_image`) -/

/-- The flattened RGBA8 buffer `save_image` hands to the image codec: the
full-buffer compositing loop of `file_io::save_image` (the initial loop that
stores zeros into the freshly zero-allocated vector is the identity and is
modelled by the zero-filled initial buffer). -/
def save_composite (s : EditorState) : List ℕ :=
  let width := s.canvas_width
  let height := s.canvas_height
  let init := List.replicate (width * height * 4) 0
  s.layers.foldl
    (fun rgba_data layer =>
      if layer.visible = false then rgba_data
      else
        let layer_pixels := layer.get_pixel_buffer
        (range2 (List.range height) (List.range width)).foldl
          (fun rgba_data yx =>
            let index := (yx.1 * width + yx.2) * 4
            if index + 3 ≥ layer_pixels.length then rgba_data
            else
              let r := layer_pixels.getD index 0
              let g := layer_pixels.getD (index + 1) 0
              let b := layer_pixels.getD (index + 2) 0
              let a := layer_pixels.getD (index + 3) 0
              let out_index := (yx.1 * width + yx.2) * 4
              if out_index + 3 < rgba_data.length then
                let alpha := ((a : ℚ) / 255) * layer.opacity
                let inv_alpha := 1 - alpha
                setQuad rgba_data out_index
                  (ratToU8 ((r : ℚ) * alpha + (rgba_data.getD out_index 0 : ℚ) * inv_alpha),
                   ratToU8 ((g : ℚ) * alpha + (rgba_data.getD (out_index + 1) 0 : ℚ) * inv_alpha),
                   ratToU8 ((b : ℚ) * alpha + (rgba_data.getD (out_index + 2) 0 : ℚ) * inv_alpha),
                   ratToU8 (min ((rgba_data.getD (out_index + 3) 0 : ℚ) + (a : ℚ) * layer.opacity) 255))
              else rgba_data)
          rgba_data)
    init

/-! ## Well-formedness and spec-side predicates -/

/-- Well-formedness of one layer with respect to the canvas dimensions:
the shape facts the Rust types make intrinsic (`Vec<u8>` entries are bytes,
the buffer has `width*height*4` entries) plus the dimension agreement the
spec states as an invariant. -/
def LayerWf (cw ch : ℕ) (l : Layer) : Prop :=
  l.width = cw ∧ l.height = ch ∧ l.pixels.length = cw * ch * 4 ∧ ∀ b ∈ l.pixels, b ≤ 255

/-- History cursor bound maintained by `push`/`undo`/`redo`. -/
def HistoryWf (h : History) : Prop :=
  h.current_index ≤ h.commands.length ∧ h.commands.length ≤ 100

/-- Well-formedness of the whole editor state. -/
def StateWf (s : EditorState) : Prop :=
  s.active_layer_index < s.layers.length ∧
  (∀ l ∈ s.layers, LayerWf s.canvas_width s.canvas_height l) ∧
  HistoryWf s.history

/-- The canvas invariant exactly as claim C3 states it: at least one layer,
a valid active index, and every layer sized to the canvas. -/
def CanvasInv (s : EditorState) : Prop :=
  s.layers ≠ [] ∧
  s.active_layer_index < s.layers.length ∧
  ∀ l ∈ s.layers, l.width = s.canvas_width ∧ l.height = s.canvas_height

/-- 4-connectivity of two grid cells. -/
def adjacent4 (p q : ℕ × ℕ) : Prop :=
  ((p.1 : ℤ) - q.1).natAbs + ((p.2 : ℤ) - q.2).natAbs = 1

/-- Modelled from the spec: the "4-connected region of color C containing
the seed" that the flood fill must paint — the closure of the seed under
steps to in-bounds 4-neighbours holding the target colour on the given
layer.  This is the independent reference definition the BFS is compared
against. -/
inductive FillRegion (layer : Layer) (target : Color) (cw ch : ℕ) (seed : ℕ × ℕ) :
    ℕ × ℕ → Prop
  | seed : seed.1 < cw → seed.2 < ch → layer.get_pixel seed.1 seed.2 = target →
      FillRegion layer target cw ch seed seed
  | step (p q : ℕ × ℕ) : FillRegion layer target cw ch seed p → adjacent4 p q →
      q.1 < cw → q.2 < ch → layer.get_pixel q.1 q.2 = target →
      FillRegion layer target cw ch seed q

/-! ## Derived definitions used in theorem statements -/

/-- Write `color` at every position of `ps` in order (the pixel writes a
stroke, fill, or redo performs on one layer). -/
def paintAll (layer : Layer) (ps : List (ℕ × ℕ)) (color : Color) : Layer :=
  ps.foldl (fun l p => l.set_pixel p.1 p.2 color) layer

/-- A sequence of pencil strokes. -/
def applyStrokes (s : EditorState) (strokes : List (ℕ × ℕ)) : EditorState :=
  strokes.foldl (fun s p => apply_pencil s p.1 p.2) s

/-- Iterated `Message::Undo`. -/
def undoN : ℕ → EditorState → EditorState
  | 0, s => s
  | n + 1, s => undoN n (msgUndo s)

/-- Iterated `Message::Redo`. -/
def redoN : ℕ → EditorState → EditorState
  | 0, s => s
  | n + 1, s => redoN n (msgRedo s)

/-- The undoable past: commands before the cursor, most recent first. -/
def undoList (h : History) : List EditCommand :=
  (h.commands.take h.current_index).reverse

/-- The redoable future: commands at and after the cursor, in order. -/
def redoList (h : History) : List EditCommand :=
  h.commands.drop h.current_index

/-- The layer-list effect of `main::apply_undo_command`. -/
def applyUndoLayers (layers : List Layer) (command : EditCommand) : List Layer :=
  match command with
  | .PixelChange layer_index x y old_color _ =>
    match layers.get? layer_index with
    | none => layers
    | some layer => layers.set layer_index (layer.set_pixel x y old_color)
  | .MultiPixelChange layer_index changes =>
    match layers.get? layer_index with
    | none => layers
    | some layer =>
      layers.set layer_index
        (changes.foldl (fun l ch => l.set_pixel ch.1 ch.2.1 ch.2.2.1) layer)

/-- The layer-list effect of `main::apply_redo_command`. -/
def applyRedoLayers (layers : List Layer) (command : EditCommand) : List Layer :=
  match command with
  | .PixelChange layer_index x y _ new_color =>
    match layers.get? layer_index with
    | none => layers
    | some layer => layers.set layer_index (layer.set_pixel x y new_color)
  | .MultiPixelChange layer_index changes =>
    match layers.get? layer_index with
    | none => layers
    | some layer =>
      layers.set layer_index
        (changes.foldl (fun l ch => l.set_pixel ch.1 ch.2.1 ch.2.2.2) layer)

/-- The change list a pencil application records (old colour read from the
active layer, new colour the primary colour), one entry per stamped
position. -/
def pencil_changes (s : EditorState) (x y : ℕ) : List (ℕ × ℕ × Color × Color) :=
  match s.layers.get? s.active_layer_index with
  | none => []
  | some layer =>
    (pencil_positions s x y).map (fun p => (p.1, p.2, layer.get_pixel p.1 p.2, s.primary_color))

/-- The command a non-empty change list is recorded as (`PixelChange` for a
single change, `MultiPixelChange` otherwise). -/
def strokeCommand (layer_index : ℕ) (changes : List (ℕ × ℕ × Color × Color)) : EditCommand :=
  match changes with
  | [c] => .PixelChange layer_index c.1 c.2.1 c.2.2.1 c.2.2.2
  | _ => .MultiPixelChange layer_index changes

/-- The commands pushed by a sequence of pencil strokes, in push order. -/
def strokeCmds : EditorState → List (ℕ × ℕ) → List EditCommand
  | _, [] => []
  | s, p :: rest =>
    strokeCommand s.active_layer_index (pencil_changes s p.1 p.2) ::
      strokeCmds (apply_pencil s p.1 p.2) rest

/-- The positions an edit command touches. -/
def cmdPositions : EditCommand → List (ℕ × ℕ)
  | .PixelChange _ x y _ _ => [(x, y)]
  | .MultiPixelChange _ changes => changes.map (fun c => (c.1, c.2.1))

/-- Per-channel closeness used by the `used_colors` dedup scan. -/
def colorClose (c d : Color) : Prop :=
  |c.r - d.r| < 1 / 100 ∧ |c.g - d.g| < 1 / 100 ∧ |c.b - d.b| < 1 / 100 ∧ |c.a - d.a| < 1 / 100

instance (c d : Color) : Decidable (colorClose c d) := by unfold colorClose; infer_instance

/-- Hypothesis of the amended export claim: every visible layer has full
opacity and only fully opaque or fully transparent pixels. -/
def OpaqueFlat (s : EditorState) : Prop :=
  ∀ l ∈ s.layers, l.visible = true → l.opacity = 1 ∧
    ∀ i ∈ List.range (s.canvas_width * s.canvas_height),
      l.pixels.getD (i * 4 + 3) 0 = 0 ∨ l.pixels.getD (i * 4 + 3) 0 = 255

/-- Accumulator shape maintained by the per-pixel compositing fold under the
`OpaqueFlat` assumption: either fully transparent, or an exact byte colour
with alpha one. -/
def GoodAcc (c : Color) : Prop :=
  c = Color.TRANSPARENT ∨
  ∃ r g b : ℕ, r ≤ 255 ∧ g ≤ 255 ∧ b ≤ 255 ∧ c = Color.from_rgba8 r g b 1

/-- The per-pixel RGBA computation of `save_image`'s compositing loop:
blend the layer quad `lq` over the output quad `old`. -/
def exportBlend (opacity : ℚ) (lq old : ℕ × ℕ × ℕ × ℕ) : ℕ × ℕ × ℕ × ℕ :=
  let alpha := ((lq.2.2.2 : ℚ) / 255) * opacity
  let inv_alpha := 1 - alpha
  (ratToU8 ((lq.1 : ℚ) * alpha + (old.1 : ℚ) * inv_alpha),
   ratToU8 ((lq.2.1 : ℚ) * alpha + (old.2.1 : ℚ) * inv_alpha),
   ratToU8 ((lq.2.2.1 : ℚ) * alpha + (old.2.2.1 : ℚ) * inv_alpha),
   ratToU8 (min ((old.2.2.2 : ℚ) + (lq.2.2.2 : ℚ) * opacity) 255))

/-- One cell of `save_image`'s inner loop, exactly as in the source. -/
def exportCellStep (cw : ℕ) (layer : Layer) (rgba_data : List ℕ) (yx : ℕ × ℕ) : List ℕ :=
  let index := (yx.1 * cw + yx.2) * 4
  if index + 3 ≥ layer.get_pixel_buffer.length then rgba_data
  else
    let r := layer.get_pixel_buffer.getD index 0
    let g := layer.get_pixel_buffer.getD (index + 1) 0
    let b := layer.get_pixel_buffer.getD (index + 2) 0
    let a := layer.get_pixel_buffer.getD (index + 3) 0
    let out_index := (yx.1 * cw + yx.2) * 4
    if out_index + 3 < rgba_data.length then
      let alpha := ((a : ℚ) / 255) * layer.opacity
      let inv_alpha := 1 - alpha
      setQuad rgba_data out_index
        (ratToU8 ((r : ℚ) * alpha + (rgba_data.getD out_index 0 : ℚ) * inv_alpha),
         ratToU8 ((g : ℚ) * alpha + (rgba_data.getD (out_index + 1) 0 : ℚ) * inv_alpha),
         ratToU8 ((b : ℚ) * alpha + (rgba_data.getD (out_index + 2) 0 : ℚ) * inv_alpha),
         ratToU8 (min ((rgba_data.getD (out_index + 3) 0 : ℚ) + (a : ℚ) * layer.opacity) 255))
    else rgba_data

/-- One layer's pass of `save_image`'s compositing loop over the given cells. -/
def exportPass (cw : ℕ) (layer : Layer) (buf : List ℕ) (qs : List (ℕ × ℕ)) : List ℕ :=
  qs.foldl (exportCellStep cw layer) buf

/-! ## Concrete states for counterexamples and witnesses -/

/-- The clamped selection bounds computed identically by
`get_selection_pixels`, `CopySelection` and `CutSelection`. -/
def selStartX (s : EditorState) (sel : Rect) : ℕ :=
  clamp_u32 (ratToI32 sel.x) 0 s.canvas_width

def selStartY (s : EditorState) (sel : Rect) : ℕ :=
  clamp_u32 (ratToI32 sel.y) 0 s.canvas_height

def selEndX (s : EditorState) (sel : Rect) : ℕ :=
  clamp_u32 (ratToI32 (sel.x + sel.width)) 0 s.canvas_width

def selEndY (s : EditorState) (sel : Rect) : ℕ :=
  clamp_u32 (ratToI32 (sel.y + sel.height)) 0 s.canvas_height

/-- Clamped selection width. -/
def selW (s : EditorState) (sel : Rect) : ℕ := selEndX s sel - selStartX s sel

/-- Clamped selection height. -/
def selH (s : EditorState) (sel : Rect) : ℕ := selEndY s sel - selStartY s sel

/-- The buffer-filling loop of `get_selection_pixels`, abstracted over the
per-cell RGBA source `f`: visit the `(y, x)` cells in order, storing `f (y, x)`
at the cell's rectangle-relative row-major quad. -/
def selFoldF (f : ℕ × ℕ → ℕ × ℕ × ℕ × ℕ) (sx sy w : ℕ) (buf : List ℕ)
    (qs : List (ℕ × ℕ)) : List ℕ :=
  qs.foldl (fun pixels yx =>
    let index := ((yx.1 - sy) * w + (yx.2 - sx)) * 4
    if index + 3 < pixels.length then setQuad pixels index (f yx) else pixels) buf

/-- The property claim C2 asserts of `CutSelection`, with its history clause
amended to what the code does: the clipboard receives the composited
clamped-rectangle read, the active layer is cleared to transparent inside the
clamped rectangle and untouched outside it, and the history is left unchanged
(the code pushes no command). -/
def CutSpec (s : EditorState) (sel : Rect) (pixels : List ℕ) (L : Layer) : Prop :=
  (msgCutSelection s).clipboard = some ⟨pixels, selW s sel, selH s sel⟩ ∧
  pixels.length = selW s sel * selH s sel * 4 ∧
  (∀ x y, x < selW s sel → y < selH s sel →
    getQuad pixels ((y * selW s sel + x) * 4)
      = color_to_rgba8 (s.get_pixel (selStartX s sel + x) (selStartY s sel + y))) ∧
  (∃ R, (msgCutSelection s).layers = s.layers.set s.active_layer_index R ∧
    (∀ x y, selStartX s sel ≤ x → x < selEndX s sel →
      selStartY s sel ≤ y → y < selEndY s sel →
      R.get_pixel x y = Color.TRANSPARENT) ∧
    (∀ x y, x < s.canvas_width → y < s.canvas_height →
      ¬(selStartX s sel ≤ x ∧ x < selEndX s sel ∧
        selStartY s sel ≤ y ∧ y < selEndY s sel) →
      R.get_pixel x y = L.get_pixel x y)) ∧
  (msgCutSelection s).history = s.history

/-- The coordinates the flood-fill BFS has painted so far (first two fields
of each recorded change). -/
def painted (st : FillState) : List (ℕ × ℕ) :=
  st.changes.map (fun e => (e.1, e.2.1))

/-- The bookkeeping invariant of the BFS that drives its termination: the
visited set holds distinct in-bounds cells, and the queue is a duplicate-free
subset of the visited set — so every cell is enqueued at most once. -/
def FillInvT (cw ch : ℕ) (st : FillState) : Prop :=
  st.visited.Nodup ∧
  (∀ p ∈ st.visited, p.1 < cw ∧ p.2 < ch) ∧
  (∀ p ∈ st.queue, p ∈ st.visited) ∧
  st.queue.Nodup

/-- The functional invariant of the BFS relating the evolving state to the
original layer `L`, the target colour `tc`, the paint colour `pc` and the
seed: painted cells are exactly region cells processed so far, the layer
differs from `L` exactly on painted quads, visited cells are the seed or
neighbours of region cells, painted cells have all in-bounds neighbours
visited, and every visited target-coloured cell is painted or still queued. -/
def FillInvF (L : Layer) (tc pc : Color) (cw ch : ℕ) (seed : ℕ × ℕ)
    (st : FillState) : Prop :=
  (∀ p ∈ painted st, p ∉ st.queue) ∧
  (∀ p ∈ painted st, p ∈ st.visited) ∧
  (∀ e ∈ st.changes, e.2.2.1 = tc ∧ e.2.2.2 = pc) ∧
  (painted st).Nodup ∧
  (∀ p ∈ painted st, FillRegion L tc cw ch seed p) ∧
  st.layer.width = L.width ∧
  st.layer.height = L.height ∧
  st.layer.pixels.length = L.pixels.length ∧
  (∀ p : ℕ × ℕ, p.1 < cw → p.2 < ch →
    (p ∈ painted st → getQuad st.layer.pixels ((p.2 * cw + p.1) * 4) = pc.into_rgba8) ∧
    (p ∉ painted st → getQuad st.layer.pixels ((p.2 * cw + p.1) * 4)
        = getQuad L.pixels ((p.2 * cw + p.1) * 4))) ∧
  (∀ p ∈ st.visited, p = seed ∨ ∃ q, FillRegion L tc cw ch seed q ∧ adjacent4 q p) ∧
  (∀ p ∈ painted st, ∀ q : ℕ × ℕ, adjacent4 p q → q.1 < cw → q.2 < ch →
    q ∈ st.visited) ∧
  (∀ q ∈ st.visited, L.get_pixel q.1 q.2 = tc → q ∈ painted st ∨ q ∈ st.queue) ∧
  seed ∈ st.visited

/-- The property claim C5 asserts of `apply_fill` at an in-bounds seed on
active layer `L`: a same-colour fill is the identity; otherwise exactly the
4-connected same-colour region of the seed is repainted with the primary
colour, everything else is untouched, and the whole edit is recorded as one
`MultiPixelChange`. -/
def FillSpec (s : EditorState) (x y : ℕ) (L : Layer) : Prop :=
  (L.get_pixel x y = s.primary_color → apply_fill s x y = s) ∧
  (L.get_pixel x y ≠ s.primary_color →
    ∃ P : List (ℕ × ℕ),
      (∀ p : ℕ × ℕ, p ∈ P ↔
        FillRegion L (L.get_pixel x y) s.canvas_width s.canvas_height (x, y) p) ∧
      P.Nodup ∧
      (apply_fill s x y).history
        = s.history.push (EditCommand.MultiPixelChange s.active_layer_index
            (P.map (fun p => (p.1, p.2, L.get_pixel x y, s.primary_color)))) ∧
      ∃ R : Layer, (apply_fill s x y).layers = s.layers.set s.active_layer_index R ∧
        ∀ p : ℕ × ℕ, p.1 < s.canvas_width → p.2 < s.canvas_height →
          (p ∈ P → getQuad R.pixels ((p.2 * s.canvas_width + p.1) * 4)
              = s.primary_color.into_rgba8) ∧
          (p ∉ P → getQuad R.pixels ((p.2 * s.canvas_width + p.1) * 4)
              = getQuad L.pixels ((p.2 * s.canvas_width + p.1) * 4)))

/-- The property claim C6 asserts of the BFS loop: starting from an in-bounds
seed, `canvas_width * canvas_height` iterations always drain the queue, and
the visited set remains a duplicate-free set of in-bounds cells of size at
most the canvas area. -/
def FillTermSpec (pc tc : Color) (cw ch : ℕ) (L : Layer) (x y : ℕ) : Prop :=
  (fillLoop pc tc cw ch (cw * ch) ⟨L, [], [(x, y)], [(x, y)]⟩).queue = [] ∧
  (fillLoop pc tc cw ch (cw * ch) ⟨L, [], [(x, y)], [(x, y)]⟩).visited.Nodup ∧
  (∀ p ∈ (fillLoop pc tc cw ch (cw * ch) ⟨L, [], [(x, y)], [(x, y)]⟩).visited,
    p.1 < cw ∧ p.2 < ch) ∧
  (fillLoop pc tc cw ch (cw * ch) ⟨L, [], [(x, y)], [(x, y)]⟩).visited.length ≤ cw * ch

/-- 1×1 canvas whose single layer holds one half-transparent red pixel. -/
def exportCexState : EditorState :=
  { EditorState.new 1 1 with
    layers := [{ Layer.new ("Layer 1") 1 1 with pixels := [255, 0, 0, 128] }] }

/-- 2×2 canvas with a 1×1 selection over an opaque pixel. -/
def cutCexState : EditorState :=
  { EditorState.new 2 2 with
    selection := some ⟨0, 0, 1, 1⟩
    layers := [{ Layer.new ("Layer 1") 2 2 with
      pixels := [10, 20, 30, 255] ++ List.replicate 12 0 }] }

/-- A selection drag from (5,5) to (2,2), just before release. -/
def selDragState : EditorState :=
  msgSelectionUpdated (msgSelectionStarted (EditorState.new 10 10) 5 5) 2 2

/-- 2×2 canvas whose active layer is all transparent except pixel (1,1). -/
def fillWitState : EditorState :=
  { EditorState.new 2 2 with
    layers := [{ Layer.new ("Layer 1") 2 2 with
      pixels := List.replicate 12 0 ++ [255, 255, 255, 255] }] }

/-- 3×3 canvas with horizontal mirroring enabled. -/
def mirrorWitState : EditorState :=
  { EditorState.new 3 3 with mirror_horizontal := true }

def histCmd (i : ℕ) : EditCommand :=
  EditCommand.PixelChange i 0 0 Color.TRANSPARENT Color.TRANSPARENT

/-- 101 distinct commands pushed onto an empty history. -/
def hist101 : History :=
  (List.range 101).foldl (fun h i => h.push (histCmd i)) History.new

/-- 101 identical pencil strokes on a 1×1 canvas. -/
def strokes101 : List (ℕ × ℕ) := List.replicate 101 (0, 0)

/-! # Theorems

## List and byte-buffer helpers -/

section

attribute [local semireducible] Rat.add Rat.sub Rat.mul Rat.inv

theorem getD_set (l : List ℕ) (i j a : ℕ) :
    (l.set i a).getD j 0 = if i = j ∧ i < l.length then a else l.getD j 0 := by
  rcases Nat.lt_or_ge j l.length with hj | hj
  · simp only [List.getD_eq_getElem?_getD, List.getElem?_set]
    split <;> split <;> simp_all
  · have h1 : (l.set i a).getD j 0 = 0 := by
      simp [List.getD_eq_getElem?_getD,
        List.getElem?_eq_none (by simpa using hj : (l.set i a).length ≤ j)]
    have h2 : l.getD j 0 = 0 := by
      simp [List.getD_eq_getElem?_getD, List.getElem?_eq_none hj]
    rw [h1, h2]
    split
    · omega
    · rfl

theorem list_set_self {α : Type} (l : List α) (n : ℕ) (a : α) (h : l.get? n = some a) :
    l.set n a = l := by
  apply List.ext_getElem?
  intro m
  rw [List.getElem?_set]
  split
  · rename_i hnm
    rw [List.get?_eq_getElem?] at h
    have hm : n < l.length := by
      by_contra hc
      rw [List.getElem?_eq_none (by omega)] at h
      exact Option.noConfusion h
    subst hnm
    simp [hm, ← h]
  · rfl

theorem list_ext_getD (l₁ l₂ : List ℕ) (hlen : l₁.length = l₂.length)
    (h : ∀ j, l₁.getD j 0 = l₂.getD j 0) : l₁ = l₂ := by
  apply List.ext_getElem?
  intro n
  rcases Nat.lt_or_ge n l₁.length with hn | hn
  · have hn₂ : n < l₂.length := by omega
    have e₁ : l₁[n]? = some (l₁.getD n 0) := by
      rw [List.getElem?_eq_getElem hn, List.getD_eq_getElem l₁ 0 hn]
    have e₂ : l₂[n]? = some (l₂.getD n 0) := by
      rw [List.getElem?_eq_getElem hn₂, List.getD_eq_getElem l₂ 0 hn₂]
    rw [e₁, e₂, h n]
  · rw [List.getElem?_eq_none hn, List.getElem?_eq_none (by omega)]

theorem length_setQuad (l : List ℕ) (i : ℕ) (v : ℕ × ℕ × ℕ × ℕ) :
    (setQuad l i v).length = l.length := by
  simp [setQuad]

theorem getD_setQuad (l : List ℕ) (i : ℕ) (v : ℕ × ℕ × ℕ × ℕ) (j : ℕ) :
    (setQuad l i v).getD j 0 =
      if i + 3 = j ∧ j < l.length then v.2.2.2
      else if i + 2 = j ∧ j < l.length then v.2.2.1
      else if i + 1 = j ∧ j < l.length then v.2.1
      else if i = j ∧ j < l.length then v.1
      else l.getD j 0 := by
  obtain ⟨v1, v2, v3, v4⟩ := v
  unfold setQuad
  rw [getD_set, getD_set, getD_set, getD_set]
  simp only [List.length_set]
  split_ifs <;> omega

theorem getD_setQuad_miss (l : List ℕ) (i : ℕ) (v : ℕ × ℕ × ℕ × ℕ) (j : ℕ)
    (h : j < i ∨ i + 3 < j) : (setQuad l i v).getD j 0 = l.getD j 0 := by
  rw [getD_setQuad]
  rw [if_neg (show ¬(i + 3 = j ∧ j < l.length) by omega)]
  rw [if_neg (show ¬(i + 2 = j ∧ j < l.length) by omega)]
  rw [if_neg (show ¬(i + 1 = j ∧ j < l.length) by omega)]
  rw [if_neg (show ¬(i = j ∧ j < l.length) by omega)]

theorem getD_setQuad_hit (l : List ℕ) (i : ℕ) (v : ℕ × ℕ × ℕ × ℕ)
    (h : i + 3 < l.length) :
    (setQuad l i v).getD i 0 = v.1 ∧ (setQuad l i v).getD (i + 1) 0 = v.2.1 ∧
    (setQuad l i v).getD (i + 2) 0 = v.2.2.1 ∧ (setQuad l i v).getD (i + 3) 0 = v.2.2.2 := by
  refine ⟨?_, ?_, ?_, ?_⟩
  · rw [getD_setQuad]
    rw [if_neg (show ¬(i + 3 = i ∧ i < l.length) by omega)]
    rw [if_neg (show ¬(i + 2 = i ∧ i < l.length) by omega)]
    rw [if_neg (show ¬(i + 1 = i ∧ i < l.length) by omega)]
    rw [if_pos (show i = i ∧ i < l.length by omega)]
  · rw [getD_setQuad]
    rw [if_neg (show ¬(i + 3 = i + 1 ∧ i + 1 < l.length) by omega)]
    rw [if_neg (show ¬(i + 2 = i + 1 ∧ i + 1 < l.length) by omega)]
    rw [if_pos (show i + 1 = i + 1 ∧ i + 1 < l.length by omega)]
  · rw [getD_setQuad]
    rw [if_neg (show ¬(i + 3 = i + 2 ∧ i + 2 < l.length) by omega)]
    rw [if_pos (show i + 2 = i + 2 ∧ i + 2 < l.length by omega)]
  · rw [getD_setQuad]
    rw [if_pos (show i + 3 = i + 3 ∧ i + 3 < l.length by omega)]

theorem getQuad_setQuad_self (l : List ℕ) (i : ℕ) (v : ℕ × ℕ × ℕ × ℕ)
    (h : i + 3 < l.length) : getQuad (setQuad l i v) i = v := by
  unfold getQuad
  obtain ⟨h0, h1, h2, h3⟩ := getD_setQuad_hit l i v h
  rw [h0, h1, h2, h3]

theorem getQuad_setQuad_disjoint (l : List ℕ) (i j : ℕ) (v : ℕ × ℕ × ℕ × ℕ)
    (h : j + 3 < i ∨ i + 3 < j) : getQuad (setQuad l i v) j = getQuad l j := by
  unfold getQuad
  rw [getD_setQuad_miss l i v j (by omega), getD_setQuad_miss l i v (j + 1) (by omega),
    getD_setQuad_miss l i v (j + 2) (by omega), getD_setQuad_miss l i v (j + 3) (by omega)]

theorem setQuad_getQuad_self (l : List ℕ) (i : ℕ) :
    setQuad l i (getQuad l i) = l := by
  apply list_ext_getD
  · exact length_setQuad l i _
  · intro j
    rw [getD_setQuad]
    unfold getQuad
    split_ifs <;> simp_all

theorem setQuad_setQuad_same (l : List ℕ) (i : ℕ) (v w : ℕ × ℕ × ℕ × ℕ) :
    setQuad (setQuad l i v) i w = setQuad l i w := by
  apply list_ext_getD
  · rw [length_setQuad, length_setQuad, length_setQuad]
  · intro j
    rw [getD_setQuad, getD_setQuad, getD_setQuad]
    simp only [length_setQuad]
    split_ifs <;> omega

theorem setQuad_comm (l : List ℕ) (i j : ℕ) (v w : ℕ × ℕ × ℕ × ℕ)
    (h : j + 3 < i ∨ i + 3 < j) :
    setQuad (setQuad l i v) j w = setQuad (setQuad l j w) i v := by
  apply list_ext_getD
  · simp [length_setQuad]
  · intro k
    rw [getD_setQuad, getD_setQuad, getD_setQuad, getD_setQuad]
    simp only [length_setQuad]
    split_ifs <;> omega

theorem rustRound_natCast (n : ℕ) : rustRound (n : ℚ) = n := by
  unfold rustRound
  rw [if_neg (by exact not_lt.mpr (by positivity))]
  have hfl : ⌊(n : ℚ) + 1 / 2⌋ = (n : ℤ) := by
    rw [Int.floor_eq_iff]
    constructor
    · push_cast
      linarith
    · push_cast
      linarith
  rw [hfl]

theorem roundtrip_byte (b : ℕ) (hb : b ≤ 255) :
    intToU8 (rustRound ((b : ℚ) / 255 * 255)) = b := by
  have he : ((b : ℚ) / 255 * 255) = (b : ℚ) := by field_simp
  rw [he, rustRound_natCast]
  unfold intToU8
  omega

theorem into_from_rgba8 (r g b a : ℕ) (hr : r ≤ 255) (hg : g ≤ 255) (hb : b ≤ 255)
    (ha : a ≤ 255) :
    (Color.from_rgba8 r g b ((a : ℚ) / 255)).into_rgba8 = (r, g, b, a) := by
  unfold Color.from_rgba8 Color.into_rgba8
  simp only
  rw [roundtrip_byte r hr, roundtrip_byte g hg, roundtrip_byte b hb, roundtrip_byte a ha]

theorem intToU8_le (z : ℤ) : intToU8 z ≤ 255 := by
  unfold intToU8; omega

theorem ratToU8_le (q : ℚ) : ratToU8 q ≤ 255 := by
  unfold ratToU8; omega

theorem ratToU8_natCast (n : ℕ) (hn : n ≤ 255) : ratToU8 (n : ℚ) = n := by
  unfold ratToU8
  rw [Int.floor_natCast]
  omega

/-! ## Layer lemmas -/

theorem rowMajor_ne {w : ℕ} {p q : ℕ × ℕ} (hp : p.1 < w) (hq : q.1 < w) (h : p ≠ q) :
    p.2 * w + p.1 ≠ q.2 * w + q.1 := by
  intro he
  apply h
  have h2 : p.2 = q.2 := by
    rcases Nat.lt_trichotomy p.2 q.2 with hlt | heq | hgt
    · exfalso
      have hc : p.2 * w + p.1 < q.2 * w + q.1 :=
        calc p.2 * w + p.1 < p.2 * w + w := by omega
          _ = (p.2 + 1) * w := by ring
          _ ≤ q.2 * w := Nat.mul_le_mul_right w hlt
          _ ≤ q.2 * w + q.1 := Nat.le_add_right _ _
      omega
    · exact heq
    · exfalso
      have hc : q.2 * w + q.1 < p.2 * w + p.1 :=
        calc q.2 * w + q.1 < q.2 * w + w := by omega
          _ = (q.2 + 1) * w := by ring
          _ ≤ p.2 * w := Nat.mul_le_mul_right w hgt
          _ ≤ p.2 * w + p.1 := Nat.le_add_right _ _
      omega
  have h1 : p.1 = q.1 := by
    rw [h2] at he
    omega
  exact Prod.ext h1 h2

theorem set_pixel_name (l : Layer) (x y : ℕ) (c : Color) :
    (l.set_pixel x y c).name = l.name := by
  unfold Layer.set_pixel
  dsimp only
  split_ifs <;> rfl

theorem set_pixel_width (l : Layer) (x y : ℕ) (c : Color) :
    (l.set_pixel x y c).width = l.width := by
  unfold Layer.set_pixel
  dsimp only
  split_ifs <;> rfl

theorem set_pixel_height (l : Layer) (x y : ℕ) (c : Color) :
    (l.set_pixel x y c).height = l.height := by
  unfold Layer.set_pixel
  dsimp only
  split_ifs <;> rfl

theorem set_pixel_visible (l : Layer) (x y : ℕ) (c : Color) :
    (l.set_pixel x y c).visible = l.visible := by
  unfold Layer.set_pixel
  dsimp only
  split_ifs <;> rfl

theorem set_pixel_opacity (l : Layer) (x y : ℕ) (c : Color) :
    (l.set_pixel x y c).opacity = l.opacity := by
  unfold Layer.set_pixel
  dsimp only
  split_ifs <;> rfl

theorem set_pixel_pixels_length (l : Layer) (x y : ℕ) (c : Color) :
    (l.set_pixel x y c).pixels.length = l.pixels.length := by
  unfold Layer.set_pixel
  dsimp only
  split_ifs <;> simp [length_setQuad]

theorem set_pixel_bytes_le (l : Layer) (x y : ℕ) (c : Color)
    (h : ∀ b ∈ l.pixels, b ≤ 255) : ∀ b ∈ (l.set_pixel x y c).pixels, b ≤ 255 := by
  unfold Layer.set_pixel
  dsimp only
  split_ifs with h1 h2
  · exact h
  · intro b hb
    unfold setQuad at hb
    rcases List.mem_or_eq_of_mem_set hb with hb | hb
    · rcases List.mem_or_eq_of_mem_set hb with hb | hb
      · rcases List.mem_or_eq_of_mem_set hb with hb | hb
        · rcases List.mem_or_eq_of_mem_set hb with hb | hb
          · exact h b hb
          · subst hb
            exact intToU8_le _
        · subst hb
          exact intToU8_le _
      · subst hb
        exact intToU8_le _
    · subst hb
      exact intToU8_le _
  · exact h

/-- Identity of `set_pixel` when the coordinate misses the layer. -/
theorem set_pixel_id_of_oob (l : Layer) (x y : ℕ) (c : Color)
    (h : l.width ≤ x ∨ l.height ≤ y) : l.set_pixel x y c = l := by
  unfold Layer.set_pixel
  dsimp only
  rw [if_pos (by omega)]

/-- Reading one pixel is unaffected by writing a different pixel. -/
theorem get_pixel_set_pixel_ne (l : Layer) (p q : ℕ × ℕ) (c : Color) (hne : p ≠ q) :
    (l.set_pixel q.1 q.2 c).get_pixel p.1 p.2 = l.get_pixel p.1 p.2 := by
  unfold Layer.set_pixel
  dsimp only
  split_ifs with h1 h2
  · rfl
  · unfold Layer.get_pixel
    simp only [length_setQuad]
    split_ifs with h3 h4
    · rfl
    · have hpw : p.1 < l.width := by omega
      have hqw : q.1 < l.width := by omega
      have hidx : p.2 * l.width + p.1 ≠ q.2 * l.width + q.1 := rowMajor_ne hpw hqw hne
      have hdis : (p.2 * l.width + p.1) * 4 + 3 < (q.2 * l.width + q.1) * 4 ∨
          (q.2 * l.width + q.1) * 4 + 3 < (p.2 * l.width + p.1) * 4 := by
        rcases Nat.lt_or_ge (p.2 * l.width + p.1) (q.2 * l.width + q.1) with hl | hl
        · left; omega
        · right; omega
      rw [getD_setQuad_miss _ _ _ _ (by omega), getD_setQuad_miss _ _ _ _ (by omega),
        getD_setQuad_miss _ _ _ _ (by omega), getD_setQuad_miss _ _ _ _ (by omega)]
    · rfl
  · rfl

/-- Writing the colour a pixel already decodes to leaves the layer
unchanged (pixel bytes are genuine bytes). -/
theorem getD_mem_of_lt (l : List ℕ) (n : ℕ) (h : n < l.length) : l.getD n 0 ∈ l := by
  rw [List.getD_eq_getElem l 0 h]
  exact List.getElem_mem h

theorem set_pixel_get_pixel_self (l : Layer) (x y : ℕ)
    (hb : ∀ b ∈ l.pixels, b ≤ 255) :
    l.set_pixel x y (l.get_pixel x y) = l := by
  unfold Layer.get_pixel Layer.set_pixel
  dsimp only
  split_ifs with h1 h2
  · rfl
  · have hm0 : l.pixels.getD ((y * l.width + x) * 4) 0 ≤ 255 :=
      hb _ (getD_mem_of_lt _ _ (by omega))
    have hm1 : l.pixels.getD ((y * l.width + x) * 4 + 1) 0 ≤ 255 :=
      hb _ (getD_mem_of_lt _ _ (by omega))
    have hm2 : l.pixels.getD ((y * l.width + x) * 4 + 2) 0 ≤ 255 :=
      hb _ (getD_mem_of_lt _ _ (by omega))
    have hm3 : l.pixels.getD ((y * l.width + x) * 4 + 3) 0 ≤ 255 :=
      hb _ (getD_mem_of_lt _ _ (by omega))
    rw [into_from_rgba8 _ _ _ _ hm0 hm1 hm2 hm3]
    have : setQuad l.pixels ((y * l.width + x) * 4)
        (l.pixels.getD ((y * l.width + x) * 4) 0,
         l.pixels.getD ((y * l.width + x) * 4 + 1) 0,
         l.pixels.getD ((y * l.width + x) * 4 + 2) 0,
         l.pixels.getD ((y * l.width + x) * 4 + 3) 0) = l.pixels :=
      setQuad_getQuad_self l.pixels ((y * l.width + x) * 4)
    rw [this]
  · rfl

/-- Two writes to the same pixel collapse to the second. -/
theorem set_pixel_set_pixel_same (l : Layer) (x y : ℕ) (c d : Color) :
    (l.set_pixel x y c).set_pixel x y d = l.set_pixel x y d := by
  unfold Layer.set_pixel
  dsimp only
  split_ifs with h1 h2 <;> simp_all [length_setQuad, setQuad_setQuad_same]

/-- Identity of `set_pixel` when the flat index misses the buffer. -/
theorem set_pixel_id_of_len (l : Layer) (x y : ℕ) (c : Color)
    (h : ¬((y * l.width + x) * 4 + 3 < l.pixels.length)) : l.set_pixel x y c = l := by
  unfold Layer.set_pixel
  dsimp only
  split_ifs <;> first | rfl | omega

/-- `set_pixel` as an unconditional buffer write when every guard passes. -/
theorem set_pixel_eq_write (l : Layer) (x y : ℕ) (c : Color)
    (hx : x < l.width) (hy : y < l.height)
    (hlen : (y * l.width + x) * 4 + 3 < l.pixels.length) :
    l.set_pixel x y c =
      { l with pixels := setQuad l.pixels ((y * l.width + x) * 4) c.into_rgba8 } := by
  unfold Layer.set_pixel
  dsimp only
  rw [if_neg (by omega), if_pos hlen]

/-- Writes to distinct pixels commute. -/
theorem set_pixel_comm (l : Layer) (p q : ℕ × ℕ) (c d : Color) (hne : p ≠ q) :
    (l.set_pixel p.1 p.2 c).set_pixel q.1 q.2 d
      = (l.set_pixel q.1 q.2 d).set_pixel p.1 p.2 c := by
  by_cases hp : l.width ≤ p.1 ∨ l.height ≤ p.2
  · rw [set_pixel_id_of_oob l p.1 p.2 c hp,
      set_pixel_id_of_oob _ p.1 p.2 c (by rw [set_pixel_width, set_pixel_height]; exact hp)]
  · by_cases hq : l.width ≤ q.1 ∨ l.height ≤ q.2
    · rw [set_pixel_id_of_oob l q.1 q.2 d hq,
        set_pixel_id_of_oob _ q.1 q.2 d (by rw [set_pixel_width, set_pixel_height]; exact hq)]
    · push_neg at hp hq
      have hidx : p.2 * l.width + p.1 ≠ q.2 * l.width + q.1 := rowMajor_ne hp.1 hq.1 hne
      by_cases g1 : (p.2 * l.width + p.1) * 4 + 3 < l.pixels.length
      · by_cases g2 : (q.2 * l.width + q.1) * 4 + 3 < l.pixels.length
        · have hdis : (q.2 * l.width + q.1) * 4 + 3 < (p.2 * l.width + p.1) * 4 ∨
              (p.2 * l.width + p.1) * 4 + 3 < (q.2 * l.width + q.1) * 4 := by
            rcases Nat.lt_or_ge (p.2 * l.width + p.1) (q.2 * l.width + q.1) with hl | hl
            · right; omega
            · left; omega
          calc (l.set_pixel p.1 p.2 c).set_pixel q.1 q.2 d
              = ({ l with pixels := (setQuad l.pixels ((p.2 * l.width + p.1) * 4)
                    c.into_rgba8) } : Layer).set_pixel q.1 q.2 d := by
                rw [set_pixel_eq_write l p.1 p.2 c hp.1 hp.2 g1]
            _ = { l with pixels := (setQuad (setQuad l.pixels ((p.2 * l.width + p.1) * 4)
                    c.into_rgba8) ((q.2 * l.width + q.1) * 4) d.into_rgba8) } :=
                set_pixel_eq_write _ q.1 q.2 d hq.1 hq.2 (by simpa [length_setQuad] using g2)
            _ = { l with pixels := (setQuad (setQuad l.pixels ((q.2 * l.width + q.1) * 4)
                    d.into_rgba8) ((p.2 * l.width + p.1) * 4) c.into_rgba8) } := by
                rw [setQuad_comm _ _ _ _ _ hdis]
            _ = ({ l with pixels := (setQuad l.pixels ((q.2 * l.width + q.1) * 4)
                    d.into_rgba8) } : Layer).set_pixel p.1 p.2 c :=
                (set_pixel_eq_write ({ l with pixels := (setQuad l.pixels
                    ((q.2 * l.width + q.1) * 4) d.into_rgba8) } : Layer) p.1 p.2 c hp.1 hp.2
                  (by simpa [length_setQuad] using g1)).symm
            _ = (l.set_pixel q.1 q.2 d).set_pixel p.1 p.2 c := by
                rw [set_pixel_eq_write l q.1 q.2 d hq.1 hq.2 g2]
        · rw [set_pixel_id_of_len l q.1 q.2 d g2,
            set_pixel_id_of_len _ q.1 q.2 d (by
              rw [set_pixel_width]
              intro hcon
              rw [set_pixel_pixels_length] at hcon
              exact g2 hcon)]
      · rw [set_pixel_id_of_len l p.1 p.2 c g1,
          set_pixel_id_of_len _ p.1 p.2 c (by
            rw [set_pixel_width]
            intro hcon
            rw [set_pixel_pixels_length] at hcon
            exact g1 hcon)]

/-! ## History lemmas -/

theorem push_wf (h : History) (c : EditCommand) (hwf : HistoryWf h) :
    HistoryWf (h.push c) := by
  obtain ⟨h1, h2⟩ := hwf
  unfold HistoryWf History.push
  dsimp only
  split_ifs with hb <;>
    simp only [List.length_drop, List.length_append, List.length_take, List.length_cons,
      List.length_nil] at hb ⊢ <;>
    constructor <;> omega

theorem push_cursor_eq (h : History) (c : EditCommand) (hwf : HistoryWf h) :
    (h.push c).current_index = (h.push c).commands.length := by
  obtain ⟨h1, h2⟩ := hwf
  unfold History.push
  dsimp only
  split_ifs with hb <;>
    simp only [List.length_drop, List.length_append, List.length_take, List.length_cons,
      List.length_nil] at hb ⊢ <;>
    omega

theorem undoList_length (h : History) (hwf : HistoryWf h) :
    (undoList h).length = h.current_index := by
  unfold undoList
  simp [List.length_take, hwf.1]

theorem undoList_push (h : History) (c : EditCommand) (hwf : HistoryWf h) :
    undoList (h.push c) = c :: (undoList h).take 99 := by
  obtain ⟨h1, h2⟩ := hwf
  have hlen : (h.commands.take h.current_index).length = h.current_index := by
    simp [List.length_take, h1]
  unfold undoList History.push
  dsimp only
  split_ifs with hb
  · simp only [List.length_append, List.length_take, List.length_cons,
      List.length_nil] at hb
    have hidx : h.current_index = 100 := by omega
    have hne : h.commands.take h.current_index ≠ [] := by
      intro hcon
      rw [hcon] at hlen
      simp at hlen
      omega
    rw [List.take_of_length_le (by
      simp only [List.length_drop, List.length_append, List.length_take, List.length_cons,
        List.length_nil]
      omega)]
    rw [List.drop_one, List.tail_append_of_ne_nil hne, List.reverse_append]
    simp only [List.reverse_cons, List.reverse_nil, List.nil_append, List.singleton_append]
    congr 1
    rw [List.take_reverse]
    rw [show (h.commands.take h.current_index).length - 99 = 1 by omega]
    rw [← List.drop_one]

  · simp only [List.length_append, List.length_take, List.length_cons,
      List.length_nil] at hb
    rw [List.take_of_length_le (by
      simp only [List.length_append, List.length_take, List.length_cons, List.length_nil]
      omega)]
    rw [List.reverse_append]
    simp only [List.reverse_cons, List.reverse_nil, List.nil_append, List.singleton_append]
    congr 1
    rw [@List.take_of_length_le _ 99 (h.commands.take h.current_index).reverse (by
      simp only [List.length_reverse, List.length_take]
      omega)]

theorem undo_commands (h : History) : (h.undo).2.commands = h.commands := by
  unfold History.undo
  split_ifs <;> rfl

theorem undoTimes_mem (k : ℕ) (h : History) (oc : Option EditCommand)
    (hm : oc ∈ (History.undoTimes k h).1) :
    oc = none ∨ ∃ c ∈ h.commands, oc = some c := by
  induction k generalizing h with
  | zero => simp [History.undoTimes] at hm
  | succ n ih =>
    simp only [History.undoTimes, List.mem_cons] at hm
    rcases hm with hm | hm
    · subst hm
      unfold History.undo
      split_ifs with hpos
      · dsimp only
        rcases hg : h.commands.get? (h.current_index - 1) with _ | c
        · exact Or.inl rfl
        · exact Or.inr ⟨c, List.get?_mem hg, rfl⟩
      · exact Or.inl rfl
    · rcases ih (h.undo).2 hm with hno | ⟨c, hc, he⟩
      · exact Or.inl hno
      · rw [undo_commands] at hc
        exact Or.inr ⟨c, hc, he⟩

theorem apply_undo_as_layers (s : EditorState) (cmd : EditCommand) :
    apply_undo_command s cmd = { s with layers := applyUndoLayers s.layers cmd } := by
  unfold apply_undo_command applyUndoLayers
  cases cmd with
  | PixelChange i x y oc nc =>
    dsimp only
    rcases hg : s.layers.get? i with _ | l <;> simp [hg]
  | MultiPixelChange i changes =>
    dsimp only
    rcases hg : s.layers.get? i with _ | l <;> simp [hg]

theorem apply_redo_as_layers (s : EditorState) (cmd : EditCommand) :
    apply_redo_command s cmd = { s with layers := applyRedoLayers s.layers cmd } := by
  unfold apply_redo_command applyRedoLayers
  cases cmd with
  | PixelChange i x y oc nc =>
    dsimp only
    rcases hg : s.layers.get? i with _ | l <;> simp [hg]
  | MultiPixelChange i changes =>
    dsimp only
    rcases hg : s.layers.get? i with _ | l <;> simp [hg]

theorem msgUndo_zero (s : EditorState) (hz : s.history.current_index = 0) :
    msgUndo s = s := by
  unfold msgUndo History.undo
  rw [if_neg (by omega)]

theorem msgUndo_pos (s : EditorState) (hwf : HistoryWf s.history)
    (hpos : 0 < s.history.current_index) :
    ∃ c rest, undoList s.history = c :: rest ∧
      msgUndo s = { s with
        history := ⟨s.history.commands, s.history.current_index - 1⟩,
        layers := applyUndoLayers s.layers c } ∧
      undoList ⟨s.history.commands, s.history.current_index - 1⟩ = rest ∧
      redoList ⟨s.history.commands, s.history.current_index - 1⟩
        = c :: redoList s.history := by
  obtain ⟨m, hm⟩ : ∃ m, s.history.current_index = m + 1 := ⟨s.history.current_index - 1, by omega⟩
  have hlt : m < s.history.commands.length := by
    have := hwf.1
    omega
  have hget : s.history.commands.get? m = some s.history.commands[m] := by
    rw [List.get?_eq_getElem?]
    exact List.getElem?_eq_getElem hlt
  refine ⟨s.history.commands[m], (s.history.commands.take m).reverse, ?_, ?_, ?_, ?_⟩
  · unfold undoList
    rw [hm, List.take_succ]
    rw [show s.history.commands[m]?.toList = [s.history.commands[m]] by
      rw [List.getElem?_eq_getElem hlt]
      rfl]
    rw [List.reverse_append]
    rfl
  · unfold msgUndo History.undo
    rw [if_pos (by omega)]
    dsimp only
    rw [hm]
    simp only [Nat.add_sub_cancel]
    rw [hget]
    dsimp only
    rw [apply_undo_as_layers]
  · unfold undoList
    rw [hm]
    simp only [Nat.add_sub_cancel]
  · unfold redoList
    rw [hm]
    simp only [Nat.add_sub_cancel]
    exact List.drop_eq_getElem_cons hlt

theorem msgRedo_end (s : EditorState)
    (hz : ¬ s.history.current_index < s.history.commands.length) : msgRedo s = s := by
  unfold msgRedo History.redo
  rw [if_neg hz]

theorem msgRedo_pos (s : EditorState)
    (hpos : s.history.current_index < s.history.commands.length) :
    ∃ c rest, redoList s.history = c :: rest ∧
      msgRedo s = { s with
        history := ⟨s.history.commands, s.history.current_index + 1⟩,
        layers := applyRedoLayers s.layers c } ∧
      redoList ⟨s.history.commands, s.history.current_index + 1⟩ = rest := by
  have hget : s.history.commands.get? s.history.current_index
      = some s.history.commands[s.history.current_index] := by
    rw [List.get?_eq_getElem?]
    exact List.getElem?_eq_getElem hpos
  refine ⟨s.history.commands[s.history.current_index],
    s.history.commands.drop (s.history.current_index + 1), ?_, ?_, rfl⟩
  · exact List.drop_eq_getElem_cons hpos
  · unfold msgRedo History.redo
    rw [if_pos hpos]
    dsimp only
    rw [hget]
    dsimp only
    rw [apply_redo_as_layers]

theorem undoN_spec (n : ℕ) (s : EditorState) (hwf : HistoryWf s.history) :
    (undoN n s).layers = ((undoList s.history).take n).foldl applyUndoLayers s.layers ∧
    (undoN n s).history.commands = s.history.commands ∧
    undoList (undoN n s).history = (undoList s.history).drop n ∧
    redoList (undoN n s).history
      = ((undoList s.history).take n).reverse ++ redoList s.history ∧
    HistoryWf (undoN n s).history := by
  induction n generalizing s with
  | zero => exact ⟨rfl, rfl, rfl, rfl, hwf⟩
  | succ n ih =>
    rcases Nat.eq_zero_or_pos s.history.current_index with hz | hpos
    · have hnil : undoList s.history = [] := by
        unfold undoList
        rw [hz]
        rfl
      have he : undoN (n + 1) s = undoN n s := by
        rw [show undoN (n + 1) s = undoN n (msgUndo s) from rfl, msgUndo_zero s hz]
      rw [he, hnil]
      obtain ⟨i1, i2, i3, i4, i5⟩ := ih s hwf
      rw [hnil] at i1 i3 i4
      simp only [List.take_nil, List.drop_nil] at i1 i3 i4 ⊢
      exact ⟨i1, i2, i3, i4, i5⟩
    · obtain ⟨c, rest, hsplit, hstate, hulist, hrlist⟩ := msgUndo_pos s hwf hpos
      have hwf2 : HistoryWf (⟨s.history.commands, s.history.current_index - 1⟩ : History) := by
        unfold HistoryWf at hwf ⊢
        dsimp only
        omega
      rw [show undoN (n + 1) s = undoN n (msgUndo s) from rfl, hstate]
      obtain ⟨i1, i2, i3, i4, i5⟩ := ih
        { s with history := ⟨s.history.commands, s.history.current_index - 1⟩,
                 layers := applyUndoLayers s.layers c } hwf2
      refine ⟨?_, ?_, ?_, ?_, i5⟩
      · rw [hsplit, List.take_succ_cons, List.foldl_cons, i1, hulist]
      · exact i2
      · rw [hsplit, List.drop_succ_cons, i3, hulist]
      · rw [hsplit, List.take_succ_cons, List.reverse_cons, i4, hulist, hrlist]
        simp

theorem redoN_spec (n : ℕ) (s : EditorState) :
    (redoN n s).layers = ((redoList s.history).take n).foldl applyRedoLayers s.layers := by
  induction n generalizing s with
  | zero => rfl
  | succ n ih =>
    rcases Nat.lt_or_ge s.history.current_index s.history.commands.length with hpos | hend
    · obtain ⟨c, rest, hsplit, hstate, hrlist⟩ := msgRedo_pos s hpos
      rw [show redoN (n + 1) s = redoN n (msgRedo s) from rfl, hstate, ih]
      rw [hsplit, List.take_succ_cons, List.foldl_cons, hrlist]
    · have hnil : redoList s.history = [] := by
        unfold redoList
        exact List.drop_eq_nil_of_le hend
      have he : redoN (n + 1) s = redoN n s := by
        rw [show redoN (n + 1) s = redoN n (msgRedo s) from rfl, msgRedo_end s (by omega)]
      rw [he, ih s, hnil]
      simp

set_option maxRecDepth 40000 in
/-- C7: pushing 101 commands onto an empty history stores exactly the last
100, the first-pushed command is evicted and no amount of undoing can ever
return it, and the cursor ends at 100, within bounds. -/
theorem claim_C7 :
    hist101.commands.length = 100 ∧
    hist101.current_index = 100 ∧
    hist101.commands = (List.range 100).map (fun i => histCmd (i + 1)) ∧
    histCmd 0 ∉ hist101.commands ∧
    ∀ k, some (histCmd 0) ∉ (History.undoTimes k hist101).1 := by
  refine ⟨by decide, by decide, by decide, by decide, ?_⟩
  intro k hmem
  rcases undoTimes_mem k hist101 _ hmem with hno | ⟨c, hc, he⟩
  · exact Option.noConfusion hno
  · have hc0 : c = histCmd 0 := by
      injection he.symm
    rw [hc0] at hc
    have : histCmd 0 ∉ hist101.commands := by decide
    exact this hc

/-! ## Used-colour registration -/

theorem pushUsedColor_contains (uc : List Color) (c : Color) (ha : 1 / 100 ≤ c.a) :
    ∃ d ∈ EditorState.pushUsedColor uc c, colorClose d c := by
  unfold EditorState.pushUsedColor
  rw [if_neg (not_lt.mpr ha)]
  dsimp only
  split_ifs with hex hlen
  · rw [List.any_eq_true] at hex
    obtain ⟨d, hd, hdec⟩ := hex
    refine ⟨d, hd, ?_⟩
    have := of_decide_eq_true hdec
    exact this
  · refine ⟨c, ?_, ?_⟩
    · have hne : uc ≠ [] := by
        intro hcon
        rw [hcon] at hlen
        simp at hlen
      have h1 : (1 : ℕ) ≤ uc.length := by
        rcases uc with _ | ⟨a, t⟩
        · exact absurd rfl hne
        · simp
      rw [List.drop_append_of_le_length h1]
      exact List.mem_append_right _ (by simp)
    · unfold colorClose
      simp
  · refine ⟨c, List.mem_append_right _ (by simp), ?_⟩
    unfold colorClose
    simp

/-- C10: an out-of-bounds `EditorState::set_pixel` whose colour has alpha at
least 0.01 leaves every pixel buffer unchanged, yet still runs the
`used_colors` registration whenever an active layer exists. -/
theorem claim_C10 (s : EditorState) (x y : ℕ) (c : Color) (layer : Layer)
    (hal : s.layers.get? s.active_layer_index = some layer)
    (hoob : layer.width ≤ x ∨ layer.height ≤ y) :
    (s.set_pixel x y c).layers = s.layers ∧
    (s.set_pixel x y c).used_colors = EditorState.pushUsedColor s.used_colors c ∧
    (1 / 100 ≤ c.a → ∃ d ∈ (s.set_pixel x y c).used_colors, colorClose d c) := by
  unfold EditorState.set_pixel
  simp only [hal]
  rw [set_pixel_id_of_oob layer x y c hoob]
  rw [list_set_self _ _ _ hal]
  unfold EditorState.add_used_color
  dsimp only
  refine ⟨rfl, rfl, ?_⟩
  intro ha
  exact pushUsedColor_contains s.used_colors c ha

theorem claim_C10_witness :
    (EditorState.default.set_pixel 100 0 Color.BLACK).layers = EditorState.default.layers ∧
    (EditorState.default.set_pixel 100 0 Color.BLACK).used_colors
      = EditorState.pushUsedColor EditorState.default.used_colors Color.BLACK ∧
    (1 / 100 ≤ Color.BLACK.a →
      ∃ d ∈ (EditorState.default.set_pixel 100 0 Color.BLACK).used_colors,
        colorClose d Color.BLACK) :=
  claim_C10 EditorState.default 100 0 Color.BLACK (Layer.new ("Layer 1") 32 32)
    (by rfl) (by left; decide)

/-- C9: releasing a selection drag normalises the rectangle: the stored
extents become non-negative absolute values and the origin moves to the
minimum corner; in particular a drag from (5,5) to (2,2) yields origin
(2,2) and extent 3×3. -/
theorem claim_C9 :
    (∀ (s : EditorState) (r : Rect), s.selection = some r →
      ∃ r2, (msgSelectionEnded s).selection = some r2 ∧
        0 ≤ r2.width ∧ 0 ≤ r2.height ∧
        r2.x = min r.x (r.x + r.width) ∧ r2.y = min r.y (r.y + r.height) ∧
        r2.width = |r.width| ∧ r2.height = |r.height|) ∧
    (msgSelectionEnded selDragState).selection = some ⟨2, 2, 3, 3⟩ := by
  constructor
  · intro s r hsel
    unfold msgSelectionEnded
    dsimp only
    rw [show ({ s with is_selecting := false } : EditorState).selection
        = s.selection from rfl, hsel]
    dsimp only
    by_cases hw : r.width < 0 <;> by_cases hh : r.height < 0 <;>
      simp only [hw, hh, if_true, if_false, ite_true, ite_false]
    · refine ⟨_, rfl, by simpa using abs_nonneg r.width, by simpa using abs_nonneg r.height,
        ?_, ?_, rfl, rfl⟩
      · show r.x + r.width = min r.x (r.x + r.width)
        exact (min_eq_right (by linarith)).symm
      · show r.y + r.height = min r.y (r.y + r.height)
        exact (min_eq_right (by linarith)).symm
    · refine ⟨_, rfl, by simpa using abs_nonneg r.width, by simpa using not_lt.mp hh,
        ?_, ?_, rfl, ?_⟩
      · show r.x + r.width = min r.x (r.x + r.width)
        exact (min_eq_right (by linarith)).symm
      · show r.y = min r.y (r.y + r.height)
        exact (min_eq_left (by linarith)).symm
      · show r.height = |r.height|
        exact (abs_of_nonneg (not_lt.mp hh)).symm
    · refine ⟨_, rfl, by simpa using not_lt.mp hw, by simpa using abs_nonneg r.height,
        ?_, ?_, ?_, rfl⟩
      · show r.x = min r.x (r.x + r.width)
        exact (min_eq_left (by linarith)).symm
      · show r.y + r.height = min r.y (r.y + r.height)
        exact (min_eq_right (by linarith)).symm
      · show r.width = |r.width|
        exact (abs_of_nonneg (not_lt.mp hw)).symm
    · refine ⟨r, rfl, not_lt.mp hw, not_lt.mp hh, ?_, ?_, ?_, ?_⟩
      · exact (min_eq_left (by linarith)).symm
      · exact (min_eq_left (by linarith)).symm
      · exact (abs_of_nonneg (not_lt.mp hw)).symm
      · exact (abs_of_nonneg (not_lt.mp hh)).symm
  · decide

theorem claim_C9_witness :
    ∃ r2, (msgSelectionEnded selDragState).selection = some r2 ∧
      0 ≤ r2.width ∧ 0 ≤ r2.height ∧
      r2.x = min (5 : ℚ) (5 + -3) ∧ r2.y = min (5 : ℚ) (5 + -3) ∧
      r2.width = |(-3 : ℚ)| ∧ r2.height = |(-3 : ℚ)| :=
  claim_C9.1 selDragState ⟨5, 5, -3, -3⟩ (by decide)

/-! ## Sorting and deduplication of position lists -/

theorem mem_dedupAdj {α : Type} [DecidableEq α] : ∀ (l : List α) (x : α),
    x ∈ dedupAdj l ↔ x ∈ l
  | [], x => by simp [dedupAdj]
  | [a], x => by simp [dedupAdj]
  | a :: b :: rest, x => by
    unfold dedupAdj
    split_ifs with hab
    · rw [mem_dedupAdj (b :: rest) x]
      subst hab
      simp only [List.mem_cons]
      tauto
    · simp only [List.mem_cons]
      rw [mem_dedupAdj (b :: rest) x]
      simp only [List.mem_cons]

theorem nodup_dedupAdj : ∀ (l : List (ℕ × ℕ)), List.Sorted posLe l → (dedupAdj l).Nodup
  | [], _ => by simp [dedupAdj]
  | [a], _ => by simp [dedupAdj]
  | a :: b :: rest, hs => by
    rw [List.sorted_cons] at hs
    obtain ⟨hab, hs2⟩ := hs
    unfold dedupAdj
    split_ifs with he
    · exact nodup_dedupAdj (b :: rest) hs2
    · rw [List.nodup_cons]
      refine ⟨?_, nodup_dedupAdj (b :: rest) hs2⟩
      intro hmem
      rw [mem_dedupAdj] at hmem
      rcases List.mem_cons.mp hmem with h1 | h1
      · exact he h1
      · rw [List.sorted_cons] at hs2
        have h2 : posLe b a := hs2.1 a h1
        have h3 : posLe a b := hab b (by simp)
        exact he (IsAntisymm.antisymm (r := posLe) a b h3 h2)

theorem sortDedup_nodup (l : List (ℕ × ℕ)) : (sortDedup l).Nodup := by
  unfold sortDedup
  exact nodup_dedupAdj _ (List.sorted_insertionSort posLe l)

theorem mem_sortDedup (l : List (ℕ × ℕ)) (x : ℕ × ℕ) : x ∈ sortDedup l ↔ x ∈ l := by
  unfold sortDedup
  rw [mem_dedupAdj]
  exact (List.perm_insertionSort posLe l).mem_iff

/-! ## Brush and mirror position lemmas -/

theorem mem_intRange (lo hi z : ℤ) : z ∈ intRange lo hi ↔ lo ≤ z ∧ z ≤ hi := by
  unfold intRange
  rw [List.mem_map]
  constructor
  · rintro ⟨i, hi_mem, rfl⟩
    rw [List.mem_range] at hi_mem
    omega
  · intro hz
    refine ⟨(z - lo).toNat, ?_, by omega⟩
    rw [List.mem_range]
    omega

theorem mem_get_brush_pixels (x y size cw ch : ℕ) (p : ℕ × ℕ) :
    p ∈ get_brush_pixels x y size cw ch ↔
      ∃ dx dy : ℤ, -((size / 2 : ℕ) : ℤ) ≤ dx ∧ dx ≤ ((size / 2 : ℕ) : ℤ) ∧
        -((size / 2 : ℕ) : ℤ) ≤ dy ∧ dy ≤ ((size / 2 : ℕ) : ℤ) ∧
        ((x : ℤ) + dx).toNat = p.1 ∧ ((y : ℤ) + dy).toNat = p.2 ∧
        0 ≤ (x : ℤ) + dx ∧ 0 ≤ (y : ℤ) + dy ∧
        (x : ℤ) + dx < (cw : ℤ) ∧ (y : ℤ) + dy < (ch : ℤ) := by
  unfold get_brush_pixels
  dsimp only
  rw [List.mem_flatMap]
  constructor
  · rintro ⟨dy, hdy, hdx⟩
    rw [List.mem_filterMap] at hdx
    obtain ⟨dx, hdx_mem, hsome⟩ := hdx
    rw [mem_intRange] at hdy hdx_mem
    split_ifs at hsome with hguard
    · obtain ⟨g1, g2, g3, g4⟩ := hguard
      injection hsome with hv
      refine ⟨dx, dy, hdx_mem.1, hdx_mem.2, hdy.1, hdy.2, ?_, ?_, g1, g2, g3, g4⟩
      · rw [← hv]
      · rw [← hv]
  · rintro ⟨dx, dy, h1, h2, h3, h4, h5, h6, h7, h8, h9, h10⟩
    refine ⟨dy, ?_, ?_⟩
    · rw [mem_intRange]
      exact ⟨h3, h4⟩
    · rw [List.mem_filterMap]
      refine ⟨dx, ?_, ?_⟩
      · rw [mem_intRange]
        exact ⟨h1, h2⟩
      · rw [if_pos ⟨h7, h8, h9, h10⟩]
        rw [show (((x : ℤ) + dx).toNat, ((y : ℤ) + dy).toNat) = p from Prod.ext h5 h6]

theorem mem_brush_center (x y size cw ch : ℕ) (hx : x < cw) (hy : y < ch) :
    (x, y) ∈ get_brush_pixels x y size cw ch := by
  rw [mem_get_brush_pixels]
  exact ⟨0, 0, by omega, by omega, by omega, by omega, by omega, by omega,
    by omega, by omega, by omega, by omega⟩

theorem mem_brush_inb (x y size cw ch : ℕ) (p : ℕ × ℕ)
    (hp : p ∈ get_brush_pixels x y size cw ch) : p.1 < cw ∧ p.2 < ch := by
  rw [mem_get_brush_pixels] at hp
  obtain ⟨dx, dy, h1, h2, h3, h4, h5, h6, h7, h8, h9, h10⟩ := hp
  omega

theorem mem_mirrored_self (s : EditorState) (x y : ℕ) :
    (x, y) ∈ get_mirrored_positions s x y := by
  unfold get_mirrored_positions
  rw [mem_sortDedup]
  split_ifs <;> simp_all

theorem mem_mirrored_h (s : EditorState) (x y : ℕ) (hm : s.mirror_horizontal = true) :
    (s.canvas_width - 1 - x, y) ∈ get_mirrored_positions s x y := by
  unfold get_mirrored_positions
  rw [mem_sortDedup]
  rw [hm]
  split_ifs <;> simp_all

theorem mem_mirrored_inb (s : EditorState) (x y : ℕ) (p : ℕ × ℕ)
    (hx : x < s.canvas_width) (hy : y < s.canvas_height)
    (hp : p ∈ get_mirrored_positions s x y) :
    p.1 < s.canvas_width ∧ p.2 < s.canvas_height := by
  unfold get_mirrored_positions at hp
  rw [mem_sortDedup] at hp
  cases hmh : s.mirror_horizontal <;> cases hmv : s.mirror_vertical <;>
    simp [hmh, hmv] at hp
  · subst hp
    exact ⟨hx, hy⟩
  · rcases hp with rfl | rfl <;> exact ⟨by omega, by omega⟩
  · rcases hp with rfl | rfl <;> exact ⟨by omega, by omega⟩
  · rcases hp with rfl | rfl | rfl | rfl <;> exact ⟨by omega, by omega⟩

theorem pencil_positions_nodup (s : EditorState) (x y : ℕ) :
    (pencil_positions s x y).Nodup := by
  unfold pencil_positions
  exact sortDedup_nodup _

theorem mem_pencil_positions_center (s : EditorState) (x y : ℕ)
    (hx : x < s.canvas_width) (hy : y < s.canvas_height) :
    (x, y) ∈ pencil_positions s x y := by
  unfold pencil_positions
  rw [mem_sortDedup, List.mem_flatMap]
  exact ⟨(x, y), mem_brush_center x y s.brush_size _ _ hx hy, mem_mirrored_self s x y⟩

theorem mem_pencil_positions_mirror (s : EditorState) (x y : ℕ)
    (hm : s.mirror_horizontal = true)
    (hx : x < s.canvas_width) (hy : y < s.canvas_height) :
    (s.canvas_width - 1 - x, y) ∈ pencil_positions s x y := by
  unfold pencil_positions
  rw [mem_sortDedup, List.mem_flatMap]
  exact ⟨(x, y), mem_brush_center x y s.brush_size _ _ hx hy, mem_mirrored_h s x y hm⟩

theorem pencil_positions_inb (s : EditorState) (x y : ℕ) (p : ℕ × ℕ)
    (hp : p ∈ pencil_positions s x y) :
    p.1 < s.canvas_width ∧ p.2 < s.canvas_height := by
  unfold pencil_positions at hp
  rw [mem_sortDedup, List.mem_flatMap] at hp
  obtain ⟨q, hq, hpq⟩ := hp
  obtain ⟨hq1, hq2⟩ := mem_brush_inb x y s.brush_size _ _ q hq
  exact mem_mirrored_inb s q.1 q.2 p hq1 hq2 hpq

/-! ## The stamping loop of pencil and eraser -/

theorem get?_some_lt {α : Type} (l : List α) (n : ℕ) (a : α) (h : l.get? n = some a) :
    n < l.length := by
  rw [List.get?_eq_getElem?] at h
  by_contra hc
  rw [List.getElem?_eq_none (by omega)] at h
  exact Option.noConfusion h

theorem set_pixel_state_eq (s : EditorState) (x y : ℕ) (c : Color) (L : Layer)
    (hL : s.layers.get? s.active_layer_index = some L) :
    s.set_pixel x y c = { s with
      layers := s.layers.set s.active_layer_index (L.set_pixel x y c),
      used_colors := EditorState.pushUsedColor s.used_colors c } := by
  unfold EditorState.set_pixel
  simp only [hL]
  unfold EditorState.add_used_color
  rfl

theorem stamp_fold_spec (c : Color) : ∀ (ps : List (ℕ × ℕ)) (s : EditorState)
    (chs : List (ℕ × ℕ × Color × Color)) (L : Layer),
    s.layers.get? s.active_layer_index = some L →
    ps.Nodup → (∀ p ∈ ps, p.1 < s.canvas_width ∧ p.2 < s.canvas_height) →
    ps.foldl (stampAt c) (s, chs) =
      ({ s with
          layers := s.layers.set s.active_layer_index (paintAll L ps c),
          used_colors := ps.foldl
            (fun uc _ => EditorState.pushUsedColor uc c) s.used_colors },
       chs ++ ps.map (fun p => (p.1, p.2, L.get_pixel p.1 p.2, c)))
  | [], s, chs, L, hL, _, _ => by
    show (s, chs) = _
    rw [show paintAll L [] c = L from rfl, list_set_self _ _ _ hL]
    simp
  | p :: rest, s, chs, L, hL, hnd, hin => by
    have hlt : s.active_layer_index < s.layers.length := get?_some_lt _ _ _ hL
    have hpin := hin p (by simp)
    have hstep : stampAt c (s, chs) p =
        (s.set_pixel p.1 p.2 c, chs ++ [(p.1, p.2, L.get_pixel p.1 p.2, c)]) := by
      unfold stampAt
      rw [if_neg (by dsimp only; omega)]
      unfold EditorState.active_layer
      dsimp only
      rw [hL]
    rw [List.foldl_cons, hstep, set_pixel_state_eq s p.1 p.2 c L hL]
    rw [stamp_fold_spec c rest
      ({ s with
          layers := s.layers.set s.active_layer_index (L.set_pixel p.1 p.2 c),
          used_colors := EditorState.pushUsedColor s.used_colors c })
      (chs ++ [(p.1, p.2, L.get_pixel p.1 p.2, c)])
      (L.set_pixel p.1 p.2 c)
      (by dsimp only; exact List.get?_set_eq_of_lt _ hlt)
      ((List.nodup_cons.mp hnd).2)
      (fun q hq => hin q (by simp [hq]))]
    have hmap : rest.map (fun q =>
          (q.1, q.2, (L.set_pixel p.1 p.2 c).get_pixel q.1 q.2, c))
        = rest.map (fun q => (q.1, q.2, L.get_pixel q.1 q.2, c)) := by
      apply List.map_congr_left
      intro q hq
      have hqp : q ≠ p := by
        intro hcon
        exact (List.nodup_cons.mp hnd).1 (hcon ▸ hq)
      rw [get_pixel_set_pixel_ne L q p c hqp]
    rw [hmap]
    simp only [List.set_set, List.append_assoc, List.singleton_append]
    rfl

theorem pushStrokeCommand_push (idx : ℕ) (changes : List (ℕ × ℕ × Color × Color))
    (s : EditorState) (hne : changes ≠ []) :
    pushStrokeCommand idx changes s
      = { s with history := s.history.push (strokeCommand idx changes) } := by
  unfold pushStrokeCommand strokeCommand
  cases changes with
  | nil => exact absurd rfl hne
  | cons a t => cases t <;> rfl

theorem pencil_changes_eq (s : EditorState) (x y : ℕ) (L : Layer)
    (hL : s.layers.get? s.active_layer_index = some L) :
    pencil_changes s x y = (pencil_positions s x y).map
      (fun p => (p.1, p.2, L.get_pixel p.1 p.2, s.primary_color)) := by
  unfold pencil_changes
  rw [hL]

theorem apply_pencil_spec (s : EditorState) (x y : ℕ) (L : Layer)
    (hx : x < s.canvas_width) (hy : y < s.canvas_height)
    (hL : s.layers.get? s.active_layer_index = some L) :
    apply_pencil s x y = pushStrokeCommand s.active_layer_index (pencil_changes s x y)
      { s with
        layers := s.layers.set s.active_layer_index
          (paintAll L (pencil_positions s x y) s.primary_color),
        used_colors := (pencil_positions s x y).foldl
          (fun uc _ => EditorState.pushUsedColor uc s.primary_color) s.used_colors } := by
  unfold apply_pencil
  rw [if_neg (by omega)]
  dsimp only
  rw [stamp_fold_spec s.primary_color (pencil_positions s x y) s [] L hL
    (pencil_positions_nodup s x y) (fun p hp => pencil_positions_inb s x y p hp)]
  rw [pencil_changes_eq s x y L hL]
  rw [List.nil_append]

theorem pencil_changes_ne_nil (s : EditorState) (x y : ℕ) (L : Layer)
    (hx : x < s.canvas_width) (hy : y < s.canvas_height)
    (hL : s.layers.get? s.active_layer_index = some L) :
    pencil_changes s x y ≠ [] := by
  rw [pencil_changes_eq s x y L hL]
  intro hcon
  have := mem_pencil_positions_center s x y hx hy
  rw [List.eq_nil_iff_forall_not_mem] at hcon
  exact hcon _ (List.mem_map_of_mem _ this)

/-! ## Painting and unpainting a set of positions -/

theorem foldl_comm_set {α : Type} (g : Layer → α → Layer) :
    ∀ (ps : List α) (M : Layer) (p : ℕ × ℕ) (d : Color),
    (∀ l q, q ∈ ps → g (l.set_pixel p.1 p.2 d) q = (g l q).set_pixel p.1 p.2 d) →
    ps.foldl g (M.set_pixel p.1 p.2 d) = (ps.foldl g M).set_pixel p.1 p.2 d
  | [], M, p, d, _ => rfl
  | a :: t, M, p, d, hg => by
    rw [List.foldl_cons, List.foldl_cons]
    rw [hg M a (by simp)]
    exact foldl_comm_set g t (g M a) p d (fun l q hq => hg l q (by simp [hq]))

theorem foldl_undo_map (L : Layer) (ps : List (ℕ × ℕ)) (c : Color) (f : ℕ × ℕ → Color) :
    (ps.map (fun p => (p.1, p.2, f p, c))).foldl
        (fun l ch => l.set_pixel ch.1 ch.2.1 ch.2.2.1) L
      = ps.foldl (fun l p => l.set_pixel p.1 p.2 (f p)) L := by
  rw [List.foldl_map]

theorem foldl_redo_map (L : Layer) (ps : List (ℕ × ℕ)) (c : Color) (f : ℕ × ℕ → Color) :
    (ps.map (fun p => (p.1, p.2, f p, c))).foldl
        (fun l ch => l.set_pixel ch.1 ch.2.1 ch.2.2.2) L
      = paintAll L ps c := by
  rw [List.foldl_map]
  rfl

theorem paintAll_cons_comm (L : Layer) (p : ℕ × ℕ) (rest : List (ℕ × ℕ)) (c d : Color)
    (hp : p ∉ rest) :
    paintAll (L.set_pixel p.1 p.2 d) rest c = (paintAll L rest c).set_pixel p.1 p.2 d := by
  unfold paintAll
  apply foldl_comm_set
  intro l q hq
  have hqp : p ≠ q := fun hcon => hp (hcon ▸ hq)
  exact (set_pixel_comm l p q d c hqp)

theorem paint_unpaint (L : Layer) (c : Color) : ∀ (ps : List (ℕ × ℕ)),
    ps.Nodup → (∀ b ∈ L.pixels, b ≤ 255) →
    (ps.map (fun p => (p.1, p.2, L.get_pixel p.1 p.2, c))).foldl
        (fun l ch => l.set_pixel ch.1 ch.2.1 ch.2.2.1) (paintAll L ps c) = L
  | [], _, _ => rfl
  | p :: rest, hnd, hb => by
    have hp_rest : p ∉ rest := (List.nodup_cons.mp hnd).1
    have hnd_rest : rest.Nodup := (List.nodup_cons.mp hnd).2
    rw [foldl_undo_map]
    rw [show paintAll L (p :: rest) c = paintAll (L.set_pixel p.1 p.2 c) rest c from rfl]
    rw [paintAll_cons_comm L p rest c c hp_rest]
    rw [List.foldl_cons]
    rw [set_pixel_set_pixel_same]
    rw [foldl_comm_set _ rest _ p (L.get_pixel p.1 p.2)
      (fun l q hq => set_pixel_comm l p q (L.get_pixel p.1 p.2) (L.get_pixel q.1 q.2)
        (fun hcon => hp_rest (hcon ▸ hq)))]
    rw [← foldl_undo_map (paintAll L rest c) rest c (fun q => L.get_pixel q.1 q.2)]
    rw [paint_unpaint L c rest hnd_rest hb]
    exact set_pixel_get_pixel_self L p.1 p.2 hb

/-! ## C8: mirrored pencil -/

theorem cmdPositions_strokeCommand (idx : ℕ) (changes : List (ℕ × ℕ × Color × Color))
    (hne : changes ≠ []) :
    cmdPositions (strokeCommand idx changes) = changes.map (fun c => (c.1, c.2.1)) := by
  unfold strokeCommand cmdPositions
  cases changes with
  | nil => exact absurd rfl hne
  | cons a t => cases t <;> rfl

theorem pencil_changes_positions (s : EditorState) (x y : ℕ) (L : Layer)
    (hL : s.layers.get? s.active_layer_index = some L) :
    (pencil_changes s x y).map (fun c => (c.1, c.2.1)) = pencil_positions s x y := by
  rw [pencil_changes_eq s x y L hL, List.map_map]
  have he : ((fun c : ℕ × ℕ × Color × Color => (c.1, c.2.1)) ∘
      (fun p : ℕ × ℕ => (p.1, p.2, L.get_pixel p.1 p.2, s.primary_color)))
      = fun p : ℕ × ℕ => p := by
    funext p
    rfl
  rw [he]
  exact List.map_id _

set_option maxRecDepth 4000 in
/-- C8: with horizontal mirroring on, a pencil application at an in-bounds
(x, y) stamps both (x, y) and (canvas_width-1-x, y); the stamped position
list is duplicate-free, so a position on the symmetry axis is written once
and appears exactly once in the single recorded history command. -/
theorem claim_C8 (s : EditorState) (x y : ℕ)
    (hm : s.mirror_horizontal = true)
    (hx : x < s.canvas_width) (hy : y < s.canvas_height) :
    (x, y) ∈ pencil_positions s x y ∧
    (s.canvas_width - 1 - x, y) ∈ pencil_positions s x y ∧
    (pencil_positions s x y).Nodup ∧
    (∀ L, s.layers.get? s.active_layer_index = some L →
      (apply_pencil s x y).history
          = s.history.push (strokeCommand s.active_layer_index (pencil_changes s x y)) ∧
      cmdPositions (strokeCommand s.active_layer_index (pencil_changes s x y))
          = pencil_positions s x y) := by
  refine ⟨mem_pencil_positions_center s x y hx hy,
    mem_pencil_positions_mirror s x y hm hx hy,
    pencil_positions_nodup s x y, ?_⟩
  intro L hL
  constructor
  · rw [apply_pencil_spec s x y L hx hy hL,
      pushStrokeCommand_push _ _ _ (pencil_changes_ne_nil s x y L hx hy hL)]
  · rw [cmdPositions_strokeCommand _ _ (pencil_changes_ne_nil s x y L hx hy hL),
      pencil_changes_positions s x y L hL]

set_option maxRecDepth 4000 in
theorem claim_C8_witness :
    ((0, 0) ∈ pencil_positions mirrorWitState 0 0 ∧
      (mirrorWitState.canvas_width - 1 - 0, 0) ∈ pencil_positions mirrorWitState 0 0) ∧
    (∀ L, mirrorWitState.layers.get? mirrorWitState.active_layer_index = some L →
      (apply_pencil mirrorWitState 0 0).history
          = mirrorWitState.history.push
            (strokeCommand mirrorWitState.active_layer_index
              (pencil_changes mirrorWitState 0 0)) ∧
      cmdPositions (strokeCommand mirrorWitState.active_layer_index
            (pencil_changes mirrorWitState 0 0))
          = pencil_positions mirrorWitState 0 0) :=
  ⟨⟨(claim_C8 mirrorWitState 0 0 rfl (by decide) (by decide)).1,
    (claim_C8 mirrorWitState 0 0 rfl (by decide) (by decide)).2.1⟩,
   (claim_C8 mirrorWitState 0 0 rfl (by decide) (by decide)).2.2.2⟩

/-! ## C4: pencil strokes, undo, redo -/

theorem paintAll_dims (c : Color) : ∀ (ps : List (ℕ × ℕ)) (L : Layer),
    (paintAll L ps c).width = L.width ∧ (paintAll L ps c).height = L.height ∧
    (paintAll L ps c).pixels.length = L.pixels.length ∧
    ((∀ b ∈ L.pixels, b ≤ 255) → ∀ b ∈ (paintAll L ps c).pixels, b ≤ 255)
  | [], L => ⟨rfl, rfl, rfl, fun h => h⟩
  | p :: rest, L => by
    have ih := paintAll_dims c rest (L.set_pixel p.1 p.2 c)
    have hstep : paintAll L (p :: rest) c = paintAll (L.set_pixel p.1 p.2 c) rest c := rfl
    rw [hstep]
    refine ⟨ih.1.trans (set_pixel_width L p.1 p.2 c), ih.2.1.trans (set_pixel_height L p.1 p.2 c),
      ih.2.2.1.trans (set_pixel_pixels_length L p.1 p.2 c), ?_⟩
    intro hb
    exact ih.2.2.2 (set_pixel_bytes_le L p.1 p.2 c hb)

theorem pushStrokeCommand_layers (idx : ℕ) (changes : List (ℕ × ℕ × Color × Color))
    (st : EditorState) :
    (pushStrokeCommand idx changes st).layers = st.layers ∧
    (pushStrokeCommand idx changes st).canvas_width = st.canvas_width ∧
    (pushStrokeCommand idx changes st).canvas_height = st.canvas_height ∧
    (pushStrokeCommand idx changes st).active_layer_index = st.active_layer_index := by
  unfold pushStrokeCommand
  cases changes with
  | nil => exact ⟨rfl, rfl, rfl, rfl⟩
  | cons a t => cases t <;> exact ⟨rfl, rfl, rfl, rfl⟩

theorem apply_pencil_facts (s : EditorState) (x y : ℕ) (L : Layer)
    (hx : x < s.canvas_width) (hy : y < s.canvas_height)
    (hL : s.layers.get? s.active_layer_index = some L) (hwf : StateWf s) :
    StateWf (apply_pencil s x y) ∧
    (apply_pencil s x y).canvas_width = s.canvas_width ∧
    (apply_pencil s x y).canvas_height = s.canvas_height ∧
    (apply_pencil s x y).active_layer_index = s.active_layer_index ∧
    (apply_pencil s x y).layers = s.layers.set s.active_layer_index
      (paintAll L (pencil_positions s x y) s.primary_color) ∧
    (apply_pencil s x y).history
      = s.history.push (strokeCommand s.active_layer_index (pencil_changes s x y)) := by
  obtain ⟨w1, w2, w3⟩ := hwf
  rw [apply_pencil_spec s x y L hx hy hL,
    pushStrokeCommand_push _ _ _ (pencil_changes_ne_nil s x y L hx hy hL)]
  refine ⟨⟨by simpa using w1, ?_, push_wf _ _ w3⟩, rfl, rfl, rfl, rfl, rfl⟩
  intro l hl
  rcases List.mem_or_eq_of_mem_set hl with hl | hl
  · exact w2 l hl
  · subst hl
    obtain ⟨d1, d2, d3, d4⟩ := paintAll_dims s.primary_color (pencil_positions s x y) L
    have hLwf := w2 L (List.get?_mem hL)
    exact ⟨d1.trans hLwf.1, d2.trans hLwf.2.1, d3.trans hLwf.2.2.1, d4 hLwf.2.2.2⟩

theorem applyUndoLayers_strokeCommand (idx : ℕ) (changes : List (ℕ × ℕ × Color × Color))
    (hne : changes ≠ []) (layers : List Layer) (L : Layer)
    (hL : layers.get? idx = some L) :
    applyUndoLayers layers (strokeCommand idx changes)
      = layers.set idx
          (changes.foldl (fun l ch => l.set_pixel ch.1 ch.2.1 ch.2.2.1) L) := by
  rw [List.get?_eq_getElem?] at hL
  unfold strokeCommand applyUndoLayers
  cases changes with
  | nil => exact absurd rfl hne
  | cons a t =>
    cases t with
    | nil => simp [List.get?_eq_getElem?, hL]
    | cons b t2 => simp [List.get?_eq_getElem?, hL]

theorem applyRedoLayers_strokeCommand (idx : ℕ) (changes : List (ℕ × ℕ × Color × Color))
    (hne : changes ≠ []) (layers : List Layer) (L : Layer)
    (hL : layers.get? idx = some L) :
    applyRedoLayers layers (strokeCommand idx changes)
      = layers.set idx
          (changes.foldl (fun l ch => l.set_pixel ch.1 ch.2.1 ch.2.2.2) L) := by
  rw [List.get?_eq_getElem?] at hL
  unfold strokeCommand applyRedoLayers
  cases changes with
  | nil => exact absurd rfl hne
  | cons a t =>
    cases t with
    | nil => simp [List.get?_eq_getElem?, hL]
    | cons b t2 => simp [List.get?_eq_getElem?, hL]

theorem stroke_undo_layers (s : EditorState) (x y : ℕ) (L : Layer)
    (hx : x < s.canvas_width) (hy : y < s.canvas_height)
    (hL : s.layers.get? s.active_layer_index = some L)
    (hb : ∀ b ∈ L.pixels, b ≤ 255) :
    applyUndoLayers
        (s.layers.set s.active_layer_index
          (paintAll L (pencil_positions s x y) s.primary_color))
        (strokeCommand s.active_layer_index (pencil_changes s x y))
      = s.layers := by
  have hlt : s.active_layer_index < s.layers.length := get?_some_lt _ _ _ hL
  rw [applyUndoLayers_strokeCommand _ _ (pencil_changes_ne_nil s x y L hx hy hL) _
    (paintAll L (pencil_positions s x y) s.primary_color)
    (by rw [List.get?_set_eq_of_lt _ (by simpa using hlt)])]
  rw [List.set_set]
  rw [pencil_changes_eq s x y L hL]
  rw [paint_unpaint L s.primary_color (pencil_positions s x y)
    (pencil_positions_nodup s x y) hb]
  exact list_set_self _ _ _ hL

theorem stroke_redo_layers (s : EditorState) (x y : ℕ) (L : Layer)
    (hx : x < s.canvas_width) (hy : y < s.canvas_height)
    (hL : s.layers.get? s.active_layer_index = some L) :
    applyRedoLayers s.layers (strokeCommand s.active_layer_index (pencil_changes s x y))
      = s.layers.set s.active_layer_index
          (paintAll L (pencil_positions s x y) s.primary_color) := by
  rw [applyRedoLayers_strokeCommand _ _ (pencil_changes_ne_nil s x y L hx hy hL) _ L hL]
  rw [pencil_changes_eq s x y L hL]
  rw [foldl_redo_map]

theorem strokeCmds_length : ∀ (s : EditorState) (strokes : List (ℕ × ℕ)),
    (strokeCmds s strokes).length = strokes.length
  | _, [] => rfl
  | s, p :: rest => by
    unfold strokeCmds
    rw [List.length_cons, strokeCmds_length _ rest]
    rfl

theorem applyStrokes_spec : ∀ (strokes : List (ℕ × ℕ)) (s : EditorState),
    StateWf s →
    (∀ p ∈ strokes, p.1 < s.canvas_width ∧ p.2 < s.canvas_height) →
    strokes.length ≤ 100 →
    StateWf (applyStrokes s strokes) ∧
    undoList (applyStrokes s strokes).history
      = (strokeCmds s strokes).reverse
          ++ (undoList s.history).take (100 - strokes.length) ∧
    ((strokeCmds s strokes).reverse).foldl applyUndoLayers
        (applyStrokes s strokes).layers = s.layers ∧
    (strokeCmds s strokes).foldl applyRedoLayers s.layers
      = (applyStrokes s strokes).layers
  | [], s, hwf, _, _ => by
    refine ⟨hwf, ?_, rfl, rfl⟩
    show undoList s.history
        = ([] : List EditCommand).reverse ++ (undoList s.history).take (100 - 0)
    rw [List.reverse_nil, List.nil_append, Nat.sub_zero]
    rw [List.take_of_length_le (by
      rw [undoList_length s.history hwf.2.2]
      obtain ⟨hh1, hh2⟩ := hwf.2.2
      omega)]
  | p :: rest, s, hwf, hin, hlen => by
    obtain ⟨L, hL⟩ : ∃ L, s.layers.get? s.active_layer_index = some L := by
      rw [List.get?_eq_getElem?, List.getElem?_eq_getElem hwf.1]
      exact ⟨_, rfl⟩
    have hpin := hin p (by simp)
    obtain ⟨f1, f2, f3, f4, f5, f6⟩ :=
      apply_pencil_facts s p.1 p.2 L hpin.1 hpin.2 hL hwf
    have hstep : applyStrokes s (p :: rest) = applyStrokes (apply_pencil s p.1 p.2) rest := rfl
    have hcmds : strokeCmds s (p :: rest)
        = strokeCommand s.active_layer_index (pencil_changes s p.1 p.2)
            :: strokeCmds (apply_pencil s p.1 p.2) rest := rfl
    have hin2 : ∀ q ∈ rest, q.1 < (apply_pencil s p.1 p.2).canvas_width
        ∧ q.2 < (apply_pencil s p.1 p.2).canvas_height := by
      intro q hq
      rw [f2, f3]
      exact hin q (by simp [hq])
    obtain ⟨i1, i2, i3, i4⟩ :=
      applyStrokes_spec rest (apply_pencil s p.1 p.2) f1 hin2 (by
        rw [List.length_cons] at hlen
        omega)
    refine ⟨by rw [hstep]; exact i1, ?_, ?_, ?_⟩
    · rw [hstep, hcmds, List.reverse_cons, i2, f6, undoList_push _ _ hwf.2.2]
      have hrl : rest.length ≤ 99 := by
        rw [List.length_cons] at hlen
        omega
      rw [show 100 - rest.length = (99 - rest.length) + 1 by omega]
      rw [List.take_succ_cons, List.take_take]
      rw [show min (99 - rest.length) 99 = 99 - rest.length by omega]
      rw [List.length_cons]
      rw [show 100 - (rest.length + 1) = 99 - rest.length by omega]
      rw [List.append_assoc, List.singleton_append]
    · rw [hstep, hcmds, List.reverse_cons, List.foldl_append, i3]
      dsimp only [List.foldl_cons, List.foldl_nil]
      rw [f5]
      exact stroke_undo_layers s p.1 p.2 L hpin.1 hpin.2 hL
        ((hwf.2.1 L (List.get?_mem hL)).2.2.2)
    · rw [hstep, hcmds, List.foldl_cons]
      rw [stroke_redo_layers s p.1 p.2 L hpin.1 hpin.2 hL]
      rw [← f5]
      exact i4

set_option maxRecDepth 16000 in
/-- C4 (amended): for at most 100 in-bounds pencil strokes on a well-formed
canvas state, undoing once per stroke restores every layer pixel-for-pixel,
and redoing once per stroke then restores the final stroked layers. -/
theorem claim_C4 (s : EditorState) (strokes : List (ℕ × ℕ))
    (hwf : StateWf s)
    (hin : ∀ p ∈ strokes, p.1 < s.canvas_width ∧ p.2 < s.canvas_height)
    (hlen : strokes.length ≤ 100) :
    (undoN strokes.length (applyStrokes s strokes)).layers = s.layers ∧
    (redoN strokes.length (undoN strokes.length (applyStrokes s strokes))).layers
      = (applyStrokes s strokes).layers := by
  obtain ⟨w1, w2, w3, w4⟩ := applyStrokes_spec strokes s hwf hin hlen
  obtain ⟨u1, u2, u3, u4, u5⟩ :=
    undoN_spec strokes.length (applyStrokes s strokes) w1.2.2
  have hculen : ((strokeCmds s strokes).reverse).length = strokes.length := by
    rw [List.length_reverse, strokeCmds_length]
  have htake : (undoList (applyStrokes s strokes).history).take strokes.length
      = (strokeCmds s strokes).reverse := by
    rw [w2, ← hculen, List.take_left]
  constructor
  · rw [u1, htake]
    exact w3
  · rw [redoN_spec strokes.length (undoN strokes.length (applyStrokes s strokes))]
    rw [u4, htake]
    rw [List.reverse_reverse]
    have htake2 : ((strokeCmds s strokes ++ redoList (applyStrokes s strokes).history).take
        strokes.length) = strokeCmds s strokes := by
      rw [← strokeCmds_length s strokes, List.take_left]
    rw [htake2]
    rw [u1, htake, w3]
    exact w4

set_option maxRecDepth 8000 in
theorem claim_C4_witness :
    (undoN 1 (applyStrokes (EditorState.new 1 1) [(0, 0)])).layers
        = (EditorState.new 1 1).layers ∧
    (redoN 1 (undoN 1 (applyStrokes (EditorState.new 1 1) [(0, 0)]))).layers
        = (applyStrokes (EditorState.new 1 1) [(0, 0)]).layers :=
  claim_C4 (EditorState.new 1 1) [(0, 0)]
    (by unfold StateWf LayerWf HistoryWf; decide) (by decide) (by decide)

set_option maxRecDepth 100000 in
/-- C4 as stated is false: after 101 pencil strokes the oldest history entry
has been evicted, so 101 undos no longer restore the original layers. -/
theorem claim_C4_cex :
    (undoN 101 (applyStrokes (EditorState.new 1 1) strokes101)).layers
      ≠ (EditorState.new 1 1).layers := by decide

/-! ## C2: cut selection -/

theorem flatIdx_lt (cw ch x y : ℕ) (hx : x < cw) (hy : y < ch) :
    (y * cw + x) * 4 + 3 < cw * ch * 4 := by
  have h1 : y * cw + x < cw * ch := by
    have he : (y + 1) * cw = y * cw + cw := by ring
    calc y * cw + x < (y + 1) * cw := by omega
      _ ≤ ch * cw := Nat.mul_le_mul_right cw hy
      _ = cw * ch := Nat.mul_comm _ _
  omega

theorem mem_range2 (ys xs : List ℕ) (p : ℕ × ℕ) :
    p ∈ range2 ys xs ↔ p.1 ∈ ys ∧ p.2 ∈ xs := by
  cases p with
  | mk a b =>
    simp only [range2, List.mem_flatMap, List.mem_map, Prod.mk.injEq]
    constructor
    · rintro ⟨y, hy, x, hx, h1, h2⟩
      subst h1
      subst h2
      exact ⟨hy, hx⟩
    · rintro ⟨h1, h2⟩
      exact ⟨a, h1, b, h2, rfl, rfl⟩

theorem range2_eq_product (ys xs : List ℕ) : range2 ys xs = ys ×ˢ xs := rfl

theorem nodup_range2 (ys xs : List ℕ) (hys : ys.Nodup) (hxs : xs.Nodup) :
    (range2 ys xs).Nodup := by
  rw [range2_eq_product]
  exact hys.product hxs

theorem selEndX_le (s : EditorState) (sel : Rect) : selEndX s sel ≤ s.canvas_width := by
  unfold selEndX clamp_u32
  omega

theorem selEndY_le (s : EditorState) (sel : Rect) : selEndY s sel ≤ s.canvas_height := by
  unfold selEndY clamp_u32
  omega

theorem selFoldF_cons (f : ℕ × ℕ → ℕ × ℕ × ℕ × ℕ) (sx sy w : ℕ) (buf : List ℕ)
    (r : ℕ × ℕ) (rest : List (ℕ × ℕ)) :
    selFoldF f sx sy w buf (r :: rest)
      = selFoldF f sx sy w
          (if ((r.1 - sy) * w + (r.2 - sx)) * 4 + 3 < buf.length
           then setQuad buf (((r.1 - sy) * w + (r.2 - sx)) * 4) (f r) else buf) rest := rfl

theorem selFoldF_length (f : ℕ × ℕ → ℕ × ℕ × ℕ × ℕ) (sx sy w : ℕ) :
    ∀ (qs : List (ℕ × ℕ)) (buf : List ℕ), (selFoldF f sx sy w buf qs).length = buf.length
  | [], _ => rfl
  | r :: rest, buf => by
    rw [selFoldF_cons]
    by_cases hg : ((r.1 - sy) * w + (r.2 - sx)) * 4 + 3 < buf.length
    · rw [if_pos hg, selFoldF_length f sx sy w rest _, length_setQuad]
    · rw [if_neg hg, selFoldF_length f sx sy w rest _]

theorem selFoldF_frame (f : ℕ × ℕ → ℕ × ℕ × ℕ × ℕ) (sx sy w h : ℕ) :
    ∀ (qs : List (ℕ × ℕ)) (buf : List ℕ) (q : ℕ × ℕ),
    (∀ r ∈ qs, sy ≤ r.1 ∧ r.1 < sy + h ∧ sx ≤ r.2 ∧ r.2 < sx + w) →
    sy ≤ q.1 → q.1 < sy + h → sx ≤ q.2 → q.2 < sx + w →
    (∀ r ∈ qs, r ≠ q) →
    getQuad (selFoldF f sx sy w buf qs) (((q.1 - sy) * w + (q.2 - sx)) * 4)
      = getQuad buf (((q.1 - sy) * w + (q.2 - sx)) * 4)
  | [], _, _, _, _, _, _, _, _ => rfl
  | r :: rest, buf, q, hb, h1, h2, h3, h4, hne => by
    have hbr := hb r (List.mem_cons_self r rest)
    rw [selFoldF_cons]
    have hrec := selFoldF_frame f sx sy w h rest
    by_cases hg : ((r.1 - sy) * w + (r.2 - sx)) * 4 + 3 < buf.length
    · rw [if_pos hg,
        hrec _ q (fun t ht => hb t (List.mem_cons_of_mem r ht)) h1 h2 h3 h4
          (fun t ht => hne t (List.mem_cons_of_mem r ht))]
      apply getQuad_setQuad_disjoint
      have hrow : (r.1 - sy) * w + (r.2 - sx) ≠ (q.1 - sy) * w + (q.2 - sx) := by
        have := rowMajor_ne (w := w) (p := (r.2 - sx, r.1 - sy)) (q := (q.2 - sx, q.1 - sy))
          (by omega) (by omega)
          (by
            intro he
            have e1 : r.2 - sx = q.2 - sx := congrArg Prod.fst he
            have e2 : r.1 - sy = q.1 - sy := congrArg Prod.snd he
            exact hne r (List.mem_cons_self r rest)
              (Prod.ext (by omega) (by omega)))
        simpa using this
      omega
    · rw [if_neg hg]
      exact hrec _ q (fun t ht => hb t (List.mem_cons_of_mem r ht)) h1 h2 h3 h4
        (fun t ht => hne t (List.mem_cons_of_mem r ht))

theorem selFoldF_mem (f : ℕ × ℕ → ℕ × ℕ × ℕ × ℕ) (sx sy w h : ℕ) :
    ∀ (qs : List (ℕ × ℕ)) (buf : List ℕ) (q : ℕ × ℕ),
    buf.length = w * h * 4 →
    (∀ r ∈ qs, sy ≤ r.1 ∧ r.1 < sy + h ∧ sx ≤ r.2 ∧ r.2 < sx + w) →
    qs.Nodup → q ∈ qs →
    getQuad (selFoldF f sx sy w buf qs) (((q.1 - sy) * w + (q.2 - sx)) * 4) = f q
  | [], _, q, _, _, _, hq => absurd hq (List.not_mem_nil q)
  | r :: rest, buf, q, hlen, hb, hnd, hq => by
    have hbr := hb r (List.mem_cons_self r rest)
    have hg : ((r.1 - sy) * w + (r.2 - sx)) * 4 + 3 < buf.length := by
      rw [hlen]
      exact flatIdx_lt w h (r.2 - sx) (r.1 - sy) (by omega) (by omega)
    rw [selFoldF_cons, if_pos hg]
    rcases List.mem_cons.mp hq with heq | hmem
    · subst heq
      have hnr : ∀ t ∈ rest, t ≠ q := fun t ht he =>
        (List.nodup_cons.mp hnd).1 (he ▸ ht)
      rw [selFoldF_frame f sx sy w h rest _ q
        (fun t ht => hb t (List.mem_cons_of_mem q ht)) (by omega) (by omega)
        (by omega) (by omega) hnr]
      exact getQuad_setQuad_self buf _ (f q) hg
    · exact selFoldF_mem f sx sy w h rest _ q
        (by rw [length_setQuad]; exact hlen)
        (fun t ht => hb t (List.mem_cons_of_mem r ht))
        (List.nodup_cons.mp hnd).2 hmem

theorem get_selection_pixels_nonempty (s : EditorState) (sel : Rect) (pixels : List ℕ)
    (h : get_selection_pixels s sel = some pixels) :
    selStartX s sel < selEndX s sel ∧ selStartY s sel < selEndY s sel := by
  by_contra hc
  unfold get_selection_pixels at h
  dsimp only at h
  rw [if_pos (show clamp_u32 (ratToI32 sel.x) 0 s.canvas_width ≥
      clamp_u32 (ratToI32 (sel.x + sel.width)) 0 s.canvas_width ∨
      clamp_u32 (ratToI32 sel.y) 0 s.canvas_height ≥
      clamp_u32 (ratToI32 (sel.y + sel.height)) 0 s.canvas_height by
    simp only [selStartX, selEndX, selStartY, selEndY] at hc
    omega)] at h
  exact Option.noConfusion h

theorem get_selection_pixels_eq (s : EditorState) (sel : Rect)
    (hne : selStartX s sel < selEndX s sel ∧ selStartY s sel < selEndY s sel) :
    get_selection_pixels s sel
      = some (selFoldF (fun yx => color_to_rgba8 (s.get_pixel yx.2 yx.1))
          (selStartX s sel) (selStartY s sel) (selW s sel)
          (List.replicate (selW s sel * selH s sel * 4) 0)
          (range2 (List.range' (selStartY s sel) (selH s sel))
            (List.range' (selStartX s sel) (selW s sel)))) := by
  obtain ⟨h1, h2⟩ := hne
  simp only [selStartX, selEndX, selStartY, selEndY] at h1 h2
  unfold get_selection_pixels
  dsimp only
  rw [if_neg (show ¬(clamp_u32 (ratToI32 sel.x) 0 s.canvas_width ≥
      clamp_u32 (ratToI32 (sel.x + sel.width)) 0 s.canvas_width ∨
      clamp_u32 (ratToI32 sel.y) 0 s.canvas_height ≥
      clamp_u32 (ratToI32 (sel.y + sel.height)) 0 s.canvas_height) by omega)]
  rfl

theorem get_selection_pixels_length (s : EditorState) (sel : Rect) (pixels : List ℕ)
    (h : get_selection_pixels s sel = some pixels) :
    pixels.length = selW s sel * selH s sel * 4 := by
  have hne := get_selection_pixels_nonempty s sel pixels h
  rw [get_selection_pixels_eq s sel hne] at h
  have hpe := Option.some.inj h
  rw [← hpe, selFoldF_length, List.length_replicate]

theorem get_selection_pixels_spec (s : EditorState) (sel : Rect) (pixels : List ℕ)
    (h : get_selection_pixels s sel = some pixels) :
    ∀ x y, x < selW s sel → y < selH s sel →
      getQuad pixels ((y * selW s sel + x) * 4)
        = color_to_rgba8 (s.get_pixel (selStartX s sel + x) (selStartY s sel + y)) := by
  intro x y hx hy
  have hne := get_selection_pixels_nonempty s sel pixels h
  rw [get_selection_pixels_eq s sel hne] at h
  have hpe := Option.some.inj h
  rw [← hpe]
  have hb : ∀ r ∈ range2 (List.range' (selStartY s sel) (selH s sel))
      (List.range' (selStartX s sel) (selW s sel)),
      selStartY s sel ≤ r.1 ∧ r.1 < selStartY s sel + selH s sel ∧
      selStartX s sel ≤ r.2 ∧ r.2 < selStartX s sel + selW s sel := by
    intro r hr
    rw [mem_range2] at hr
    obtain ⟨hr1, hr2⟩ := hr
    rw [List.mem_range'_1] at hr1 hr2
    exact ⟨hr1.1, hr1.2, hr2.1, hr2.2⟩
  have hnd := nodup_range2 (List.range' (selStartY s sel) (selH s sel))
    (List.range' (selStartX s sel) (selW s sel))
    (List.nodup_range' _ _) (List.nodup_range' _ _)
  have hmem : ((selStartY s sel + y, selStartX s sel + x) : ℕ × ℕ)
      ∈ range2 (List.range' (selStartY s sel) (selH s sel))
          (List.range' (selStartX s sel) (selW s sel)) := by
    rw [mem_range2]
    constructor
    · rw [List.mem_range'_1]
      omega
    · rw [List.mem_range'_1]
      omega
  have hval := selFoldF_mem (fun yx => color_to_rgba8 (s.get_pixel yx.2 yx.1))
    (selStartX s sel) (selStartY s sel) (selW s sel) (selH s sel)
    (range2 (List.range' (selStartY s sel) (selH s sel))
      (List.range' (selStartX s sel) (selW s sel)))
    (List.replicate (selW s sel * selH s sel * 4) 0)
    (selStartY s sel + y, selStartX s sel + x)
    (by rw [List.length_replicate]) hb hnd hmem
  simp only [Nat.add_sub_cancel_left] at hval
  exact hval

theorem set_pixel_transparent_get (L : Layer) (x y : ℕ) (hx : x < L.width)
    (hy : y < L.height) (hlen : (y * L.width + x) * 4 + 3 < L.pixels.length) :
    (L.set_pixel x y Color.TRANSPARENT).get_pixel x y = Color.TRANSPARENT := by
  rw [set_pixel_eq_write L x y _ hx hy hlen]
  unfold Layer.get_pixel
  dsimp only
  rw [if_neg (show ¬(x ≥ L.width ∨ y ≥ L.height) by omega)]
  rw [if_pos (show (y * L.width + x) * 4 + 3
      < (setQuad L.pixels ((y * L.width + x) * 4) Color.TRANSPARENT.into_rgba8).length by
    rw [length_setQuad]
    exact hlen)]
  rw [show Color.TRANSPARENT.into_rgba8 = (0, 0, 0, 0) from by decide]
  obtain ⟨h0, h1, h2, h3⟩ := getD_setQuad_hit L.pixels ((y * L.width + x) * 4) (0, 0, 0, 0) hlen
  rw [h0, h1, h2, h3]
  decide

theorem clearFold_frame : ∀ (qs : List (ℕ × ℕ)) (L : Layer) (x y : ℕ),
    (∀ r ∈ qs, (r.2, r.1) ≠ (x, y)) →
    (qs.foldl (fun l yx => l.set_pixel yx.2 yx.1 Color.TRANSPARENT) L).get_pixel x y
      = L.get_pixel x y
  | [], _, _, _, _ => rfl
  | r :: rest, L, x, y, h => by
    rw [List.foldl_cons]
    rw [clearFold_frame rest (L.set_pixel r.2 r.1 Color.TRANSPARENT) x y
      (fun t ht => h t (List.mem_cons_of_mem r ht))]
    exact get_pixel_set_pixel_ne L (x, y) (r.2, r.1) Color.TRANSPARENT
      (fun he => h r (List.mem_cons_self r rest) he.symm)

theorem clearFold_mem : ∀ (qs : List (ℕ × ℕ)) (L : Layer) (x y : ℕ),
    x < L.width → y < L.height → (y * L.width + x) * 4 + 3 < L.pixels.length →
    (y, x) ∈ qs →
    (qs.foldl (fun l yx => l.set_pixel yx.2 yx.1 Color.TRANSPARENT) L).get_pixel x y
      = Color.TRANSPARENT
  | [], _, _, _, _, _, _, hm => absurd hm (List.not_mem_nil _)
  | r :: rest, L, x, y, hx, hy, hlen, hm => by
    rw [List.foldl_cons]
    by_cases hmem : (y, x) ∈ rest
    · exact clearFold_mem rest (L.set_pixel r.2 r.1 Color.TRANSPARENT) x y
        (by rw [set_pixel_width]; exact hx)
        (by rw [set_pixel_height]; exact hy)
        (by rw [set_pixel_width, set_pixel_pixels_length]; exact hlen) hmem
    · have heq : r = (y, x) := ((List.mem_cons.mp hm).resolve_right hmem).symm
      subst heq
      have hnr : ∀ t ∈ rest, (t.2, t.1) ≠ (x, y) := by
        rintro ⟨a, b⟩ ht he
        have h1 : b = x := congrArg Prod.fst he
        have h2 : a = y := congrArg Prod.snd he
        subst h1
        subst h2
        exact hmem ht
      rw [clearFold_frame rest (L.set_pixel x y Color.TRANSPARENT) x y hnr]
      exact set_pixel_transparent_get L x y hx hy hlen

theorem msgCutSelection_eq (s : EditorState) (sel : Rect) (pixels : List ℕ) (L : Layer)
    (hsel : s.selection = some sel)
    (hpx : get_selection_pixels s sel = some pixels)
    (hL : s.layers.get? s.active_layer_index = some L) :
    msgCutSelection s
      = { s with
          clipboard := some ⟨pixels, selW s sel, selH s sel⟩,
          layers := (s.layers.set s.active_layer_index
            ((range2 (List.range' (selStartY s sel) (selH s sel))
                (List.range' (selStartX s sel) (selW s sel))).foldl
              (fun l yx => l.set_pixel yx.2 yx.1 Color.TRANSPARENT) L)) } := by
  unfold msgCutSelection
  rw [hsel]
  dsimp only
  rw [hpx]
  dsimp only
  rw [hL]
  rfl

/-- C2 (amended): with a selection whose clamped rectangle is non-empty and an
active layer present, cut copies the composited clamped-rectangle pixels into
the clipboard and clears that rectangle on the active layer to transparent,
leaving the rest of the layer untouched — but, contrary to the claim, it
pushes no command onto the history: the history is unchanged. -/
theorem claim_C2 (s : EditorState) (sel : Rect) (pixels : List ℕ) (L : Layer)
    (hsel : s.selection = some sel)
    (hpx : get_selection_pixels s sel = some pixels)
    (hL : s.layers.get? s.active_layer_index = some L)
    (hwf : LayerWf s.canvas_width s.canvas_height L) :
    CutSpec s sel pixels L := by
  have hme := msgCutSelection_eq s sel pixels L hsel hpx hL
  refine ⟨by rw [hme], get_selection_pixels_length s sel pixels hpx,
    get_selection_pixels_spec s sel pixels hpx, ?_, by rw [hme]⟩
  refine ⟨(range2 (List.range' (selStartY s sel) (selH s sel))
      (List.range' (selStartX s sel) (selW s sel))).foldl
      (fun l yx => l.set_pixel yx.2 yx.1 Color.TRANSPARENT) L, by rw [hme], ?_, ?_⟩
  · intro x y hx1 hx2 hy1 hy2
    apply clearFold_mem
    · rw [hwf.1]
      exact lt_of_lt_of_le hx2 (selEndX_le s sel)
    · rw [hwf.2.1]
      exact lt_of_lt_of_le hy2 (selEndY_le s sel)
    · rw [hwf.1, hwf.2.2.1]
      exact flatIdx_lt s.canvas_width s.canvas_height x y
        (lt_of_lt_of_le hx2 (selEndX_le s sel)) (lt_of_lt_of_le hy2 (selEndY_le s sel))
    · rw [mem_range2]
      constructor
      · rw [List.mem_range'_1]
        simp only [selH]
        omega
      · rw [List.mem_range'_1]
        simp only [selW]
        omega
  · intro x y hx hy hout
    apply clearFold_frame
    rintro ⟨a, b⟩ hr he
    rw [mem_range2] at hr
    obtain ⟨h1, h2⟩ := hr
    rw [List.mem_range'_1] at h1 h2
    have e1 : b = x := congrArg Prod.fst he
    have e2 : a = y := congrArg Prod.snd he
    subst e1
    subst e2
    simp only [selW, selH] at h1 h2
    exact hout ⟨by omega, by omega, by omega, by omega⟩

theorem claim_C2_witness :
    CutSpec cutCexState ⟨0, 0, 1, 1⟩ [10, 20, 30, 255]
      { Layer.new ("Layer 1") 2 2 with pixels := [10, 20, 30, 255] ++ List.replicate 12 0 } :=
  claim_C2 cutCexState ⟨0, 0, 1, 1⟩ [10, 20, 30, 255]
    { Layer.new ("Layer 1") 2 2 with pixels := [10, 20, 30, 255] ++ List.replicate 12 0 }
    (by decide) (by decide) (by decide) (by unfold LayerWf; decide)

/-- C2 as stated is false: on a 2×2 canvas with a non-empty 1×1 selection the
cut clears the pixel (the layers change) yet pushes no command at all onto the
history — the history stays empty instead of receiving one MultiPixelChange. -/
theorem claim_C2_cex :
    cutCexState.selection = some ⟨0, 0, 1, 1⟩ ∧
    (get_selection_pixels cutCexState ⟨0, 0, 1, 1⟩).isSome = true ∧
    (msgCutSelection cutCexState).layers ≠ cutCexState.layers ∧
    (msgCutSelection cutCexState).history = cutCexState.history ∧
    (msgCutSelection cutCexState).history.commands = [] := by decide

/-! ## C3: the canvas invariant -/

theorem canvasInv_set_layer (s : EditorState) (idx : ℕ) (L R : Layer)
    (hL : s.layers.get? idx = some L) (hw : R.width = L.width) (hh : R.height = L.height)
    (hinv : CanvasInv s) :
    s.layers.set idx R ≠ [] ∧
    s.active_layer_index < (s.layers.set idx R).length ∧
    ∀ l ∈ s.layers.set idx R, l.width = s.canvas_width ∧ l.height = s.canvas_height := by
  obtain ⟨h1, h2, h3⟩ := hinv
  refine ⟨List.ne_nil_of_length_pos (by rw [List.length_set]; exact List.length_pos.mpr h1),
    by rw [List.length_set]; exact h2, ?_⟩
  intro l hl
  rcases List.mem_or_eq_of_mem_set hl with hm | he
  · exact h3 l hm
  · subst he
    have hlay := h3 L (List.get?_mem hL)
    exact ⟨hw.trans hlay.1, hh.trans hlay.2⟩

theorem set_pixel_canvasInv (s : EditorState) (x y : ℕ) (c : Color)
    (hinv : CanvasInv s) : CanvasInv (s.set_pixel x y c) := by
  unfold EditorState.set_pixel
  rcases hL : s.layers.get? s.active_layer_index with _ | layer
  · simp only [hL]
    exact hinv
  · simp only [hL]
    exact canvasInv_set_layer s s.active_layer_index layer (layer.set_pixel x y c) hL
      (set_pixel_width _ _ _ _) (set_pixel_height _ _ _ _) hinv

theorem stampAt_canvasInv (c : Color) (acc : EditorState × List (ℕ × ℕ × Color × Color))
    (p : ℕ × ℕ) (hinv : CanvasInv acc.1) : CanvasInv ((stampAt c acc p).1) := by
  unfold stampAt
  by_cases hg : p.1 ≥ acc.1.canvas_width ∨ p.2 ≥ acc.1.canvas_height
  · rw [if_pos hg]
    exact hinv
  · rw [if_neg hg]
    rcases hal : acc.1.active_layer with _ | layer
    · simp only [hal]
      exact hinv
    · simp only [hal]
      exact set_pixel_canvasInv acc.1 p.1 p.2 c hinv

theorem stampFold_canvasInv (c : Color) :
    ∀ (ps : List (ℕ × ℕ)) (acc : EditorState × List (ℕ × ℕ × Color × Color)),
    CanvasInv acc.1 → CanvasInv ((ps.foldl (stampAt c) acc).1)
  | [], _, h => h
  | p :: rest, acc, h => by
    rw [List.foldl_cons]
    exact stampFold_canvasInv c rest (stampAt c acc p) (stampAt_canvasInv c acc p h)

theorem pushStrokeCommand_canvasInv (idx : ℕ) (chs : List (ℕ × ℕ × Color × Color))
    (s : EditorState) (hinv : CanvasInv s) : CanvasInv (pushStrokeCommand idx chs s) := by
  unfold pushStrokeCommand
  match chs with
  | [] => exact hinv
  | [c] => exact ⟨hinv.1, hinv.2.1, hinv.2.2⟩
  | c1 :: c2 :: rest => exact ⟨hinv.1, hinv.2.1, hinv.2.2⟩

theorem layer_fold_dims {α : Type} (fx fy : α → ℕ) (fc : α → Color) :
    ∀ (chs : List α) (l : Layer),
    (chs.foldl (fun acc a => acc.set_pixel (fx a) (fy a) (fc a)) l).width = l.width ∧
    (chs.foldl (fun acc a => acc.set_pixel (fx a) (fy a) (fc a)) l).height = l.height
  | [], _ => ⟨rfl, rfl⟩
  | a :: rest, l => by
    rw [List.foldl_cons]
    have ih := layer_fold_dims fx fy fc rest (l.set_pixel (fx a) (fy a) (fc a))
    exact ⟨ih.1.trans (set_pixel_width _ _ _ _), ih.2.trans (set_pixel_height _ _ _ _)⟩

theorem apply_undo_canvasInv (s : EditorState) (cmd : EditCommand)
    (hinv : CanvasInv s) : CanvasInv (apply_undo_command s cmd) := by
  unfold apply_undo_command
  match cmd with
  | .PixelChange idx x y oc nc =>
    rcases hL : s.layers.get? idx with _ | layer
    · simp only [hL]
      exact hinv
    · simp only [hL]
      exact canvasInv_set_layer s idx layer (layer.set_pixel x y oc) hL
        (set_pixel_width _ _ _ _) (set_pixel_height _ _ _ _) hinv
  | .MultiPixelChange idx chs =>
    rcases hL : s.layers.get? idx with _ | layer
    · simp only [hL]
      exact hinv
    · simp only [hL]
      have hd := layer_fold_dims (fun (ch : ℕ × ℕ × Color × Color) => ch.1)
        (fun ch => ch.2.1) (fun ch => ch.2.2.1) chs layer
      exact canvasInv_set_layer s idx layer
        (chs.foldl (fun l ch => l.set_pixel ch.1 ch.2.1 ch.2.2.1) layer) hL hd.1 hd.2 hinv

theorem apply_redo_canvasInv (s : EditorState) (cmd : EditCommand)
    (hinv : CanvasInv s) : CanvasInv (apply_redo_command s cmd) := by
  unfold apply_redo_command
  match cmd with
  | .PixelChange idx x y oc nc =>
    rcases hL : s.layers.get? idx with _ | layer
    · simp only [hL]
      exact hinv
    · simp only [hL]
      exact canvasInv_set_layer s idx layer (layer.set_pixel x y nc) hL
        (set_pixel_width _ _ _ _) (set_pixel_height _ _ _ _) hinv
  | .MultiPixelChange idx chs =>
    rcases hL : s.layers.get? idx with _ | layer
    · simp only [hL]
      exact hinv
    · simp only [hL]
      have hd := layer_fold_dims (fun (ch : ℕ × ℕ × Color × Color) => ch.1)
        (fun ch => ch.2.1) (fun ch => ch.2.2.2) chs layer
      exact canvasInv_set_layer s idx layer
        (chs.foldl (fun l ch => l.set_pixel ch.1 ch.2.1 ch.2.2.2) layer) hL hd.1 hd.2 hinv

theorem msgLayerAdded_canvasInv (s : EditorState) (name : String)
    (hinv : CanvasInv s) : CanvasInv (msgLayerAdded s name) := by
  obtain ⟨h1, h2, h3⟩ := hinv
  unfold msgLayerAdded EditorState.add_layer
  dsimp only
  refine ⟨List.ne_nil_of_length_pos (by rw [List.length_append]; simp), ?_, ?_⟩
  · dsimp only
    have hp : 0 < (s.layers ++ [Layer.new name s.canvas_width s.canvas_height]).length := by
      rw [List.length_append]
      simp
    omega
  · intro l hl
    rcases List.mem_append.mp hl with hm | hm
    · exact h3 l hm
    · rw [List.mem_singleton] at hm
      subst hm
      exact ⟨rfl, rfl⟩

theorem msgLayerDeleted_canvasInv (s : EditorState) (index : ℕ)
    (hinv : CanvasInv s) : CanvasInv (msgLayerDeleted s index) := by
  obtain ⟨h1, h2, h3⟩ := hinv
  unfold msgLayerDeleted EditorState.delete_layer
  dsimp only
  by_cases hg : s.layers.length > 1 ∧ index < s.layers.length
  · rw [if_pos hg]
    have hlen : (s.layers.eraseIdx index).length = s.layers.length - 1 := by
      rw [List.length_eraseIdx, if_pos hg.2]
    by_cases ha : s.active_layer_index ≥ (s.layers.eraseIdx index).length
    · rw [if_pos ha]
      refine ⟨List.ne_nil_of_length_pos (by rw [hlen]; omega), by dsimp only; omega, ?_⟩
      intro l hl
      exact h3 l (List.mem_of_mem_eraseIdx hl)
    · rw [if_neg ha]
      refine ⟨List.ne_nil_of_length_pos (by rw [hlen]; omega), by dsimp only; omega, ?_⟩
      intro l hl
      exact h3 l (List.mem_of_mem_eraseIdx hl)
  · rw [if_neg hg]
    exact ⟨h1, h2, h3⟩

theorem msgLayerMoved_canvasInv (s : EditorState) (i j : ℕ)
    (hinv : CanvasInv s) : CanvasInv (msgLayerMoved s i j) := by
  obtain ⟨h1, h2, h3⟩ := hinv
  unfold msgLayerMoved
  by_cases hg : i < s.layers.length ∧ j < s.layers.length
  · rw [if_pos hg]
    rcases hL : s.layers.get? i with _ | layer
    · simp only [hL]
      exact ⟨h1, h2, h3⟩
    · simp only [hL]
      have he : (s.layers.eraseIdx i).length = s.layers.length - 1 := by
        rw [List.length_eraseIdx, if_pos hg.1]
      have hil : ((s.layers.eraseIdx i).insertIdx j layer).length = s.layers.length := by
        rw [List.length_insertIdx j _ (by omega), he]
        omega
      have hdims : ∀ l ∈ (s.layers.eraseIdx i).insertIdx j layer,
          l.width = s.canvas_width ∧ l.height = s.canvas_height := by
        intro l hl
        rcases (List.mem_insertIdx (by omega)).mp hl with he2 | hm
        · subst he2
          exact h3 _ (List.get?_mem hL)
        · exact h3 l (List.mem_of_mem_eraseIdx hm)
      split_ifs with c1 c2 c3
      · exact ⟨List.ne_nil_of_length_pos (by rw [hil]; omega), by rw [hil]; exact hg.2, hdims⟩
      · exact ⟨List.ne_nil_of_length_pos (by rw [hil]; omega),
          by dsimp only; rw [hil]; omega, hdims⟩
      · exact ⟨List.ne_nil_of_length_pos (by rw [hil]; omega),
          by dsimp only; rw [hil]; omega, hdims⟩
      · exact ⟨List.ne_nil_of_length_pos (by rw [hil]; omega), by rw [hil]; exact h2, hdims⟩
  · rw [if_neg hg]
    exact ⟨h1, h2, h3⟩

theorem msgLayerSelected_canvasInv (s : EditorState) (index : ℕ)
    (hinv : CanvasInv s) : CanvasInv (msgLayerSelected s index) := by
  obtain ⟨h1, h2, h3⟩ := hinv
  unfold msgLayerSelected
  by_cases hg : index < s.layers.length
  · rw [if_pos hg]
    exact ⟨h1, hg, h3⟩
  · rw [if_neg hg]
    exact ⟨h1, h2, h3⟩

theorem msgCanvasResized_canvasInv (s : EditorState) (w h : ℕ)
    (hinv : CanvasInv s) : CanvasInv (msgCanvasResized s w h) := by
  obtain ⟨h1, h2, h3⟩ := hinv
  unfold msgCanvasResized
  refine ⟨List.ne_nil_of_length_pos (by rw [List.length_map]; exact List.length_pos.mpr h1),
    by rw [List.length_map]; exact h2, ?_⟩
  intro l hl
  obtain ⟨t, ht, rfl⟩ := List.mem_map.mp hl
  exact ⟨rfl, rfl⟩

theorem apply_pencil_canvasInv (s : EditorState) (x y : ℕ)
    (hinv : CanvasInv s) : CanvasInv (apply_pencil s x y) := by
  unfold apply_pencil
  by_cases hg : x ≥ s.canvas_width ∨ y ≥ s.canvas_height
  · rw [if_pos hg]
    exact hinv
  · rw [if_neg hg]
    exact pushStrokeCommand_canvasInv _ _ _
      (stampFold_canvasInv s.primary_color (pencil_positions s x y) (s, []) hinv)

theorem apply_eraser_canvasInv (s : EditorState) (x y : ℕ)
    (hinv : CanvasInv s) : CanvasInv (apply_eraser s x y) := by
  unfold apply_eraser
  by_cases hg : x ≥ s.canvas_width ∨ y ≥ s.canvas_height
  · rw [if_pos hg]
    exact hinv
  · rw [if_neg hg]
    exact pushStrokeCommand_canvasInv _ _ _
      (stampFold_canvasInv Color.TRANSPARENT (pencil_positions s x y) (s, []) hinv)

theorem fillStep_layer_dims (pc tc : Color) (cw ch : ℕ) (st : FillState) :
    (fillStep pc tc cw ch st).layer.width = st.layer.width ∧
    (fillStep pc tc cw ch st).layer.height = st.layer.height := by
  unfold fillStep
  rcases hq : st.queue with _ | ⟨c, rest⟩
  · simp [hq]
  · simp only [hq]
    split_ifs with g1 g2
    · simp
    · simp
    · exact ⟨set_pixel_width _ _ _ _, set_pixel_height _ _ _ _⟩

theorem fillLoop_layer_dims (pc tc : Color) (cw ch : ℕ) :
    ∀ (fuel : ℕ) (st : FillState),
    (fillLoop pc tc cw ch fuel st).layer.width = st.layer.width ∧
    (fillLoop pc tc cw ch fuel st).layer.height = st.layer.height
  | 0, _ => ⟨rfl, rfl⟩
  | fuel + 1, st => by
    rcases hq : st.queue with _ | ⟨c, rest⟩
    · unfold fillLoop
      simp [hq]
    · unfold fillLoop
      simp only [hq]
      have ih := fillLoop_layer_dims pc tc cw ch fuel (fillStep pc tc cw ch st)
      have hs := fillStep_layer_dims pc tc cw ch st
      exact ⟨ih.1.trans hs.1, ih.2.trans hs.2⟩

theorem apply_fill_canvasInv (s : EditorState) (x y : ℕ)
    (hinv : CanvasInv s) : CanvasInv (apply_fill s x y) := by
  unfold apply_fill
  by_cases hg : x ≥ s.canvas_width ∨ y ≥ s.canvas_height
  · rw [if_pos hg]
    exact hinv
  · rw [if_neg hg]
    dsimp only
    rcases hL : s.layers.get? s.active_layer_index with _ | layer
    · simp only [hL]
      exact hinv
    · simp only [hL]
      by_cases ht : layer.get_pixel x y = s.primary_color
      · rw [if_pos ht]
        exact hinv
      · rw [if_neg ht]
        have hd := fillLoop_layer_dims s.primary_color (layer.get_pixel x y)
          s.canvas_width s.canvas_height (s.canvas_width * s.canvas_height)
          ⟨layer, [], [(x, y)], [(x, y)]⟩
        have hbase := canvasInv_set_layer s s.active_layer_index layer
          (fillLoop s.primary_color (layer.get_pixel x y) s.canvas_width s.canvas_height
            (s.canvas_width * s.canvas_height) ⟨layer, [], [(x, y)], [(x, y)]⟩).layer
          hL hd.1 hd.2 hinv
        split_ifs with hch
        · exact ⟨hbase.1, hbase.2.1, hbase.2.2⟩
        · exact ⟨hbase.1, hbase.2.1, hbase.2.2⟩

theorem msgUndo_canvasInv (s : EditorState) (hinv : CanvasInv s) :
    CanvasInv (msgUndo s) := by
  unfold msgUndo
  dsimp only
  rcases hu : (s.history.undo).1 with _ | cmd
  · simp only [hu]
    exact ⟨hinv.1, hinv.2.1, hinv.2.2⟩
  · simp only [hu]
    exact apply_undo_canvasInv _ cmd ⟨hinv.1, hinv.2.1, hinv.2.2⟩

theorem msgRedo_canvasInv (s : EditorState) (hinv : CanvasInv s) :
    CanvasInv (msgRedo s) := by
  unfold msgRedo
  dsimp only
  rcases hu : (s.history.redo).1 with _ | cmd
  · simp only [hu]
    exact ⟨hinv.1, hinv.2.1, hinv.2.2⟩
  · simp only [hu]
    exact apply_redo_canvasInv _ cmd ⟨hinv.1, hinv.2.1, hinv.2.2⟩

theorem msgFileLoaded_canvasInv (s : EditorState) (data : List ℕ)
    (hinv : CanvasInv s)
    (hcond : Nat.sqrt (data.length / 4) > s.canvas_width ∨
      Nat.sqrt (data.length / 4) > s.canvas_height ∨
      (Nat.sqrt (data.length / 4) = s.canvas_width ∧
        Nat.sqrt (data.length / 4) = s.canvas_height)) :
    CanvasInv (msgFileLoaded s data) := by
  obtain ⟨h1, h2, h3⟩ := hinv
  unfold msgFileLoaded
  dsimp only
  split_ifs with hgrow
  · refine ⟨?_, ?_, ?_⟩
    · apply List.ne_nil_of_length_pos
      rw [List.length_map, List.length_append]
      simp
    · dsimp only
      rw [List.length_map, List.length_append]
      simp only [List.length_cons, List.length_nil]
      omega
    · intro l hl
      obtain ⟨t, ht, rfl⟩ := List.mem_map.mp hl
      dsimp only
      split_ifs with hd
      · exact ⟨rfl, rfl⟩
      · push_neg at hd
        exact ⟨hd.1, hd.2⟩
  · have heq : Nat.sqrt (data.length / 4) = s.canvas_width ∧
        Nat.sqrt (data.length / 4) = s.canvas_height := by
      rcases hcond with h | h | h
      · exact absurd (Or.inl h) hgrow
      · exact absurd (Or.inr h) hgrow
      · exact h
    refine ⟨?_, ?_, ?_⟩
    · apply List.ne_nil_of_length_pos
      rw [List.length_append]
      simp
    · dsimp only
      rw [List.length_append]
      simp only [List.length_cons, List.length_nil]
      omega
    · intro l hl
      rcases List.mem_append.mp hl with hm | hm
      · exact h3 l hm
      · rw [List.mem_singleton] at hm
        subst hm
        exact ⟨heq.1, heq.2⟩

/-- C3 (amended): layer add/delete/move/select, canvas resize, the pencil,
eraser and fill tools, and undo/redo all preserve the canvas invariant
(non-empty layer list, in-bounds active index, all layers sized to the
canvas); image import preserves it only when the imported square image is
strictly larger than the canvas in some dimension (forcing the growth/resize
path) or exactly canvas-sized — a strictly smaller import breaks it. -/
theorem claim_C3 :
    (∀ s name, CanvasInv s → CanvasInv (msgLayerAdded s name)) ∧
    (∀ s index, CanvasInv s → CanvasInv (msgLayerDeleted s index)) ∧
    (∀ s i j, CanvasInv s → CanvasInv (msgLayerMoved s i j)) ∧
    (∀ s index, CanvasInv s → CanvasInv (msgLayerSelected s index)) ∧
    (∀ s w h, CanvasInv s → CanvasInv (msgCanvasResized s w h)) ∧
    (∀ s x y, CanvasInv s → CanvasInv (apply_pencil s x y)) ∧
    (∀ s x y, CanvasInv s → CanvasInv (apply_eraser s x y)) ∧
    (∀ s x y, CanvasInv s → CanvasInv (apply_fill s x y)) ∧
    (∀ s, CanvasInv s → CanvasInv (msgUndo s)) ∧
    (∀ s, CanvasInv s → CanvasInv (msgRedo s)) ∧
    (∀ s data, CanvasInv s →
      (Nat.sqrt (data.length / 4) > s.canvas_width ∨
       Nat.sqrt (data.length / 4) > s.canvas_height ∨
       (Nat.sqrt (data.length / 4) = s.canvas_width ∧
        Nat.sqrt (data.length / 4) = s.canvas_height)) →
      CanvasInv (msgFileLoaded s data)) :=
  ⟨msgLayerAdded_canvasInv, msgLayerDeleted_canvasInv, msgLayerMoved_canvasInv,
   msgLayerSelected_canvasInv, msgCanvasResized_canvasInv, apply_pencil_canvasInv,
   apply_eraser_canvasInv, apply_fill_canvasInv, msgUndo_canvasInv, msgRedo_canvasInv,
   msgFileLoaded_canvasInv⟩

theorem claim_C3_witness :
    CanvasInv (msgLayerAdded (EditorState.new 2 2) ("L")) ∧
    CanvasInv (msgFileLoaded (EditorState.new 2 2) (List.replicate 64 0)) :=
  ⟨claim_C3.1 (EditorState.new 2 2) ("L") (by unfold CanvasInv; decide),
   claim_C3.2.2.2.2.2.2.2.2.2.2 (EditorState.new 2 2) (List.replicate 64 0)
     (by unfold CanvasInv; decide)
     (by
       left
       rw [show (List.replicate 64 (0 : ℕ)).length / 4 = 16 from by decide]
       rw [show Nat.sqrt 16 = 4 from by
         rw [show (16 : ℕ) = 4 * 4 from by norm_num]
         exact Nat.sqrt_eq 4]
       decide)⟩

/-- C3 as stated is false: importing a 2×2 image (16 RGBA bytes) into a 4×4
canvas appends an "Imported" layer that keeps its 2×2 size — the growth path
is not taken and the layer is never resized to the canvas, so the invariant
that every layer matches the canvas size is broken. -/
theorem claim_C3_cex :
    CanvasInv (EditorState.new 4 4) ∧
    ¬ CanvasInv (msgFileLoaded (EditorState.new 4 4) (List.replicate 16 0)) := by
  have hs : Nat.sqrt ((List.replicate 16 (0 : ℕ)).length / 4) = 2 := by
    rw [show (List.replicate 16 (0 : ℕ)).length / 4 = 4 from by decide]
    rw [show (4 : ℕ) = 2 * 2 from by norm_num]
    exact Nat.sqrt_eq 2
  refine ⟨by unfold CanvasInv; decide, ?_⟩
  unfold CanvasInv msgFileLoaded
  dsimp only
  rw [hs]
  decide

/-! ## C5/C6: flood fill -/

theorem rowIdx_lt (cw ch : ℕ) (p : ℕ × ℕ) (h1 : p.1 < cw) (h2 : p.2 < ch) :
    p.2 * cw + p.1 < cw * ch := by
  have he : (p.2 + 1) * cw = p.2 * cw + cw := by ring
  calc p.2 * cw + p.1 < (p.2 + 1) * cw := by omega
    _ ≤ ch * cw := Nat.mul_le_mul_right cw h2
    _ = cw * ch := Nat.mul_comm _ _

theorem nodupGrid_length_le (cw ch : ℕ) (v : List (ℕ × ℕ)) (hnd : v.Nodup)
    (hin : ∀ p ∈ v, p.1 < cw ∧ p.2 < ch) : v.length ≤ cw * ch := by
  have hmapnd : (v.map (fun p => p.2 * cw + p.1)).Nodup := by
    refine List.Nodup.map_on ?_ hnd
    intro a ha b hb he
    by_contra hne
    exact rowMajor_ne (hin a ha).1 (hin b hb).1 hne he
  have hsub : (v.map (fun p => p.2 * cw + p.1)) ⊆ List.range (cw * ch) := by
    intro t ht
    obtain ⟨p, hp, rfl⟩ := List.mem_map.mp ht
    rw [List.mem_range]
    exact rowIdx_lt cw ch p (hin p hp).1 (hin p hp).2
  have hle := (List.subperm_of_subset hmapnd hsub).length_le
  rw [List.length_map, List.length_range] at hle
  exact hle

theorem adj_iff_delta (c q : ℕ × ℕ) :
    (∃ d ∈ fill_deltas, 0 ≤ (c.1 : ℤ) + d.1 ∧ 0 ≤ (c.2 : ℤ) + d.2 ∧
      q = (((c.1 : ℤ) + d.1).toNat, ((c.2 : ℤ) + d.2).toNat))
    ↔ adjacent4 c q := by
  constructor
  · rintro ⟨d, hd, h1, h2, rfl⟩
    simp only [fill_deltas, List.mem_cons, List.not_mem_nil, or_false] at hd
    unfold adjacent4
    rcases hd with rfl | rfl | rfl | rfl
    all_goals dsimp only
    all_goals omega
  · intro ha
    unfold adjacent4 at ha
    have hcases : (q.1 = c.1 + 1 ∧ q.2 = c.2) ∨ (c.1 = q.1 + 1 ∧ q.2 = c.2) ∨
        (q.2 = c.2 + 1 ∧ q.1 = c.1) ∨ (c.2 = q.2 + 1 ∧ q.1 = c.1) := by omega
    rcases hcases with ⟨e1, e2⟩ | ⟨e1, e2⟩ | ⟨e1, e2⟩ | ⟨e1, e2⟩
    · refine ⟨(1, 0), by simp [fill_deltas], by omega, by omega, ?_⟩
      refine Prod.ext ?_ ?_ <;> dsimp only <;> omega
    · refine ⟨(-1, 0), by simp [fill_deltas], by omega, by omega, ?_⟩
      refine Prod.ext ?_ ?_ <;> dsimp only <;> omega
    · refine ⟨(0, 1), by simp [fill_deltas], by omega, by omega, ?_⟩
      refine Prod.ext ?_ ?_ <;> dsimp only <;> omega
    · refine ⟨(0, -1), by simp [fill_deltas], by omega, by omega, ?_⟩
      refine Prod.ext ?_ ?_ <;> dsimp only <;> omega

theorem get_pixel_eq_of_quads (A B : Layer) (x y : ℕ) (hw : A.width = B.width)
    (hh : A.height = B.height) (hl : A.pixels.length = B.pixels.length)
    (hq : getQuad A.pixels ((y * B.width + x) * 4)
        = getQuad B.pixels ((y * B.width + x) * 4)) :
    A.get_pixel x y = B.get_pixel x y := by
  simp only [getQuad, Prod.mk.injEq] at hq
  obtain ⟨e0, e1, e2, e3⟩ := hq
  unfold Layer.get_pixel
  rw [hw, hh, hl]
  dsimp only
  split_ifs with h1 h2
  · rfl
  · rw [e0, e1, e2, e3]
  · rfl

theorem fillVisit_fold_spec (cw ch : ℕ) (c : ℕ × ℕ) :
    ∀ (ds : List (ℤ × ℤ)) (vq : List (ℕ × ℕ) × List (ℕ × ℕ)),
    ∃ new : List (ℕ × ℕ),
      (ds.foldl (fillVisit cw ch c) vq).1 = vq.1 ++ new ∧
      (ds.foldl (fillVisit cw ch c) vq).2 = vq.2 ++ new ∧
      new.Nodup ∧
      (∀ n ∈ new, n ∉ vq.1 ∧ n.1 < cw ∧ n.2 < ch ∧
        ∃ d ∈ ds, 0 ≤ (c.1 : ℤ) + d.1 ∧ 0 ≤ (c.2 : ℤ) + d.2 ∧
          n = (((c.1 : ℤ) + d.1).toNat, ((c.2 : ℤ) + d.2).toNat)) ∧
      (∀ q : ℕ × ℕ, q.1 < cw → q.2 < ch →
        (∃ d ∈ ds, 0 ≤ (c.1 : ℤ) + d.1 ∧ 0 ≤ (c.2 : ℤ) + d.2 ∧
          q = (((c.1 : ℤ) + d.1).toNat, ((c.2 : ℤ) + d.2).toNat)) →
        q ∈ vq.1 ++ new)
  | [], vq =>
    ⟨[], by simp, by simp, List.nodup_nil, by simp,
     fun q _ _ h => absurd h (by simp)⟩
  | d :: rest, vq => by
    by_cases hnn : 0 ≤ (c.1 : ℤ) + d.1 ∧ 0 ≤ (c.2 : ℤ) + d.2
    · set n : ℕ × ℕ := (((c.1 : ℤ) + d.1).toNat, ((c.2 : ℤ) + d.2).toNat) with hn
      by_cases hadd : n ∉ vq.1 ∧ n.1 < cw ∧ n.2 < ch
      · -- the neighbour is appended
        have hstep : fillVisit cw ch c vq d = (vq.1 ++ [n], vq.2 ++ [n]) := by
          unfold fillVisit
          rw [if_pos hnn]
          dsimp only
          rw [if_pos hadd]
        obtain ⟨new, i1, i2, i3, i4, i5⟩ :=
          fillVisit_fold_spec cw ch c rest (vq.1 ++ [n], vq.2 ++ [n])
        refine ⟨n :: new, ?_, ?_, ?_, ?_, ?_⟩
        · rw [List.foldl_cons, hstep, i1]
          simp [List.append_assoc]
        · rw [List.foldl_cons, hstep, i2]
          simp [List.append_assoc]
        · refine List.nodup_cons.mpr ⟨?_, i3⟩
          intro hc
          exact (i4 n hc).1 (by simp)
        · intro m hm
          rcases List.mem_cons.mp hm with rfl | hm
          · exact ⟨hadd.1, hadd.2.1, hadd.2.2, d, List.mem_cons_self d rest, hnn.1, hnn.2, rfl⟩
          · obtain ⟨m1, m2, m3, d', hd', hh1, hh2, hh3⟩ := i4 m hm
            exact ⟨fun hc => m1 (List.mem_append_left _ hc), m2, m3,
              d', List.mem_cons_of_mem d hd', hh1, hh2, hh3⟩
        · intro q hq1 hq2 hex
          obtain ⟨d', hd', g1, g2, g3⟩ := hex
          rcases List.mem_cons.mp hd' with rfl | hd'
          · -- q is this very neighbour, freshly appended
            rw [show q = n from g3]
            exact List.mem_append_right _ (List.mem_cons_self n new)
          · have hi := i5 q hq1 hq2 ⟨d', hd', g1, g2, g3⟩
            rw [List.append_assoc, List.singleton_append] at hi
            exact hi
      · -- already visited or out of bounds: no change
        have hstep : fillVisit cw ch c vq d = vq := by
          unfold fillVisit
          rw [if_pos hnn]
          dsimp only
          rw [if_neg hadd]
        obtain ⟨new, i1, i2, i3, i4, i5⟩ := fillVisit_fold_spec cw ch c rest vq
        refine ⟨new, ?_, ?_, i3, ?_, ?_⟩
        · rw [List.foldl_cons, hstep, i1]
        · rw [List.foldl_cons, hstep, i2]
        · intro m hm
          obtain ⟨m1, m2, m3, d', hd', hh1, hh2, hh3⟩ := i4 m hm
          exact ⟨m1, m2, m3, d', List.mem_cons_of_mem d hd', hh1, hh2, hh3⟩
        · intro q hq1 hq2 hex
          obtain ⟨d', hd', g1, g2, g3⟩ := hex
          rcases List.mem_cons.mp hd' with rfl | hd'
          · -- skipped: q must already be visited
            rw [show q = n from g3] at hq1 hq2 ⊢
            have hv : n ∈ vq.1 := by
              by_contra hvn
              exact hadd ⟨hvn, hq1, hq2⟩
            exact List.mem_append_left _ hv
          · exact i5 q hq1 hq2 ⟨d', hd', g1, g2, g3⟩
    · -- negative coordinate: no change
      have hstep : fillVisit cw ch c vq d = vq := by
        unfold fillVisit
        rw [if_neg hnn]
      obtain ⟨new, i1, i2, i3, i4, i5⟩ := fillVisit_fold_spec cw ch c rest vq
      refine ⟨new, ?_, ?_, i3, ?_, ?_⟩
      · rw [List.foldl_cons, hstep, i1]
      · rw [List.foldl_cons, hstep, i2]
      · intro m hm
        obtain ⟨m1, m2, m3, d', hd', hh1, hh2, hh3⟩ := i4 m hm
        exact ⟨m1, m2, m3, d', List.mem_cons_of_mem d hd', hh1, hh2, hh3⟩
      · intro q hq1 hq2 hex
        obtain ⟨d', hd', g1, g2, g3⟩ := hex
        rcases List.mem_cons.mp hd' with rfl | hd'
        · exact absurd ⟨g1, g2⟩ hnn
        · exact i5 q hq1 hq2 ⟨d', hd', g1, g2, g3⟩

theorem fillStep_invT (pc tc : Color) (cw ch : ℕ) (st : FillState)
    (hI : FillInvT cw ch st) (hne : st.queue ≠ []) :
    FillInvT cw ch (fillStep pc tc cw ch st) ∧
    (fillStep pc tc cw ch st).queue.length
        + (cw * ch - (fillStep pc tc cw ch st).visited.length) + 1
      = st.queue.length + (cw * ch - st.visited.length) := by
  obtain ⟨h1, h2, h3, h4⟩ := hI
  rcases hq : st.queue with _ | ⟨c, rest⟩
  · exact absurd hq hne
  · have hcin : c ∈ st.visited := h3 c (by rw [hq]; exact List.mem_cons_self c rest)
    have hcb := h2 c hcin
    have hrest_sub : ∀ p ∈ rest, p ∈ st.visited := fun p hp =>
      h3 p (by rw [hq]; exact List.mem_cons_of_mem c hp)
    have hrest_nd : rest.Nodup := by
      rw [hq] at h4
      exact (List.nodup_cons.mp h4).2
    have hcrest : c ∉ rest := by
      rw [hq] at h4
      exact (List.nodup_cons.mp h4).1
    have hvle : st.visited.length ≤ cw * ch := nodupGrid_length_le cw ch st.visited h1 h2
    unfold fillStep
    simp only [hq]
    rw [if_neg (show ¬(c.1 ≥ cw ∨ c.2 ≥ ch) by omega)]
    by_cases hcol : st.layer.get_pixel c.1 c.2 ≠ tc
    · rw [if_pos hcol]
      refine ⟨⟨h1, h2, hrest_sub, hrest_nd⟩, ?_⟩
      simp only [List.length_cons]
      omega
    · rw [if_neg hcol]
      obtain ⟨new, hv1, hv2, hvnd, hvchar, _⟩ :=
        fillVisit_fold_spec cw ch c fill_deltas (st.visited, rest)
      dsimp only at hv1 hv2
      have hnew_fresh : ∀ n ∈ new, n ∉ st.visited := fun n hn => (hvchar n hn).1
      have hnew_inb : ∀ n ∈ new, n.1 < cw ∧ n.2 < ch := fun n hn =>
        ⟨(hvchar n hn).2.1, (hvchar n hn).2.2.1⟩
      have hvis' : (fill_deltas.foldl (fillVisit cw ch c) (st.visited, rest)).1
          = st.visited ++ new := hv1
      have hq' : (fill_deltas.foldl (fillVisit cw ch c) (st.visited, rest)).2
          = rest ++ new := hv2
      have hnd' : (st.visited ++ new).Nodup :=
        h1.append hvnd (fun a ha hb => hnew_fresh a hb ha)
      have hinb' : ∀ p ∈ st.visited ++ new, p.1 < cw ∧ p.2 < ch := by
        intro p hp
        rcases List.mem_append.mp hp with hm | hm
        · exact h2 p hm
        · exact hnew_inb p hm
      have hvle' : (st.visited ++ new).length ≤ cw * ch :=
        nodupGrid_length_le cw ch _ hnd' hinb'
      refine ⟨⟨?_, ?_, ?_, ?_⟩, ?_⟩
      · dsimp only
        rw [hvis']
        exact hnd'
      · dsimp only
        rw [hvis']
        exact hinb'
      · dsimp only
        rw [hvis', hq']
        intro p hp
        rcases List.mem_append.mp hp with hm | hm
        · exact List.mem_append_left _ (hrest_sub p hm)
        · exact List.mem_append_right _ hm
      · dsimp only
        rw [hq']
        refine hrest_nd.append hvnd ?_
        intro a ha hb
        exact hnew_fresh a hb (hrest_sub a ha)
      · dsimp only
        rw [hvis', hq']
        rw [List.length_append, List.length_append, List.length_cons]
        rw [List.length_append] at hvle'
        omega

theorem fillLoop_drain (pc tc : Color) (cw ch : ℕ) (I : FillState → Prop)
    (hstep : ∀ st, I st → st.queue ≠ [] →
      I (fillStep pc tc cw ch st) ∧
      (fillStep pc tc cw ch st).queue.length
          + (cw * ch - (fillStep pc tc cw ch st).visited.length) + 1
        = st.queue.length + (cw * ch - st.visited.length)) :
    ∀ (fuel : ℕ) (st : FillState), I st →
      st.queue.length + (cw * ch - st.visited.length) ≤ fuel →
      I (fillLoop pc tc cw ch fuel st) ∧ (fillLoop pc tc cw ch fuel st).queue = []
  | 0, st, hI, hf => by
    have hql : st.queue.length = 0 := by omega
    exact ⟨hI, List.length_eq_zero.mp hql⟩
  | fuel + 1, st, hI, hf => by
    rcases hq : st.queue with _ | ⟨c, rest⟩
    · unfold fillLoop
      simp only [hq]
      exact ⟨hI, trivial⟩
    · unfold fillLoop
      simp only [hq]
      obtain ⟨hI', hf'⟩ := hstep st hI (by rw [hq]; simp)
      refine fillLoop_drain pc tc cw ch I hstep fuel (fillStep pc tc cw ch st) hI' ?_
      omega

/-- C6: the flood-fill BFS terminates within `canvas_width * canvas_height`
iterations from any in-bounds seed: the visited set keeps every cell at most
once and is confined to the canvas, so with that much fuel the queue is
drained — matching the source's unbounded `while let` loop. -/
theorem claim_C6 (pc tc : Color) (cw ch : ℕ) (L : Layer) (x y : ℕ)
    (hx : x < cw) (hy : y < ch) : FillTermSpec pc tc cw ch L x y := by
  have hI0 : FillInvT cw ch ⟨L, [], [(x, y)], [(x, y)]⟩ := by
    refine ⟨List.nodup_singleton _, ?_, ?_, List.nodup_singleton _⟩
    · intro p hp
      rw [List.mem_singleton] at hp
      subst hp
      exact ⟨hx, hy⟩
    · intro p hp
      exact hp
  have hpos : 1 ≤ cw * ch := Nat.mul_pos (by omega) (by omega)
  have hf0 : (⟨L, [], [(x, y)], [(x, y)]⟩ : FillState).queue.length
      + (cw * ch - (⟨L, [], [(x, y)], [(x, y)]⟩ : FillState).visited.length) ≤ cw * ch := by
    dsimp only
    simp only [List.length_singleton]
    omega
  obtain ⟨hIf, hqe⟩ := fillLoop_drain pc tc cw ch (FillInvT cw ch)
    (fun st hI hne => fillStep_invT pc tc cw ch st hI hne)
    (cw * ch) ⟨L, [], [(x, y)], [(x, y)]⟩ hI0 hf0
  obtain ⟨f1, f2, _, _⟩ := hIf
  exact ⟨hqe, f1, f2, nodupGrid_length_le cw ch _ f1 f2⟩

theorem claim_C6_witness :
    FillTermSpec Color.BLACK Color.WHITE 2 2 (Layer.new ("A") 2 2) 0 0 :=
  claim_C6 Color.BLACK Color.WHITE 2 2 (Layer.new ("A") 2 2) 0 0 (by decide) (by decide)

theorem fillStep_paint (pc tc : Color) (cw ch : ℕ) (st : FillState) (c : ℕ × ℕ)
    (rest : List (ℕ × ℕ)) (hq : st.queue = c :: rest) (hcb1 : c.1 < cw) (hcb2 : c.2 < ch)
    (hcol : st.layer.get_pixel c.1 c.2 = tc) :
    fillStep pc tc cw ch st =
      { layer := st.layer.set_pixel c.1 c.2 pc,
        changes := st.changes ++ [(c.1, c.2, st.layer.get_pixel c.1 c.2, pc)],
        queue := (fill_deltas.foldl (fillVisit cw ch c) (st.visited, rest)).2,
        visited := (fill_deltas.foldl (fillVisit cw ch c) (st.visited, rest)).1 } := by
  unfold fillStep
  simp only [hq]
  rw [if_neg (show ¬(c.1 ≥ cw ∨ c.2 ≥ ch) by omega)]
  rw [if_neg (show ¬(st.layer.get_pixel c.1 c.2 ≠ tc) from fun hcc => hcc hcol)]

theorem fillStep_invF (L : Layer) (tc pc : Color) (cw ch : ℕ) (seed : ℕ × ℕ)
    (hw : L.width = cw) (hh : L.height = ch) (hlen : L.pixels.length = cw * ch * 4)
    (hsx : seed.1 < cw) (hsy : seed.2 < ch) (htc : L.get_pixel seed.1 seed.2 = tc)
    (st : FillState) (hT : FillInvT cw ch st) (hF : FillInvF L tc pc cw ch seed st)
    (hne : st.queue ≠ []) :
    FillInvF L tc pc cw ch seed (fillStep pc tc cw ch st) := by
  obtain ⟨h1, h2, h3, h4⟩ := hT
  obtain ⟨f1, f2, f3, f4, f5, f6, f7, f8, f9, f10, f11, f12, f13⟩ := hF
  rcases hq : st.queue with _ | ⟨c, rest⟩
  · exact absurd hq hne
  · have hcq : c ∈ st.queue := by rw [hq]; exact List.mem_cons_self c rest
    have hcin : c ∈ st.visited := h3 c hcq
    have hcb := h2 c hcin
    have hcnp : c ∉ painted st := fun hp => f1 c hp hcq
    have hcrest : c ∉ rest := by
      rw [hq] at h4
      exact (List.nodup_cons.mp h4).1
    have hW : st.layer.width = cw := f6.trans hw
    have hH : st.layer.height = ch := f7.trans hh
    have hL8 : st.layer.pixels.length = cw * ch * 4 := f8.trans hlen
    have horig : st.layer.get_pixel c.1 c.2 = L.get_pixel c.1 c.2 := by
      refine get_pixel_eq_of_quads st.layer L c.1 c.2 f6 f7 f8 ?_
      rw [hw]
      exact (f9 c hcb.1 hcb.2).2 hcnp
    by_cases hcol : st.layer.get_pixel c.1 c.2 = tc
    · -- paint branch
      have horigc : L.get_pixel c.1 c.2 = tc := horig.symm.trans hcol
      have hreg_c : FillRegion L tc cw ch seed c := by
        rcases f10 c hcin with rfl | ⟨q, hqr, hqadj⟩
        · exact FillRegion.seed hsx hsy htc
        · exact FillRegion.step q c hqr hqadj hcb.1 hcb.2 horigc
      obtain ⟨new, hv1, hv2, hvnd, hvchar, hvcompl⟩ :=
        fillVisit_fold_spec cw ch c fill_deltas (st.visited, rest)
      dsimp only at hv1 hv2
      have hnewf : ∀ n ∈ new, n ∉ st.visited := fun n hn => (hvchar n hn).1
      have hnewb : ∀ n ∈ new, n.1 < cw ∧ n.2 < ch := fun n hn =>
        ⟨(hvchar n hn).2.1, (hvchar n hn).2.2.1⟩
      have hnewadj : ∀ n ∈ new, adjacent4 c n := fun n hn =>
        (adj_iff_delta c n).mp (hvchar n hn).2.2.2
      rw [fillStep_paint pc tc cw ch st c rest hq hcb.1 hcb.2 hcol]
      unfold FillInvF
      have hpd : painted
          { layer := st.layer.set_pixel c.1 c.2 pc,
            changes := st.changes ++ [(c.1, c.2, st.layer.get_pixel c.1 c.2, pc)],
            queue := (fill_deltas.foldl (fillVisit cw ch c) (st.visited, rest)).2,
            visited := (fill_deltas.foldl (fillVisit cw ch c) (st.visited, rest)).1 }
          = painted st ++ [(c.1, c.2)] := by
        unfold painted
        dsimp only
        rw [List.map_append]
        rfl
      rw [hpd]
      dsimp only
      rw [hv1, hv2]
      refine ⟨?_, ?_, ?_, ?_, ?_, ?_, ?_, ?_, ?_, ?_, ?_, ?_, ?_⟩
      · -- painted cells never queued
        intro p hp hpq
        rcases List.mem_append.mp hp with hpo | hpc
        · rcases List.mem_append.mp hpq with hr | hn
          · exact f1 p hpo (by rw [hq]; exact List.mem_cons_of_mem c hr)
          · exact hnewf p hn (f2 p hpo)
        · rw [List.mem_singleton] at hpc
          subst hpc
          rcases List.mem_append.mp hpq with hr | hn
          · exact hcrest hr
          · exact hnewf _ hn hcin
      · -- painted cells visited
        intro p hp
        rcases List.mem_append.mp hp with hpo | hpc
        · exact List.mem_append_left _ (f2 p hpo)
        · rw [List.mem_singleton] at hpc
          subst hpc
          exact List.mem_append_left _ hcin
      · -- change entries record target and primary colours
        intro e he
        rcases List.mem_append.mp he with heo | hec
        · exact f3 e heo
        · rw [List.mem_singleton] at hec
          subst hec
          exact ⟨hcol, rfl⟩
      · -- painted nodup
        refine f4.append (List.nodup_singleton _) ?_
        intro a ha hb
        rw [List.mem_singleton] at hb
        subst hb
        exact hcnp ha
      · -- painted cells lie in the region
        intro p hp
        rcases List.mem_append.mp hp with hpo | hpc
        · exact f5 p hpo
        · rw [List.mem_singleton] at hpc
          subst hpc
          exact hreg_c
      · exact (set_pixel_width _ _ _ _).trans f6
      · exact (set_pixel_height _ _ _ _).trans f7
      · exact (set_pixel_pixels_length _ _ _ _).trans f8
      · -- quad characterisation
        intro p hp1 hp2
        have hwrite := set_pixel_eq_write st.layer c.1 c.2 pc
          (by rw [hW]; exact hcb.1) (by rw [hH]; exact hcb.2)
          (by rw [hW, hL8]; exact flatIdx_lt cw ch c.1 c.2 hcb.1 hcb.2)
        constructor
        · intro hp
          rcases List.mem_append.mp hp with hpo | hpc
          · have hpc2 : p ≠ c := by
              intro hcon
              exact hcnp (hcon ▸ hpo)
            rw [hwrite]
            dsimp only
            rw [hW]
            rw [getQuad_setQuad_disjoint _ _ _ _ ?_]
            · exact (f9 p hp1 hp2).1 hpo
            · have hne2 : c.2 * cw + c.1 ≠ p.2 * cw + p.1 :=
                rowMajor_ne hcb.1 hp1 (fun hcon => hpc2 hcon.symm)
              omega
          · rw [List.mem_singleton] at hpc
            subst hpc
            rw [hwrite]
            dsimp only
            rw [hW]
            exact getQuad_setQuad_self _ _ _
              (by rw [hL8]; exact flatIdx_lt cw ch c.1 c.2 hcb.1 hcb.2)
        · intro hpn
          have hpo : p ∉ painted st := fun hcon =>
            hpn (List.mem_append_left _ hcon)
          have hpc2 : p ≠ c := by
            intro hcon
            exact hpn (List.mem_append_right _ (by rw [List.mem_singleton]; exact hcon))
          rw [hwrite]
          dsimp only
          rw [hW]
          rw [getQuad_setQuad_disjoint _ _ _ _ ?_]
          · exact (f9 p hp1 hp2).2 hpo
          · have hne2 : c.2 * cw + c.1 ≠ p.2 * cw + p.1 :=
              rowMajor_ne hcb.1 hp1 (fun hcon => hpc2 hcon.symm)
            omega
      · -- visited cells are the seed or neighbours of region cells
        intro p hp
        rcases List.mem_append.mp hp with hpo | hn
        · exact f10 p hpo
        · exact Or.inr ⟨c, hreg_c, hnewadj p hn⟩
      · -- painted cells have all in-bounds neighbours visited
        intro p hp q hadj hq1 hq2
        rcases List.mem_append.mp hp with hpo | hpc
        · exact List.mem_append_left _ (f11 p hpo q hadj hq1 hq2)
        · rw [List.mem_singleton] at hpc
          subst hpc
          exact hvcompl q hq1 hq2 ((adj_iff_delta c q).mpr hadj)
      · -- visited target-coloured cells are painted or queued
        intro q hqv hqc
        rcases List.mem_append.mp hqv with hqo | hqn
        · rcases f12 q hqo hqc with hp | hqq
          · exact Or.inl (List.mem_append_left _ hp)
          · rw [hq] at hqq
            rcases List.mem_cons.mp hqq with rfl | hqr
            · exact Or.inl (List.mem_append_right _ (by rw [List.mem_singleton]))
            · exact Or.inr (List.mem_append_left _ hqr)
        · exact Or.inr (List.mem_append_right _ hqn)
      · exact List.mem_append_left _ f13
    · -- skip branch: the cell does not hold the target colour
      have hstep : fillStep pc tc cw ch st = { st with queue := rest } := by
        unfold fillStep
        simp only [hq]
        rw [if_neg (show ¬(c.1 ≥ cw ∨ c.2 ≥ ch) by omega)]
        rw [if_pos hcol]
      rw [hstep]
      unfold FillInvF
      dsimp only
      refine ⟨?_, f2, f3, f4, f5, f6, f7, f8, f9, f10, f11, ?_, f13⟩
      · intro p hp hpr
        exact f1 p hp (by rw [hq]; exact List.mem_cons_of_mem c hpr)
      · intro q hqv hqc
        rcases f12 q hqv hqc with hp | hqq
        · exact Or.inl hp
        · rw [hq] at hqq
          rcases List.mem_cons.mp hqq with rfl | hqr
          · exact absurd (horig.trans hqc) hcol
          · exact Or.inr hqr

/-- C5: flood fill at an in-bounds seed is a no-op when the seed already has
the primary colour; otherwise it repaints exactly the 4-connected region of
the seed's colour containing the seed, leaves every other pixel's bytes
unchanged, and pushes the whole edit as one MultiPixelChange recording
(target, primary) for each repainted cell. -/
theorem claim_C5 (s : EditorState) (x y : ℕ) (L : Layer)
    (hx : x < s.canvas_width) (hy : y < s.canvas_height)
    (hL : s.layers.get? s.active_layer_index = some L)
    (hwf : LayerWf s.canvas_width s.canvas_height L) :
    FillSpec s x y L := by
  obtain ⟨hw, hh, hlen, _⟩ := hwf
  constructor
  · intro heq
    unfold apply_fill
    rw [if_neg (show ¬(x ≥ s.canvas_width ∨ y ≥ s.canvas_height) by omega)]
    dsimp only
    simp only [hL]
    rw [if_pos heq]
  · intro hneq
    have hT0 : FillInvT s.canvas_width s.canvas_height ⟨L, [], [(x, y)], [(x, y)]⟩ := by
      refine ⟨List.nodup_singleton _, ?_, fun p hp => hp, List.nodup_singleton _⟩
      intro p hp
      rw [List.mem_singleton] at hp
      subst hp
      exact ⟨hx, hy⟩
    have hF0 : FillInvF L (L.get_pixel x y) s.primary_color s.canvas_width s.canvas_height
        (x, y) ⟨L, [], [(x, y)], [(x, y)]⟩ := by
      refine ⟨?_, ?_, ?_, List.nodup_nil, ?_, rfl, rfl, rfl, ?_, ?_, ?_, ?_, ?_⟩
      · intro p hp
        exact absurd hp (List.not_mem_nil p)
      · intro p hp
        exact absurd hp (List.not_mem_nil p)
      · intro e he
        exact absurd he (List.not_mem_nil e)
      · intro p hp
        exact absurd hp (List.not_mem_nil p)
      · intro p _ _
        exact ⟨fun hp => absurd hp (List.not_mem_nil p), fun _ => rfl⟩
      · intro p hp
        rw [List.mem_singleton] at hp
        exact Or.inl hp
      · intro p hp
        exact absurd hp (List.not_mem_nil p)
      · intro q hqv _
        exact Or.inr hqv
      · exact List.mem_singleton.mpr rfl
    have hpos : 1 ≤ s.canvas_width * s.canvas_height := Nat.mul_pos (by omega) (by omega)
    have hf0 : (⟨L, [], [(x, y)], [(x, y)]⟩ : FillState).queue.length
        + (s.canvas_width * s.canvas_height
            - (⟨L, [], [(x, y)], [(x, y)]⟩ : FillState).visited.length)
        ≤ s.canvas_width * s.canvas_height := by
      dsimp only
      simp only [List.length_singleton]
      omega
    obtain ⟨⟨hTf, hFf⟩, hqe⟩ := fillLoop_drain s.primary_color (L.get_pixel x y)
      s.canvas_width s.canvas_height
      (fun st => FillInvT s.canvas_width s.canvas_height st ∧
        FillInvF L (L.get_pixel x y) s.primary_color s.canvas_width s.canvas_height
          (x, y) st)
      (fun st hI hne =>
        ⟨⟨(fillStep_invT s.primary_color (L.get_pixel x y) s.canvas_width s.canvas_height
              st hI.1 hne).1,
          fillStep_invF L (L.get_pixel x y) s.primary_color s.canvas_width s.canvas_height
            (x, y) hw hh hlen hx hy rfl st hI.1 hI.2 hne⟩,
         (fillStep_invT s.primary_color (L.get_pixel x y) s.canvas_width s.canvas_height
            st hI.1 hne).2⟩)
      (s.canvas_width * s.canvas_height) ⟨L, [], [(x, y)], [(x, y)]⟩ ⟨hT0, hF0⟩ hf0
    obtain ⟨g1, g2, g3, g4, g5, g6, g7, g8, g9, g10, g11, g12, g13⟩ := hFf
    have hcompl : ∀ p, FillRegion L (L.get_pixel x y) s.canvas_width s.canvas_height (x, y) p →
        p ∈ painted (fillLoop s.primary_color (L.get_pixel x y) s.canvas_width
          s.canvas_height (s.canvas_width * s.canvas_height) ⟨L, [], [(x, y)], [(x, y)]⟩) := by
      intro p hp
      induction hp with
      | seed hs1 hs2 hs3 =>
        rcases g12 (x, y) g13 hs3 with h | h
        · exact h
        · rw [hqe] at h
          exact absurd h (List.not_mem_nil _)
      | step p q hp hadj hq1 hq2 hqc ih =>
        have hqv := g11 p ih q hadj hq1 hq2
        rcases g12 q hqv hqc with h | h
        · exact h
        · rw [hqe] at h
          exact absurd h (List.not_mem_nil _)
    have hseedp : (x, y) ∈ painted (fillLoop s.primary_color (L.get_pixel x y)
        s.canvas_width s.canvas_height (s.canvas_width * s.canvas_height)
        ⟨L, [], [(x, y)], [(x, y)]⟩) :=
      hcompl (x, y) (FillRegion.seed hx hy rfl)
    have hchne : (fillLoop s.primary_color (L.get_pixel x y) s.canvas_width s.canvas_height
        (s.canvas_width * s.canvas_height) ⟨L, [], [(x, y)], [(x, y)]⟩).changes ≠ [] := by
      intro hcon
      have hpn : painted (fillLoop s.primary_color (L.get_pixel x y) s.canvas_width
          s.canvas_height (s.canvas_width * s.canvas_height)
          ⟨L, [], [(x, y)], [(x, y)]⟩) = [] := by
        unfold painted
        rw [hcon]
        rfl
      rw [hpn] at hseedp
      exact absurd hseedp (List.not_mem_nil _)
    have happly : apply_fill s x y
        = { s with
            layers := s.layers.set s.active_layer_index
              (fillLoop s.primary_color (L.get_pixel x y) s.canvas_width s.canvas_height
                (s.canvas_width * s.canvas_height) ⟨L, [], [(x, y)], [(x, y)]⟩).layer,
            history := s.history.push (EditCommand.MultiPixelChange s.active_layer_index
              (fillLoop s.primary_color (L.get_pixel x y) s.canvas_width s.canvas_height
                (s.canvas_width * s.canvas_height) ⟨L, [], [(x, y)], [(x, y)]⟩).changes) } := by
      unfold apply_fill
      rw [if_neg (show ¬(x ≥ s.canvas_width ∨ y ≥ s.canvas_height) by omega)]
      dsimp only
      simp only [hL]
      rw [if_neg hneq]
      rw [if_pos hchne]
    have hchmap : (fillLoop s.primary_color (L.get_pixel x y) s.canvas_width s.canvas_height
          (s.canvas_width * s.canvas_height) ⟨L, [], [(x, y)], [(x, y)]⟩).changes
        = (painted (fillLoop s.primary_color (L.get_pixel x y) s.canvas_width s.canvas_height
            (s.canvas_width * s.canvas_height) ⟨L, [], [(x, y)], [(x, y)]⟩)).map
          (fun p => (p.1, p.2, L.get_pixel x y, s.primary_color)) := by
      unfold painted
      rw [List.map_map]
      have hid : ∀ e ∈ (fillLoop s.primary_color (L.get_pixel x y) s.canvas_width
          s.canvas_height (s.canvas_width * s.canvas_height)
          ⟨L, [], [(x, y)], [(x, y)]⟩).changes,
          ((fun p : ℕ × ℕ => (p.1, p.2, L.get_pixel x y, s.primary_color)) ∘
            (fun e : ℕ × ℕ × Color × Color => (e.1, e.2.1))) e = id e := by
        intro e he
        obtain ⟨e1, e2⟩ := g3 e he
        rcases e with ⟨a, b, cc, d⟩
        dsimp only [Function.comp, id] at e1 e2 ⊢
        rw [e1, e2]
      rw [List.map_congr_left hid, List.map_id]
    refine ⟨painted (fillLoop s.primary_color (L.get_pixel x y) s.canvas_width
        s.canvas_height (s.canvas_width * s.canvas_height) ⟨L, [], [(x, y)], [(x, y)]⟩),
      fun p => ⟨g5 p, hcompl p⟩, g4, ?_,
      (fillLoop s.primary_color (L.get_pixel x y) s.canvas_width s.canvas_height
        (s.canvas_width * s.canvas_height) ⟨L, [], [(x, y)], [(x, y)]⟩).layer,
      ?_, ?_⟩
    · rw [happly, ← hchmap]
    · rw [happly]
    · intro p hp1 hp2
      exact g9 p hp1 hp2

theorem claim_C5_witness :
    FillSpec fillWitState 0 0
      { Layer.new ("Layer 1") 2 2 with pixels := List.replicate 12 0 ++ [255, 255, 255, 255] } :=
  claim_C5 fillWitState 0 0
    { Layer.new ("Layer 1") 2 2 with pixels := List.replicate 12 0 ++ [255, 255, 255, 255] }
    (by decide) (by decide) (by decide) (by unfold LayerWf; decide)

/-! ## C1: export compositing vs per-pixel compositing -/

theorem save_composite_eq_passes (s : EditorState) :
    save_composite s = s.layers.foldl
      (fun rgba_data layer =>
        if layer.visible = false then rgba_data
        else exportPass s.canvas_width layer rgba_data
          (range2 (List.range s.canvas_height) (List.range s.canvas_width)))
      (List.replicate (s.canvas_width * s.canvas_height * 4) 0) := rfl

theorem exportCellStep_length (cw : ℕ) (layer : Layer) (buf : List ℕ) (yx : ℕ × ℕ) :
    (exportCellStep cw layer buf yx).length = buf.length := by
  unfold exportCellStep
  dsimp only
  split_ifs with h1 h2
  · rfl
  · exact length_setQuad _ _ _
  · rfl

theorem exportCellStep_write (cw ch : ℕ) (layer : Layer) (buf : List ℕ) (yx : ℕ × ℕ)
    (hy : yx.1 < ch) (hx : yx.2 < cw) (hlw : layer.pixels.length = cw * ch * 4)
    (hbl : buf.length = cw * ch * 4) :
    exportCellStep cw layer buf yx
      = setQuad buf ((yx.1 * cw + yx.2) * 4)
          (exportBlend layer.opacity (getQuad layer.pixels ((yx.1 * cw + yx.2) * 4))
            (getQuad buf ((yx.1 * cw + yx.2) * 4))) := by
  have hidx : (yx.1 * cw + yx.2) * 4 + 3 < cw * ch * 4 :=
    flatIdx_lt cw ch yx.2 yx.1 hx hy
  unfold exportCellStep
  dsimp only
  rw [if_neg (show ¬((yx.1 * cw + yx.2) * 4 + 3 ≥ layer.get_pixel_buffer.length) from by
    unfold Layer.get_pixel_buffer
    omega)]
  rw [if_pos (show (yx.1 * cw + yx.2) * 4 + 3 < buf.length from by omega)]
  rfl

theorem exportCellStep_frame (cw ch : ℕ) (layer : Layer) (buf : List ℕ) (yx q : ℕ × ℕ)
    (hyx : yx.1 < ch ∧ yx.2 < cw) (hq : q.1 < ch ∧ q.2 < cw) (hne : yx ≠ q) :
    getQuad (exportCellStep cw layer buf yx) ((q.1 * cw + q.2) * 4)
      = getQuad buf ((q.1 * cw + q.2) * 4) := by
  have hrow : yx.1 * cw + yx.2 ≠ q.1 * cw + q.2 := by
    have := rowMajor_ne (w := cw) (p := (yx.2, yx.1)) (q := (q.2, q.1)) hyx.2 hq.2
      (fun hcon => hne (Prod.ext (congrArg Prod.snd hcon) (congrArg Prod.fst hcon)))
    simpa using this
  unfold exportCellStep
  dsimp only
  split_ifs with h1 h2
  · rfl
  · exact getQuad_setQuad_disjoint _ _ _ _ (by omega)
  · rfl

theorem exportPass_length (cw : ℕ) (layer : Layer) :
    ∀ (qs : List (ℕ × ℕ)) (buf : List ℕ), (exportPass cw layer buf qs).length = buf.length
  | [], _ => rfl
  | r :: rest, buf => by
    unfold exportPass
    rw [List.foldl_cons]
    rw [show List.foldl (exportCellStep cw layer) (exportCellStep cw layer buf r) rest
        = exportPass cw layer (exportCellStep cw layer buf r) rest from rfl]
    rw [exportPass_length cw layer rest _, exportCellStep_length]

theorem exportPass_frame (cw ch : ℕ) (layer : Layer) :
    ∀ (qs : List (ℕ × ℕ)) (buf : List ℕ) (q : ℕ × ℕ),
    (∀ r ∈ qs, r.1 < ch ∧ r.2 < cw) → q.1 < ch → q.2 < cw →
    (∀ r ∈ qs, r ≠ q) →
    getQuad (exportPass cw layer buf qs) ((q.1 * cw + q.2) * 4)
      = getQuad buf ((q.1 * cw + q.2) * 4)
  | [], _, _, _, _, _, _ => rfl
  | r :: rest, buf, q, hb, hq1, hq2, hne => by
    unfold exportPass
    rw [List.foldl_cons]
    rw [show List.foldl (exportCellStep cw layer) (exportCellStep cw layer buf r) rest
        = exportPass cw layer (exportCellStep cw layer buf r) rest from rfl]
    rw [exportPass_frame cw ch layer rest _ q
      (fun t ht => hb t (List.mem_cons_of_mem r ht)) hq1 hq2
      (fun t ht => hne t (List.mem_cons_of_mem r ht))]
    exact exportCellStep_frame cw ch layer buf r q (hb r (List.mem_cons_self r rest))
      ⟨hq1, hq2⟩ (hne r (List.mem_cons_self r rest))

theorem exportPass_quad (cw ch : ℕ) (layer : Layer) (hlw : layer.pixels.length = cw * ch * 4) :
    ∀ (qs : List (ℕ × ℕ)) (buf : List ℕ) (q : ℕ × ℕ),
    buf.length = cw * ch * 4 →
    (∀ r ∈ qs, r.1 < ch ∧ r.2 < cw) →
    qs.Nodup → q ∈ qs →
    getQuad (exportPass cw layer buf qs) ((q.1 * cw + q.2) * 4)
      = exportBlend layer.opacity (getQuad layer.pixels ((q.1 * cw + q.2) * 4))
          (getQuad buf ((q.1 * cw + q.2) * 4))
  | [], _, q, _, _, _, hq => absurd hq (List.not_mem_nil q)
  | r :: rest, buf, q, hbl, hb, hnd, hq => by
    have hbr := hb r (List.mem_cons_self r rest)
    have hwrite := exportCellStep_write cw ch layer buf r hbr.1 hbr.2 hlw hbl
    unfold exportPass
    rw [List.foldl_cons]
    rw [show List.foldl (exportCellStep cw layer) (exportCellStep cw layer buf r) rest
        = exportPass cw layer (exportCellStep cw layer buf r) rest from rfl]
    rcases List.mem_cons.mp hq with rfl | hmem
    · have hnr : ∀ t ∈ rest, t ≠ q := fun t ht he =>
        (List.nodup_cons.mp hnd).1 (he ▸ ht)
      rw [exportPass_frame cw ch layer rest _ q
        (fun t ht => hb t (List.mem_cons_of_mem q ht)) hbr.1 hbr.2 hnr]
      rw [hwrite]
      exact getQuad_setQuad_self _ _ _
        (by rw [hbl]; exact flatIdx_lt cw ch q.2 q.1 hbr.2 hbr.1)
    · have hqr := hb q (List.mem_cons_of_mem r hmem)
      have hqner : q ≠ r := fun hcon => (List.nodup_cons.mp hnd).1 (hcon ▸ hmem)
      rw [exportPass_quad cw ch layer hlw rest _ q
        (by rw [exportCellStep_length]; exact hbl)
        (fun t ht => hb t (List.mem_cons_of_mem r ht))
        (List.nodup_cons.mp hnd).2 hmem]
      rw [exportCellStep_frame cw ch layer buf r q hbr hqr (fun hcon => hqner hcon.symm)]

theorem exportBlend_alpha0 (r g b : ℕ) (old : ℕ × ℕ × ℕ × ℕ)
    (h1 : old.1 ≤ 255) (h2 : old.2.1 ≤ 255) (h3 : old.2.2.1 ≤ 255) (h4 : old.2.2.2 ≤ 255) :
    exportBlend 1 (r, g, b, 0) old = old := by
  unfold exportBlend
  dsimp only
  rw [show ((r : ℚ) * (((0 : ℕ) : ℚ) / 255 * 1) + (old.1 : ℚ) * (1 - ((0 : ℕ) : ℚ) / 255 * 1))
      = ((old.1 : ℕ) : ℚ) from by push_cast; ring]
  rw [show ((g : ℚ) * (((0 : ℕ) : ℚ) / 255 * 1) + (old.2.1 : ℚ) * (1 - ((0 : ℕ) : ℚ) / 255 * 1))
      = ((old.2.1 : ℕ) : ℚ) from by push_cast; ring]
  rw [show ((b : ℚ) * (((0 : ℕ) : ℚ) / 255 * 1) + (old.2.2.1 : ℚ) * (1 - ((0 : ℕ) : ℚ) / 255 * 1))
      = ((old.2.2.1 : ℕ) : ℚ) from by push_cast; ring]
  rw [show min ((old.2.2.2 : ℚ) + ((0 : ℕ) : ℚ) * 1) 255 = ((old.2.2.2 : ℕ) : ℚ) from by
    push_cast
    rw [show (old.2.2.2 : ℚ) + 0 * 1 = (old.2.2.2 : ℚ) from by ring]
    exact min_eq_left (by exact_mod_cast h4)]
  rw [ratToU8_natCast _ h1, ratToU8_natCast _ h2, ratToU8_natCast _ h3, ratToU8_natCast _ h4]

theorem exportBlend_alpha255 (r g b : ℕ) (old : ℕ × ℕ × ℕ × ℕ)
    (hr : r ≤ 255) (hg : g ≤ 255) (hb : b ≤ 255) :
    exportBlend 1 (r, g, b, 255) old = (r, g, b, 255) := by
  unfold exportBlend
  dsimp only
  rw [show ((r : ℚ) * (((255 : ℕ) : ℚ) / 255 * 1) + (old.1 : ℚ) * (1 - ((255 : ℕ) : ℚ) / 255 * 1))
      = ((r : ℕ) : ℚ) from by push_cast; ring]
  rw [show ((g : ℚ) * (((255 : ℕ) : ℚ) / 255 * 1)
        + (old.2.1 : ℚ) * (1 - ((255 : ℕ) : ℚ) / 255 * 1))
      = ((g : ℕ) : ℚ) from by push_cast; ring]
  rw [show ((b : ℚ) * (((255 : ℕ) : ℚ) / 255 * 1)
        + (old.2.2.1 : ℚ) * (1 - ((255 : ℕ) : ℚ) / 255 * 1))
      = ((b : ℕ) : ℚ) from by push_cast; ring]
  rw [show min ((old.2.2.2 : ℚ) + ((255 : ℕ) : ℚ) * 1) 255 = ((255 : ℕ) : ℚ) from by
    push_cast
    rw [mul_one]
    exact min_eq_right (le_add_of_nonneg_left (by positivity))]
  rw [ratToU8_natCast _ hr, ratToU8_natCast _ hg, ratToU8_natCast _ hb,
    ratToU8_natCast 255 le_rfl]

theorem into_from_alpha_one (r g b : ℕ) (hr : r ≤ 255) (hg : g ≤ 255) (hb : b ≤ 255) :
    (Color.from_rgba8 r g b 1).into_rgba8 = (r, g, b, 255) := by
  have h1 : ((1 : ℚ)) = ((255 : ℕ) : ℚ) / 255 := by norm_num
  rw [h1]
  exact into_from_rgba8 r g b 255 hr hg hb le_rfl

theorem blend_top_transparent (c : Color) (r g b : ℕ) (hr : r ≤ 255) (hg : g ≤ 255)
    (hb : b ≤ 255) (hgood : GoodAcc c) :
    blend_color c (Color.from_rgba8 r g b (((0 : ℕ) : ℚ) / 255)) 1 = c := by
  rcases hgood with rfl | ⟨r0, g0, b0, hr0, hg0, hb0, rfl⟩
  · unfold blend_color
    rw [show Color.TRANSPARENT.into_rgba8 = (0, 0, 0, 0) from by decide]
    rw [into_from_rgba8 r g b 0 hr hg hb (by omega)]
    dsimp only
    rw [if_pos (by push_cast; ring)]
  · unfold blend_color
    rw [into_from_alpha_one r0 g0 b0 hr0 hg0 hb0]
    rw [into_from_rgba8 r g b 0 hr hg hb (by omega)]
    dsimp only
    rw [if_neg (show ¬(((0 : ℕ) : ℚ) / 255 * 1
        + ((255 : ℕ) : ℚ) / 255 * (1 - ((0 : ℕ) : ℚ) / 255 * 1) = 0) from by
      push_cast
      norm_num)]
    unfold Color.from_rgba Color.from_rgba8
    simp only [Color.mk.injEq]
    refine ⟨?_, ?_, ?_, ?_⟩ <;> push_cast <;> ring_nf <;> norm_num

theorem blend_top_alpha_one (c : Color) (r g b : ℕ) (hr : r ≤ 255) (hg : g ≤ 255)
    (hb : b ≤ 255) :
    blend_color c (Color.from_rgba8 r g b (((255 : ℕ) : ℚ) / 255)) 1
      = Color.from_rgba8 r g b 1 := by
  unfold blend_color
  rw [into_from_rgba8 r g b 255 hr hg hb le_rfl]
  dsimp only
  rw [if_neg (show ¬(((255 : ℕ) : ℚ) / 255 * 1
      + ((c.into_rgba8.2.2.2 : ℕ) : ℚ) / 255 * (1 - ((255 : ℕ) : ℚ) / 255 * 1) = 0) from by
    push_cast
    norm_num)]
  unfold Color.from_rgba Color.from_rgba8
  simp only [Color.mk.injEq]
  refine ⟨?_, ?_, ?_, ?_⟩ <;> push_cast <;> ring_nf <;> norm_num

theorem layer_get_pixel_bytes (l : Layer) (cw ch x y : ℕ) (hwf : LayerWf cw ch l)
    (hx : x < cw) (hy : y < ch) :
    l.get_pixel x y = Color.from_rgba8 (l.pixels.getD ((y * cw + x) * 4) 0)
      (l.pixels.getD ((y * cw + x) * 4 + 1) 0) (l.pixels.getD ((y * cw + x) * 4 + 2) 0)
      ((l.pixels.getD ((y * cw + x) * 4 + 3) 0 : ℚ) / 255) := by
  obtain ⟨hw, hh, hlen, _⟩ := hwf
  unfold Layer.get_pixel
  rw [hw, hh, hlen]
  dsimp only
  rw [if_neg (show ¬(x ≥ cw ∨ y ≥ ch) by omega)]
  rw [if_pos (flatIdx_lt cw ch x y hx hy)]

theorem export_step_quad (l : Layer) (cw ch x y : ℕ) (c : Color)
    (hwf : LayerWf cw ch l) (hx : x < cw) (hy : y < ch)
    (hop : l.opacity = 1)
    (ha : l.pixels.getD ((y * cw + x) * 4 + 3) 0 = 0 ∨
          l.pixels.getD ((y * cw + x) * 4 + 3) 0 = 255)
    (hgood : GoodAcc c) :
    exportBlend l.opacity (getQuad l.pixels ((y * cw + x) * 4)) c.into_rgba8
      = (blend_color c (l.get_pixel x y) l.opacity).into_rgba8
    ∧ GoodAcc (blend_color c (l.get_pixel x y) l.opacity) := by
  obtain ⟨hw, hh, hlen, hbytes⟩ := hwf
  have hidx : (y * cw + x) * 4 + 3 < l.pixels.length := by
    rw [hlen]
    exact flatIdx_lt cw ch x y hx hy
  have hrb : l.pixels.getD ((y * cw + x) * 4) 0 ≤ 255 :=
    hbytes _ (getD_mem_of_lt _ _ (by omega))
  have hgb : l.pixels.getD ((y * cw + x) * 4 + 1) 0 ≤ 255 :=
    hbytes _ (getD_mem_of_lt _ _ (by omega))
  have hbb : l.pixels.getD ((y * cw + x) * 4 + 2) 0 ≤ 255 :=
    hbytes _ (getD_mem_of_lt _ _ (by omega))
  have ho1 : c.into_rgba8.1 ≤ 255 := intToU8_le _
  have ho2 : c.into_rgba8.2.1 ≤ 255 := intToU8_le _
  have ho3 : c.into_rgba8.2.2.1 ≤ 255 := intToU8_le _
  have ho4 : c.into_rgba8.2.2.2 ≤ 255 := intToU8_le _
  have hq : getQuad l.pixels ((y * cw + x) * 4)
      = (l.pixels.getD ((y * cw + x) * 4) 0, l.pixels.getD ((y * cw + x) * 4 + 1) 0,
         l.pixels.getD ((y * cw + x) * 4 + 2) 0, l.pixels.getD ((y * cw + x) * 4 + 3) 0) := rfl
  rw [layer_get_pixel_bytes l cw ch x y ⟨hw, hh, hlen, hbytes⟩ hx hy, hop, hq]
  rcases ha with ha | ha
  · rw [ha]
    have hbt := blend_top_transparent c _ _ _ hrb hgb hbb hgood
    rw [hbt]
    exact ⟨exportBlend_alpha0 _ _ _ _ ho1 ho2 ho3 ho4, hgood⟩
  · rw [ha]
    have hbt := blend_top_alpha_one c _ _ _ hrb hgb hbb
    rw [hbt]
    refine ⟨?_, Or.inr ⟨_, _, _, hrb, hgb, hbb, rfl⟩⟩
    rw [exportBlend_alpha255 _ _ _ _ hrb hgb hbb, into_from_alpha_one _ _ _ hrb hgb hbb]

theorem export_fold_pointwise (cw ch x y : ℕ) (hx : x < cw) (hy : y < ch) :
    ∀ (layers : List Layer) (buf : List ℕ) (c : Color),
    (∀ l ∈ layers, LayerWf cw ch l) →
    (∀ l ∈ layers, l.visible = true → l.opacity = 1 ∧
      (l.pixels.getD ((y * cw + x) * 4 + 3) 0 = 0 ∨
       l.pixels.getD ((y * cw + x) * 4 + 3) 0 = 255)) →
    buf.length = cw * ch * 4 →
    getQuad buf ((y * cw + x) * 4) = c.into_rgba8 →
    GoodAcc c →
    getQuad (layers.foldl (fun rgba_data layer =>
        if layer.visible = false then rgba_data
        else exportPass cw layer rgba_data (range2 (List.range ch) (List.range cw)))
        buf) ((y * cw + x) * 4)
      = (layers.foldl (fun result layer =>
          if layer.visible = false then result
          else blend_color result (layer.get_pixel x y) layer.opacity) c).into_rgba8
  | [], _, _, _, _, _, hquad, _ => hquad
  | l :: rest, buf, c, hwfs, hops, hbl, hquad, hgood => by
    rw [List.foldl_cons, List.foldl_cons]
    by_cases hv : l.visible = false
    · rw [if_pos hv, if_pos hv]
      exact export_fold_pointwise cw ch x y hx hy rest buf c
        (fun t ht => hwfs t (List.mem_cons_of_mem l ht))
        (fun t ht => hops t (List.mem_cons_of_mem l ht)) hbl hquad hgood
    · rw [if_neg hv, if_neg hv]
      have hvt : l.visible = true := by
        cases hvv : l.visible
        · exact absurd hvv hv
        · rfl
      have hopa := hops l (List.mem_cons_self l rest) hvt
      have hwl := hwfs l (List.mem_cons_self l rest)
      have hstep := export_step_quad l cw ch x y c hwl hx hy hopa.1 hopa.2 hgood
      have hpq := exportPass_quad cw ch l hwl.2.2.1
        (range2 (List.range ch) (List.range cw)) buf (y, x) hbl
        (by
          intro r hr
          rw [mem_range2] at hr
          obtain ⟨hr1, hr2⟩ := hr
          rw [List.mem_range] at hr1 hr2
          exact ⟨hr1, hr2⟩)
        (nodup_range2 _ _ (List.nodup_range ch) (List.nodup_range cw))
        (by
          rw [mem_range2]
          exact ⟨List.mem_range.mpr hy, List.mem_range.mpr hx⟩)
      refine export_fold_pointwise cw ch x y hx hy rest _
        (blend_color c (l.get_pixel x y) l.opacity)
        (fun t ht => hwfs t (List.mem_cons_of_mem l ht))
        (fun t ht => hops t (List.mem_cons_of_mem l ht))
        (by rw [exportPass_length]; exact hbl)
        ?_ hstep.2
      rw [hpq, hquad]
      exact hstep.1

theorem getQuad_replicate_zero (n i : ℕ) :
    getQuad (List.replicate n (0 : ℕ)) i = (0, 0, 0, 0) := by
  unfold getQuad
  have h : ∀ j, (List.replicate n (0 : ℕ)).getD j 0 = 0 := by
    intro j
    rcases lt_or_ge j n with hj | hj
    · rw [List.getD_eq_getElem?_getD, List.getElem?_replicate, if_pos hj]
      rfl
    · rw [List.getD_eq_getElem?_getD, List.getElem?_replicate, if_neg (by omega)]
      rfl
  rw [h i, h (i + 1), h (i + 2), h (i + 3)]

set_option maxRecDepth 4000 in
/-- C1 (amended): the full-buffer export compositing agrees with the
per-coordinate `get_pixel`-plus-`into_rgba8` path on every in-bounds pixel
whenever every visible layer has opacity one and only fully-transparent or
fully-opaque pixels; on general states the two paths differ (see the
counterexample below), because `blend_color` divides by the final alpha
while the export loop never un-premultiplies. -/
theorem claim_C1 (s : EditorState) (x y : ℕ) (hwf : StateWf s) (hof : OpaqueFlat s)
    (hx : x < s.canvas_width) (hy : y < s.canvas_height) :
    getQuad (save_composite s) ((y * s.canvas_width + x) * 4)
      = (s.get_pixel x y).into_rgba8 := by
  rw [save_composite_eq_passes]
  have hget : s.get_pixel x y = s.layers.foldl
      (fun result layer => if layer.visible = false then result
        else blend_color result (layer.get_pixel x y) layer.opacity) Color.TRANSPARENT := by
    unfold EditorState.get_pixel
    rw [if_neg (show ¬(x ≥ s.canvas_width ∨ y ≥ s.canvas_height) by omega)]
  rw [hget]
  refine export_fold_pointwise s.canvas_width s.canvas_height x y hx hy s.layers _
    Color.TRANSPARENT (fun l hl => hwf.2.1 l hl) ?_ (by rw [List.length_replicate]) ?_
    (Or.inl rfl)
  · intro l hl hv
    obtain ⟨ho, hia⟩ := hof l hl hv
    exact ⟨ho, hia (y * s.canvas_width + x)
      (List.mem_range.mpr (rowIdx_lt s.canvas_width s.canvas_height (x, y) hx hy))⟩
  · rw [getQuad_replicate_zero]
    decide

set_option maxRecDepth 8000 in
theorem claim_C1_witness :
    getQuad (save_composite cutCexState) ((0 * cutCexState.canvas_width + 0) * 4)
      = (cutCexState.get_pixel 0 0).into_rgba8 :=
  claim_C1 cutCexState 0 0 (by unfold StateWf LayerWf HistoryWf; decide)
    (by unfold OpaqueFlat; decide) (by decide) (by decide)

set_option maxRecDepth 8000 in
/-- C1 as stated is false: on a 1×1 canvas holding the half-transparent red
pixel (255, 0, 0, 128), the export path emits the premultiplied red byte 128
while the per-pixel path emits 255 — the two compositing implementations are
not numerically identical per pixel. -/
theorem claim_C1_cex :
    getQuad (save_composite exportCexState) 0 = (128, 0, 0, 128) ∧
    (exportCexState.get_pixel 0 0).into_rgba8 = (255, 0, 0, 128) ∧
    getQuad (save_composite exportCexState) 0
      ≠ (exportCexState.get_pixel 0 0).into_rgba8 := by decide

end

end Pxrs
